import Mathlib

/-!
# libcutil: dynamic array, test harness and release primitives

A shallow embedding of `src/vector.c` / `src/vector.h`, of the registry and
runner of `src/test.c` / `src/test.h`, and of the release primitives of
`src/raii.h`.

* `size_t` is 64 bits wide: every `size_t` computation of the source is
  written with an explicit `% SIZE`, where `SIZE = 2 ^ 64`; `unsigned int` is
  32 bits wide (`% UINT`).
* The heap block behind `vec->data` is the list of its bytes; a NULL `data`
  is `none`.
* A pointer into the block (`vec->data + offset`) is its byte offset; NULL is
  `none`.  The offset stands for the pointer when `data` is not NULL.  On a
  NULL `data` (the struct a failed `vector_init` leaves) C leaves the addition
  undefined, and in practice `NULL + 0` is NULL; the statements about
  `vector_del` and `vector_pop` on a vector given by its fields therefore
  assume that the vector owns its block.
* `calloc`, `malloc` and `realloc` belong to the C library.  Whether a call
  succeeds, and which bytes an uninitialised region holds, is chosen by the
  environment and passed to every operation as an explicit argument.  A NULL
  result of `realloc` is a failed call that leaves the old block alone; this
  is what C guarantees for a request of at least one byte.  For a request of
  zero bytes the outcome is left to the implementation (glibc releases the
  block and returns NULL), and the statement about a failed growth excludes it.
* Behaviour that C leaves undefined (a `memcpy` outside a block, a division by
  zero, `free` of a pointer that is not a live block) is the result `none` of
  an `Option`-valued operation.
* The static variables of `test.c` are the fields of `HARNESS`, passed in and
  out of every function.  A test procedure is given by its outcome: it returns
  normally or it aborts, in which case the SIGABRT handler jumps back to the
  `setjmp` of `test_run`.  What the harness prints and which procedures it
  calls is recorded as a list of events.
* The release primitives act on a `WORLD`: the content of the bound variables
  by address, the resources the process holds, and the release calls made.
-/

set_option autoImplicit false

namespace Cutil

/-! ## Definitions -/

/-- One byte of storage (`uint8_t`). -/
abbrev Byte := Fin 256

/-- Number of values of `size_t` (64 bits). -/
def SIZE : Nat := 2 ^ 64

/-- Standard error type of `types.h`. -/
inductive ERROR where
  | SUCCESS
  | FAILURE
deriving DecidableEq, Repr

/-- A pointer into the block of a vector: NULL, or the byte offset from `vec->data`. -/
abbrev Ptr := Option Nat

/-- The struct `VECTOR` of `vector.h`; `data` is the content of the owned block. -/
structure VECTOR where
  data : Option (List Byte)
  used_bytes : Nat
  item_size : Nat
  total_bytes : Nat
  init_bytes : Nat
deriving DecidableEq, Repr

/-- The constant `growth_factor` of `vector.c`. -/
def growth_factor : Nat := 2

/-- The constant `VECTOR_DEFAULT_SIZE` of `vector.h`. -/
def VECTOR_DEFAULT_SIZE : Nat := 16

/-- Content of `n` uninitialised bytes: what the environment left there (`junk`,
read as zero where it is too short). -/
def fresh (junk : List Byte) (n : Nat) : List Byte :=
  (List.range n).map (fun i => junk.getD i 0)

/-- The C library `calloc`: NULL when the environment refuses (`ok = false`) or
when `nmemb * size` does not fit a `size_t`, else a zero-filled block. -/
def calloc (nmemb size : Nat) (ok : Bool) : Option (List Byte) :=
  if ok = true ∧ nmemb * size < SIZE then some (List.replicate (nmemb * size) 0) else none

/-- The C library `malloc`: `r = none` is a failed call, `r = some junk` a block
of `size` bytes of indeterminate content. -/
def malloc (size : Nat) (r : Option (List Byte)) : Option (List Byte) :=
  r.map (fun junk => fresh junk size)

/-- The C library `realloc`: `r = none` is a failed call (the result is NULL and
the old block stays as it is); `r = some junk` gives a block of `size` bytes
that keeps the old content up to the smaller of the two sizes, the rest being
indeterminate.  A NULL `ptr` behaves as an empty old block.  This is the
behaviour for `size >= 1`; what a call with `size = 0` does is left to the
implementation and is not described here. -/
def realloc (ptr : Option (List Byte)) (size : Nat) (r : Option (List Byte)) :
    Option (List Byte) :=
  match r with
  | none => none
  | some junk => some ((ptr.getD []).take size ++ fresh junk (size - (ptr.getD []).length))

/-- The C library `memcpy` of `n` bytes from offset `soff` of `src` to offset
`doff` of `dest`; the result is the new content of `dest`, and `none` when a
range leaves its block (undefined behaviour). -/
def memcpy (dest : List Byte) (doff : Nat) (src : List Byte) (soff : Nat) (n : Nat) :
    Option (List Byte) :=
  if doff + n ≤ dest.length ∧ soff + n ≤ src.length then
    some (dest.take doff ++ (src.drop soff).take n ++ dest.drop (doff + n))
  else none

/-- Function `vector_init` (vector.c 41-51); `ok` is the outcome of `calloc`. -/
def vector_init (item_size capacity : Nat) (ok : Bool) : ERROR × VECTOR :=
  let total := (capacity * item_size) % SIZE
  let vec : VECTOR :=
    { data := calloc capacity item_size ok
      used_bytes := 0
      item_size := item_size
      total_bytes := total
      init_bytes := total }
  if vec.data.isSome then (ERROR.SUCCESS, vec) else (ERROR.FAILURE, vec)

/-- Function `vector_grow` (vector.c 59-67); `r` is the outcome of `realloc`. -/
def vector_grow (vec : VECTOR) (r : Option (List Byte)) : ERROR × VECTOR :=
  match realloc vec.data ((vec.total_bytes * growth_factor) % SIZE) r with
  | none => (ERROR.FAILURE, vec)
  | some new_data =>
    (ERROR.SUCCESS,
      { vec with data := some new_data
                 total_bytes := (vec.total_bytes * growth_factor) % SIZE })

/-- Function `vector_shrink` (vector.c 70-78); `r` is the outcome of `realloc`. -/
def vector_shrink (vec : VECTOR) (r : Option (List Byte)) : ERROR × VECTOR :=
  match realloc vec.data (vec.total_bytes / growth_factor) r with
  | none => (ERROR.FAILURE, vec)
  | some new_data =>
    (ERROR.SUCCESS,
      { vec with data := some new_data
                 total_bytes := vec.total_bytes / growth_factor })

/-- Function `vector_push_new` (vector.c 98-110); `r` is the outcome of the
`realloc` of `vector_grow`, looked at only when the vector has to grow.  The
result `data + used_bytes` is given by its offset, which stands for the pointer
when `data` is not NULL. -/
def vector_push_new (vec : VECTOR) (size : Nat) (r : Option (List Byte)) : Ptr × VECTOR :=
  if size ≠ vec.item_size then (none, vec)
  else
    let g := if vec.used_bytes ≥ vec.total_bytes then vector_grow vec r else (ERROR.SUCCESS, vec)
    if g.1 ≠ ERROR.SUCCESS then (none, g.2)
    else
      (some g.2.used_bytes,
        { g.2 with used_bytes := (g.2.used_bytes + g.2.item_size) % SIZE })

/-- Function `vector_push` (vector.c 88-95); `value` is the object the argument
points to. -/
def vector_push (vec : VECTOR) (value : List Byte) (size : Nat) (r : Option (List Byte)) :
    Option (Ptr × VECTOR) :=
  match vector_push_new vec size r with
  | (none, vec1) => some (none, vec1)
  | (some element, vec1) =>
    match vec1.data.bind (fun buf => memcpy buf element value 0 vec1.item_size) with
    | none => none
    | some buf1 => some (some element, { vec1 with data := some buf1 })

/-- Function `vector_ptr` (vector.c 113-115). -/
def vector_ptr (vec : VECTOR) (index : Nat) : Ptr :=
  some ((index * vec.item_size) % SIZE)

/-- Function `vector_get` (vector.c 119-125).  The result `data + offset` is
given by its offset, which stands for the pointer when `data` is not NULL. -/
def vector_get (vec : VECTOR) (index : Nat) : Ptr :=
  let offset := (index * vec.item_size) % SIZE
  if offset ≥ vec.total_bytes then none else some offset

/-- Function `vector_del` (vector.c 139-151); `r` is the outcome of the `realloc`
of `vector_shrink`, looked at only when the vector shrinks. -/
def vector_del (vec : VECTOR) (index : Nat) (r : Option (List Byte)) : ERROR × VECTOR :=
  match vector_get vec index with
  | none => (ERROR.FAILURE, vec)
  | some _ =>
    let vec1 : VECTOR :=
      { vec with used_bytes := (vec.used_bytes + (SIZE - vec.item_size % SIZE)) % SIZE }
    if vec1.total_bytes > vec1.init_bytes ∧
        vec1.used_bytes ≤ vec1.total_bytes / growth_factor then
      (ERROR.SUCCESS, (vector_shrink vec1 r).2)
    else (ERROR.SUCCESS, vec1)

/-- Function `vector_del_copy` (vector.c 154-163); `m` is the outcome of `malloc`,
`r` that of the `realloc` of `vector_shrink`.  The returned pointer is the
content of the block it points to. -/
def vector_del_copy (vec : VECTOR) (index : Nat) (m r : Option (List Byte)) :
    Option (Option (List Byte) × VECTOR) :=
  let copy := malloc vec.item_size m
  let element := vector_get vec index
  match element, copy with
  | some offset, some block =>
    match vec.data.bind (fun buf => memcpy block 0 buf offset vec.item_size) with
    | none => none
    | some block1 => some (some block1, (vector_del vec index r).2)
  | _, _ => some (none, vec)

/-- Function `vector_pop` (vector.c 128-130); the division by `item_size = 0` is
undefined. -/
def vector_pop (vec : VECTOR) (r : Option (List Byte)) : Option (ERROR × VECTOR) :=
  if vec.item_size = 0 then none
  else some (vector_del vec (vec.used_bytes / vec.item_size) r)

/-- Function `vector_pop_copy` (vector.c 133-135). -/
def vector_pop_copy (vec : VECTOR) (m r : Option (List Byte)) :
    Option (Option (List Byte) × VECTOR) :=
  if vec.item_size = 0 then none
  else vector_del_copy vec (vec.used_bytes / vec.item_size) m r

/-- The `item_size` bytes a pointer returned by the vector refers to. -/
def load (vec : VECTOR) (p : Ptr) : Option (List Byte) :=
  match p, vec.data with
  | some offset, some buf =>
    if offset + vec.item_size ≤ buf.length then some ((buf.drop offset).take vec.item_size)
    else none
  | _, _ => none

/-- One call of a mutating operation of the vector, with its arguments and the
outcomes of the allocator calls it may make. -/
inductive Op where
  | push (value : List Byte) (size : Nat) (r : Option (List Byte))
  | push_new (size : Nat) (r : Option (List Byte))
  | del (index : Nat) (r : Option (List Byte))
  | del_copy (index : Nat) (m r : Option (List Byte))
  | pop (r : Option (List Byte))
  | pop_copy (m r : Option (List Byte))
deriving DecidableEq, Repr

/-- The vector after one operation; `none` when the call is undefined behaviour. -/
def step (vec : VECTOR) : Op → Option VECTOR
  | Op.push value size r => (vector_push vec value size r).map Prod.snd
  | Op.push_new size r => some (vector_push_new vec size r).2
  | Op.del index r => some (vector_del vec index r).2
  | Op.del_copy index m r => (vector_del_copy vec index m r).map Prod.snd
  | Op.pop r => (vector_pop vec r).map Prod.snd
  | Op.pop_copy m r => (vector_pop_copy vec m r).map Prod.snd

/-- The vector after a sequence of operations, applied left to right. -/
def run (vec : VECTOR) : List Op → Option VECTOR
  | [] => some vec
  | op :: ops => (step vec op).bind (fun vec1 => run vec1 ops)

/-- Pushing the values of a list in order with `vector_push`, each with the
correct size and a successful allocator; `none` as soon as a push returns NULL
or is undefined.  Each entry pairs the value with the content the environment
left in freshly allocated memory. -/
def push_all (vec : VECTOR) : List (List Byte × List Byte) → Option VECTOR
  | [] => some vec
  | (value, junk) :: rest =>
    match vector_push vec value vec.item_size (some junk) with
    | some (some _, vec1) => push_all vec1 rest
    | _ => none

/-- Capacity doubling of a push stays inside the range of `size_t`: true for
every operation except a correctly sized push on a full vector, where it says
that twice `total_bytes` fits. -/
def doubling_fits (vec : VECTOR) : Op → Bool
  | Op.push _ size _ | Op.push_new size _ =>
    if size = vec.item_size ∧ vec.total_bytes ≤ vec.used_bytes then
      decide (vec.total_bytes * growth_factor < SIZE)
    else true
  | _ => true

/-- A removal finds an element to remove: true for every operation except a
delete or pop, where it says that at least one element is occupied. -/
def del_has_item (vec : VECTOR) : Op → Bool
  | Op.del _ _ | Op.del_copy _ _ _ | Op.pop _ | Op.pop_copy _ _ =>
    decide (vec.item_size ≤ vec.used_bytes)
  | _ => true

/-- The condition `ok` holds for every operation of the sequence, in the state
the operation is applied to. -/
def along (ok : VECTOR → Op → Bool) (vec : VECTOR) : List Op → Bool
  | [] => true
  | op :: ops =>
    ok vec op &&
      match step vec op with
      | some vec1 => along ok vec1 ops
      | none => true

/-- The ways one operation can change the accounting fields: `item_size` and
`init_bytes` stay, and either nothing changes, or an element is added below the
capacity, or the capacity doubles and an element is added, or an element is
removed and the capacity stays or is halved. -/
def Effect (v : VECTOR) (op : Op) (v1 : VECTOR) : Prop :=
  v1.item_size = v.item_size ∧ v1.init_bytes = v.init_bytes ∧
    ((v1.used_bytes = v.used_bytes ∧ v1.total_bytes = v.total_bytes) ∨
      (v.used_bytes < v.total_bytes ∧ v1.total_bytes = v.total_bytes ∧
        v1.used_bytes = (v.used_bytes + v.item_size) % SIZE) ∨
      (v.total_bytes ≤ v.used_bytes ∧ v1.total_bytes = (v.total_bytes * 2) % SIZE ∧
        v1.used_bytes = (v.used_bytes + v.item_size) % SIZE ∧
        (doubling_fits v op = true → v.total_bytes * 2 < SIZE)) ∨
      ((del_has_item v op = true → v.item_size ≤ v.used_bytes) ∧
        v1.used_bytes = (v.used_bytes + (SIZE - v.item_size % SIZE)) % SIZE ∧
        (v1.total_bytes = v.total_bytes ∨
          (v.init_bytes < v.total_bytes ∧ v1.used_bytes ≤ v.total_bytes / 2 ∧
            v1.total_bytes = v.total_bytes / 2))))

/-- The capacity is the initial capacity times a power of two. -/
def CapInv (item_size init_bytes : Nat) (v : VECTOR) : Prop :=
  v.item_size = item_size ∧ v.init_bytes = init_bytes ∧
    ∃ k, v.total_bytes = init_bytes * 2 ^ k

/-- Occupancy invariant of a vector used within its contract. -/
def OccInv (item_size init_bytes : Nat) (v : VECTOR) : Prop :=
  CapInv item_size init_bytes v ∧
    ((item_size = 0 ∧ v.used_bytes = 0 ∧ v.total_bytes = 0) ∨
      (0 < init_bytes ∧ item_size ∣ init_bytes ∧ item_size ∣ v.used_bytes ∧
        v.used_bytes ≤ v.total_bytes ∧ v.total_bytes < SIZE))

/-- State of a vector after `n` pushes: the accounting fields, the capacity as
the least doubling of the initial capacity that holds `n` elements, and the
pushed bytes at the start of the block. -/
def Filled (item_size capacity n : Nat) (content : List Byte) (v : VECTOR) : Prop :=
  v.item_size = item_size ∧ v.init_bytes = capacity * item_size ∧
    v.used_bytes = n * item_size ∧ v.total_bytes < SIZE ∧
    (∃ k, v.total_bytes = capacity * 2 ^ k * item_size ∧ n ≤ capacity * 2 ^ k ∧
      ∀ j, j < k → capacity * 2 ^ j < n) ∧
    (∃ buf, v.data = some buf ∧ buf.length = v.total_bytes ∧
      buf.take (n * item_size) = content)

/-- The `realloc` of a shrink succeeds: true for every operation except a
delete or pop, where it says that the allocator outcome is a success. -/
def shrink_succeeds : Op → Bool
  | Op.del _ r | Op.del_copy _ _ r | Op.pop r | Op.pop_copy _ r => r.isSome
  | _ => true

/-- Use of the vector within its contract, with the allocator serving every
shrink: removals find an element, no capacity doubling leaves the range of
`size_t`, and the `realloc` of a shrink succeeds. -/
def within_contract (vec : VECTOR) (op : Op) : Bool :=
  doubling_fits vec op && del_has_item vec op && shrink_succeeds op

/-- Refinement of `Effect` that also records why a removal left the capacity
as it was: with a successful allocator, only because the shrink condition was
false. -/
def Transition (v : VECTOR) (op : Op) (v1 : VECTOR) : Prop :=
  v1.item_size = v.item_size ∧ v1.init_bytes = v.init_bytes ∧
    ((v1.used_bytes = v.used_bytes ∧ v1.total_bytes = v.total_bytes) ∨
      (v.used_bytes < v.total_bytes ∧ v1.total_bytes = v.total_bytes ∧
        v1.used_bytes = (v.used_bytes + v.item_size) % SIZE) ∨
      (v.total_bytes ≤ v.used_bytes ∧ v1.total_bytes = (v.total_bytes * 2) % SIZE ∧
        v1.used_bytes = (v.used_bytes + v.item_size) % SIZE ∧
        (doubling_fits v op = true → v.total_bytes * 2 < SIZE)) ∨
      ((del_has_item v op = true → v.item_size ≤ v.used_bytes) ∧
        v1.used_bytes = (v.used_bytes + (SIZE - v.item_size % SIZE)) % SIZE ∧
        ((v1.total_bytes = v.total_bytes ∧
            (shrink_succeeds op = true →
              ¬ (v.init_bytes < v.total_bytes ∧ v1.used_bytes ≤ v.total_bytes / 2))) ∨
          (v.init_bytes < v.total_bytes ∧ v1.used_bytes ≤ v.total_bytes / 2 ∧
            v1.total_bytes = v.total_bytes / 2))))

/-- A vector above its initial capacity is more than half full. -/
def HalfFull (v : VECTOR) : Prop :=
  v.init_bytes < v.total_bytes → v.total_bytes < 2 * v.used_bytes

/-- The data pointer of the vector is a block of `total_bytes` bytes. -/
def HasBlock (v : VECTOR) : Prop :=
  ∃ buf, v.data = some buf ∧ buf.length = v.total_bytes

/-- States reachable from a successful `vector_init(item_size, capacity)` by
operations used within the contract. -/
def Reachable (item_size capacity : Nat) (v : VECTOR) : Prop :=
  ∃ (ok : Bool) (ops : List Op),
    (vector_init item_size capacity ok).1 = ERROR.SUCCESS ∧
    along within_contract (vector_init item_size capacity ok).2 ops = true ∧
    run (vector_init item_size capacity ok).2 ops = some v

/-! ### The test harness of `test.c` -/

/-- Number of values of `unsigned int` (32 bits). -/
def UINT : Nat := 2 ^ 32

/-- The constant `MAX_TESTS` of `test.h`. -/
def MAX_TESTS : Nat := 4096

/-- The type `TEST` of `test.h`, a pointer to a test procedure: its address, 0
for the null pointer. -/
abbrev TEST := Nat

/-- The struct `TESTS` of `test.c`: two arrays of `MAX_TESTS` entries, the
number of registered tests and the capacity. -/
structure TESTS where
  functions : List TEST
  names : List (Option String)
  size : Nat
  max_size : Nat
deriving DecidableEq, Repr

/-- The static registry `tests` of `test.c` as the program starts. -/
def tests : TESTS :=
  { functions := List.replicate MAX_TESTS 0
    names := List.replicate MAX_TESTS none
    size := 0
    max_size := MAX_TESTS }

/-- What the harness does that can be observed: the lines it prints and the
test procedures it calls. -/
inductive Event where
  | header (test_index : Nat) (test_name : Option String)
  | call (test_function : TEST)
  | ok
  | all_passed
  | failed (count : Nat)
deriving DecidableEq, Repr

/-- The static state of `test.c`: the registry, the two counters, and the
events so far. -/
structure HARNESS where
  tests : TESTS
  current_test : Nat
  passed_tests : Nat
  out : List Event
deriving DecidableEq, Repr

/-- The state of the harness as the program starts, with a given registry. -/
def harness_start (t : TESTS) : HARNESS :=
  { tests := t, current_test := 0, passed_tests := 0, out := [] }

/-- Function `test_add` (test.c 71-79). -/
def test_add (t : TESTS) (test_function : TEST) (test_name : String) : ERROR × TESTS :=
  if t.size < t.max_size then
    (ERROR.SUCCESS,
      { t with functions := t.functions.set t.size test_function
               names := t.names.set t.size (some test_name)
               size := (t.size + 1) % SIZE })
  else (ERROR.FAILURE, t)

/-- Function `test_run` (test.c 58-68).  The test procedure is given by its
outcome: `returns = true` when it returns normally, `false` when it aborts;
then `abort` raises SIGABRT, the handler `test_abort` jumps back to the
`setjmp`, which returns `TEST_FAILED`, and the body of the `if` is left. -/
def test_run (h : HARNESS) (test_function : TEST) (test_name : Option String)
    (test_index : Nat) (returns : Bool) : HARNESS :=
  let h1 : HARNESS :=
    { h with out := h.out ++ [Event.header test_index test_name]
             current_test := (h.current_test + 1) % UINT }
  let h2 : HARNESS := { h1 with out := h1.out ++ [Event.call test_function] }
  if returns then
    { h2 with out := h2.out ++ [Event.ok]
              passed_tests := (h2.passed_tests + 1) % UINT }
  else h2

/-- Function `tests_run` (test.c 82-92); `returns i` is the outcome of the test
procedure called at index `i`.  `Event.failed` holds the argument handed to
`printf`, the `unsigned int` difference `current_test - passed_tests`; the
conversion `%d` prints it as an `int`, so the printed text is that number only
below `2 ^ 31`. -/
def tests_run (h : HARNESS) (returns : Nat → Bool) : ERROR × HARNESS :=
  let h1 := (List.range h.tests.size).foldl
    (fun acc i =>
      test_run acc (acc.tests.functions.getD i 0) (acc.tests.names.getD i none) i (returns i))
    h
  if h1.current_test = h1.passed_tests then
    (ERROR.SUCCESS, { h1 with out := h1.out ++ [Event.all_passed] })
  else
    (ERROR.FAILURE,
      { h1 with out := h1.out ++
          [Event.failed ((h1.current_test + (UINT - h1.passed_tests % UINT)) % UINT)] })

/-- The test procedures called, in order, among a list of events. -/
def calls : List Event → List TEST
  | [] => []
  | Event.call f :: rest => f :: calls rest
  | _ :: rest => calls rest

/-- Registering a list of procedures with `test_add`, in order. -/
def add_all (t : TESTS) (adds : List (TEST × String)) : TESTS :=
  adds.foldl (fun acc a => (test_add acc a.1 a.2).2) t

/-- Output of the loop of `tests_run` for the test at index `i`. -/
def test_events (t : TESTS) (returns : Nat → Bool) (i : Nat) : List Event :=
  [Event.header i (t.names.getD i none), Event.call (t.functions.getD i 0)] ++
    (if returns i then [Event.ok] else [])

/-! ### The release primitives of `raii.h` -/

/-- The constant `invalid_fileno` of `raii.h`. -/
def invalid_fileno : Int := -1

/-- A resource of the process: a block obtained from `malloc`, a stream opened
by `fopen` (both by address), or a descriptor opened by `open`. -/
inductive Resource where
  | heap (address : Int)
  | stream (address : Int)
  | fd (fileno : Int)
deriving DecidableEq, Repr

/-- The part of the process state the release primitives of `raii.h` act on:
the content of the bound variables by address (a pointer is its address, 0 for
NULL), the resources the process holds, and the calls of `free`, `fclose` and
`close` made so far, in order. -/
structure WORLD where
  store : Nat → Int
  live : List Resource
  released : List Resource

/-- The C library `free` on a non-NULL pointer: undefined (`none`) unless the
pointer is a live block. -/
def free (w : WORLD) (p : Int) : Option WORLD :=
  if Resource.heap p ∈ w.live then
    some { w with live := w.live.filter (fun x => x ≠ Resource.heap p)
                  released := w.released ++ [Resource.heap p] }
  else none

/-- The C library `fclose`: undefined (`none`) unless the pointer is an open
stream. -/
def fclose (w : WORLD) (p : Int) : Option WORLD :=
  if Resource.stream p ∈ w.live then
    some { w with live := w.live.filter (fun x => x ≠ Resource.stream p)
                  released := w.released ++ [Resource.stream p] }
  else none

/-- The system call `close`: the descriptor is no longer open afterwards. -/
def close (w : WORLD) (fileno : Int) : WORLD :=
  { w with live := w.live.filter (fun x => x ≠ Resource.fd fileno)
           released := w.released ++ [Resource.fd fileno] }

/-- Function `destroy_heap_object` (raii.h 56-65); `pobj` is the address of the
bound pointer. -/
def destroy_heap_object (w : WORLD) (pobj : Nat) : Option WORLD :=
  if w.store pobj ≠ 0 then
    (free w (w.store pobj)).map
      (fun w1 => { w1 with store := Function.update w1.store pobj 0 })
  else some w

/-- Function `close_fp` (raii.h 68-73); `pfile` is the address of the bound
`FILE *`. -/
def close_fp (w : WORLD) (pfile : Nat) : Option WORLD :=
  if w.store pfile ≠ 0 then
    (fclose w (w.store pfile)).map
      (fun w1 => { w1 with store := Function.update w1.store pfile 0 })
  else some w

/-- Function `close_fd` (raii.h 76-81); `pfileno` is the address of the bound
descriptor. -/
def close_fd (w : WORLD) (pfileno : Nat) : WORLD :=
  if w.store pfileno ≠ invalid_fileno then
    { close w (w.store pfileno) with
      store := Function.update (close w (w.store pfileno)).store pfileno invalid_fileno }
  else w

/-! ### Well-formed use of the vector -/

/-- The operation is a push of an `item_size`-byte value with the correct size
argument, or a delete. -/
def push_or_del (item_size : Nat) : Op → Bool
  | Op.push value size _ => decide (value.length = item_size) && decide (size = item_size)
  | Op.del _ _ => true
  | _ => false

/-! ### Pushes followed by deletes -/

/-- States reached from a successful `vector_init(item_size, capacity)` by
successful pushes of `item_size`-byte values and by deletes applied to a
non-empty vector, the reallocations succeeding. -/
inductive Reached (item_size capacity : Nat) : VECTOR → Prop where
  | init (ok : Bool) :
    (vector_init item_size capacity ok).1 = ERROR.SUCCESS →
    Reached item_size capacity (vector_init item_size capacity ok).2
  | push (v v1 : VECTOR) (value junk : List Byte) (p : Nat) :
    Reached item_size capacity v → value.length = item_size →
    vector_push v value item_size (some junk) = some (some p, v1) →
    Reached item_size capacity v1
  | del (v : VECTOR) (index : Nat) (junk : List Byte) :
    Reached item_size capacity v → item_size ≤ v.used_bytes →
    Reached item_size capacity (vector_del v index (some junk)).2

/-- Deleting with `vector_del` at the indexes of a list in order, each with a
successful allocator; `none` as soon as a delete returns FAILURE.  Each entry
pairs the index with the content the environment left in freshly allocated
memory. -/
def del_all (vec : VECTOR) : List (Nat × List Byte) → Option VECTOR
  | [] => some vec
  | (index, junk) :: rest =>
    match vector_del vec index (some junk) with
    | (ERROR.SUCCESS, vec1) => del_all vec1 rest
    | (ERROR.FAILURE, _) => none

/-! ### Sessions of the test harness -/

/-- One call of the interface of `test.h`: `test_add` with its arguments, or
`tests_run` with the outcomes of the test procedures it calls. -/
inductive Call where
  | add (test_function : TEST) (test_name : String)
  | run (returns : Nat → Bool)

/-- The static state of `test.c` after one call of the interface. -/
def call_step (h : HARNESS) : Call → HARNESS
  | Call.add test_function test_name =>
    { h with tests := (test_add h.tests test_function test_name).2 }
  | Call.run returns => (tests_run h returns).2

/-- The static state of `test.c` after a sequence of calls, in order. -/
def session (h : HARNESS) (cs : List Call) : HARNESS :=
  cs.foldl call_step h

/-- Number of test procedures called so far. -/
def executed (h : HARNESS) : Nat := (calls h.out).length

/-- Number of test procedures that returned normally so far. -/
def passed (h : HARNESS) : Nat := h.out.count Event.ok

/-- Number of test procedures that aborted so far. -/
def aborted (h : HARNESS) : Nat := executed h - passed h

/-- The two counters hold the numbers of executed and of passed tests of the
whole process, as `unsigned int` values. -/
def Counted (h : HARNESS) : Prop :=
  h.current_test = executed h % UINT ∧ h.passed_tests = passed h % UINT ∧
    passed h ≤ executed h

/-! ## Helper lemmas: the source functions one at a time -/

theorem get_of_lt (vec : VECTOR) (index : Nat)
    (h : (index * vec.item_size) % SIZE < vec.total_bytes) :
    vector_get vec index = some ((index * vec.item_size) % SIZE) := by
  simp [vector_get, h]

theorem get_of_ge (vec : VECTOR) (index : Nat)
    (h : vec.total_bytes ≤ (index * vec.item_size) % SIZE) :
    vector_get vec index = none := by
  simp [vector_get, h]

/-- The `size_t` subtraction `a - b` does not wrap when `b ≤ a`. -/
theorem sub_no_wrap (a b : Nat) (ha : a < SIZE) (hb : b ≤ a) :
    (a + (SIZE - b % SIZE)) % SIZE = a - b := by
  have hb1 : b % SIZE = b := Nat.mod_eq_of_lt (by omega)
  rw [hb1]
  have hsum : a + (SIZE - b) = (a - b) + SIZE := by omega
  rw [hsum, Nat.add_mod_right]
  exact Nat.mod_eq_of_lt (by omega)

/-- A block resized to `size` bytes keeps its first `n` bytes when `n` is within
both the old and the new size. -/
theorem take_realloc (buf junk : List Byte) (n size : Nat) (h1 : n ≤ size)
    (h2 : n ≤ buf.length) :
    (buf.take size ++ fresh junk (size - buf.length)).take n = buf.take n := by
  rw [List.take_append_of_le_length (by simp; omega), List.take_take]
  congr 1
  omega

/-- Accounting fields after `vector_shrink`. -/
theorem shrink_fields (vec : VECTOR) (r : Option (List Byte)) :
    (vector_shrink vec r).2.used_bytes = vec.used_bytes ∧
    (vector_shrink vec r).2.item_size = vec.item_size ∧
    (vector_shrink vec r).2.init_bytes = vec.init_bytes ∧
    ((vector_shrink vec r).2.total_bytes = vec.total_bytes ∨
      (vector_shrink vec r).2.total_bytes = vec.total_bytes / 2) := by
  cases r <;> simp [vector_shrink, realloc, growth_factor]

/-- Accounting fields after `vector_push_new`: nothing changed, or one element
was added without growth, or the capacity doubled and one element was added. -/
theorem push_new_effect (v : VECTOR) (size : Nat) (r : Option (List Byte)) :
    (vector_push_new v size r).2.item_size = v.item_size ∧
    (vector_push_new v size r).2.init_bytes = v.init_bytes ∧
    (((vector_push_new v size r).2.used_bytes = v.used_bytes ∧
        (vector_push_new v size r).2.total_bytes = v.total_bytes) ∨
      (v.used_bytes < v.total_bytes ∧
        (vector_push_new v size r).2.total_bytes = v.total_bytes ∧
        (vector_push_new v size r).2.used_bytes = (v.used_bytes + v.item_size) % SIZE) ∨
      (size = v.item_size ∧ v.total_bytes ≤ v.used_bytes ∧
        (vector_push_new v size r).2.total_bytes = (v.total_bytes * 2) % SIZE ∧
        (vector_push_new v size r).2.used_bytes = (v.used_bytes + v.item_size) % SIZE)) := by
  unfold vector_push_new
  by_cases hs : size = v.item_size
  · by_cases hf : v.total_bytes ≤ v.used_bytes
    · cases r with
      | none => simp [hs, hf, vector_grow, realloc]
      | some junk => simp [hs, hf, vector_grow, realloc, growth_factor]
    · have hlt : v.used_bytes < v.total_bytes := by omega
      simp [hs, hf, hlt]
  · simp [hs]

/-- The pointer and the accounting fields after `vector_push` are those after
`vector_push_new`. -/
theorem push_fields (v v1 : VECTOR) (value : List Byte) (size : Nat) (r : Option (List Byte))
    (p : Ptr) (h : vector_push v value size r = some (p, v1)) :
    p = (vector_push_new v size r).1 ∧
    v1.used_bytes = (vector_push_new v size r).2.used_bytes ∧
    v1.item_size = (vector_push_new v size r).2.item_size ∧
    v1.total_bytes = (vector_push_new v size r).2.total_bytes ∧
    v1.init_bytes = (vector_push_new v size r).2.init_bytes := by
  unfold vector_push at h
  split at h
  · rename_i vec1 heq
    simp only [Option.some.injEq, Prod.mk.injEq] at h
    simp [heq, ← h.1, ← h.2]
  · rename_i element vec1 heq
    split at h
    · exact absurd h (by simp)
    · simp only [Option.some.injEq, Prod.mk.injEq] at h
      simp [heq, ← h.1, ← h.2]

/-- Accounting fields after `vector_del`: nothing changed, or one element was
removed and the capacity stayed or was halved once. -/
theorem del_effect (v : VECTOR) (index : Nat) (r : Option (List Byte)) :
    (vector_del v index r).2.item_size = v.item_size ∧
    (vector_del v index r).2.init_bytes = v.init_bytes ∧
    (((vector_del v index r).2.used_bytes = v.used_bytes ∧
        (vector_del v index r).2.total_bytes = v.total_bytes) ∨
      ((vector_del v index r).2.used_bytes =
          (v.used_bytes + (SIZE - v.item_size % SIZE)) % SIZE ∧
        ((vector_del v index r).2.total_bytes = v.total_bytes ∨
          (v.init_bytes < v.total_bytes ∧
            (vector_del v index r).2.used_bytes ≤ v.total_bytes / 2 ∧
            (vector_del v index r).2.total_bytes = v.total_bytes / 2)))) := by
  unfold vector_del
  cases hg : vector_get v index with
  | none => simp
  | some off =>
    dsimp only
    split
    · rename_i hc
      simp only [growth_factor] at hc
      cases r with
      | none => simp [vector_shrink, realloc]
      | some junk =>
        simp only [vector_shrink, realloc, growth_factor, true_and]
        right
        exact Or.inr ⟨hc.1, hc.2, trivial⟩
    · simp

/-- The vector after `vector_del_copy` is the old one or the one after `vector_del`. -/
theorem del_copy_state (v v1 : VECTOR) (index : Nat) (m r : Option (List Byte))
    (c : Option (List Byte)) (h : vector_del_copy v index m r = some (c, v1)) :
    v1 = v ∨ v1 = (vector_del v index r).2 := by
  unfold vector_del_copy at h
  dsimp only at h
  split at h
  · split at h
    · exact absurd h (by simp)
    · simp only [Option.some.injEq, Prod.mk.injEq] at h
      exact Or.inr h.2.symm
  · simp only [Option.some.injEq, Prod.mk.injEq] at h
    exact Or.inl h.2.symm

/-! ## Single operations -/

/-- C4: a push (`vector_push` or `vector_push_new`) whose `size` differs from the
vector's `item_size` returns NULL and leaves the whole vector as it was:
`used_bytes`, `total_bytes`, `init_bytes`, `item_size` and the buffer. -/
theorem push_size_mismatch_rejected (vec : VECTOR) (value : List Byte) (size : Nat)
    (r : Option (List Byte)) (h : size ≠ vec.item_size) :
    vector_push vec value size r = some (none, vec) ∧
      vector_push_new vec size r = (none, vec) := by
  have h1 : vector_push_new vec size r = (none, vec) := by
    simp [vector_push_new, h]
  exact ⟨by simp [vector_push, h1], h1⟩

theorem push_size_mismatch_rejected_witness :
    vector_push (vector_init 8 16 true).2 [1, 2, 3, 4] 4 (some []) =
        some (none, (vector_init 8 16 true).2) ∧
      vector_push_new (vector_init 8 16 true).2 4 (some []) =
        (none, (vector_init 8 16 true).2) :=
  push_size_mismatch_rejected (vector_init 8 16 true).2 [1, 2, 3, 4] 4 (some []) (by decide)

/-- C9, evaluated where the code leaves it.  On the vector of
`vector_init(item_size = 3, capacity = 1)` and the `size_t` index
12297829382473034411 the unbounded product `index * item_size` is `2 ^ 65 + 1`,
not below `total_bytes = 3`, yet `vector_get` returns the non-NULL pointer
`data + 1`, because it compares the product reduced modulo `2 ^ 64`; the element
`[1, 4)` it refers to does not lie inside the 3-byte buffer.  On the vector of
`vector_init(item_size = 8, capacity = 16)` the index `2 ^ 61` has the product
`2 ^ 64`, not below `total_bytes = 128`, and `vector_get` returns `data + 0`. -/
theorem get_offset_wraps :
    (vector_init 3 1 true).1 = ERROR.SUCCESS ∧
    (vector_init 3 1 true).2.total_bytes = 3 ∧
    12297829382473034411 < SIZE ∧
    12297829382473034411 * (vector_init 3 1 true).2.item_size = 2 ^ 65 + 1 ∧
    vector_get (vector_init 3 1 true).2 12297829382473034411 = some 1 ∧
    ¬ (1 + (vector_init 3 1 true).2.item_size ≤ (vector_init 3 1 true).2.total_bytes) ∧
    (vector_init 8 16 true).1 = ERROR.SUCCESS ∧
    (vector_init 8 16 true).2.total_bytes = 128 ∧
    2 ^ 61 < SIZE ∧
    2 ^ 61 * (vector_init 8 16 true).2.item_size = 2 ^ 64 ∧
    vector_get (vector_init 8 16 true).2 (2 ^ 61) = some 0 := by
  decide

/-- When the offset `index * item_size` that `vector_get` computes (the `size_t`
product, which is the product itself only below `2 ^ 64`) is not below
`total_bytes`, `vector_del` returns FAILURE and `vector_del_copy` returns NULL,
whatever the allocator does, and both leave the whole vector as it was:
`used_bytes`, `total_bytes`, `init_bytes`, `item_size` and the buffer. -/
theorem del_out_of_range_rejected (vec : VECTOR) (index : Nat) (m r : Option (List Byte))
    (h : vec.total_bytes ≤ (index * vec.item_size) % SIZE) :
    vector_del vec index r = (ERROR.FAILURE, vec) ∧
      vector_del_copy vec index m r = some (none, vec) := by
  have hg := get_of_ge vec index h
  constructor
  · simp [vector_del, hg]
  · simp [vector_del_copy, hg]

theorem del_out_of_range_rejected_witness :
    vector_del
        { data := some [1, 2, 3, 4], used_bytes := 4, item_size := 2, total_bytes := 4,
          init_bytes := 4 } 2 (some []) =
      (ERROR.FAILURE,
        { data := some [1, 2, 3, 4], used_bytes := 4, item_size := 2, total_bytes := 4,
          init_bytes := 4 }) ∧
    vector_del_copy
        { data := some [1, 2, 3, 4], used_bytes := 4, item_size := 2, total_bytes := 4,
          init_bytes := 4 } 2 (some []) (some []) =
      some (none,
        { data := some [1, 2, 3, 4], used_bytes := 4, item_size := 2, total_bytes := 4,
          init_bytes := 4 }) :=
  del_out_of_range_rejected
    { data := some [1, 2, 3, 4], used_bytes := 4, item_size := 2, total_bytes := 4,
      init_bytes := 4 } 2 (some []) (some []) (by decide)

/-- C10: the code rejects an out-of-range index only while `index * item_size`
fits a `size_t`.  On the vector of `vector_init(3, 1)` (`total_bytes = 3`, no
element stored) the index 12297829382473034411 has
`index * item_size = 2 ^ 65 + 1 >= total_bytes`, but `vector_get` computes the
offset modulo `2 ^ 64`, which is 1 and passes the check: `vector_del` returns
SUCCESS and wraps `used_bytes` to `2 ^ 64 - 3` instead of returning FAILURE
with the vector unchanged, and `vector_del_copy` copies 3 bytes from offset 1
of the 3-byte block, which is undefined, instead of returning NULL. -/
theorem del_accepts_index_whose_offset_wraps :
    (vector_init 3 1 true).1 = ERROR.SUCCESS ∧
    (vector_init 3 1 true).2 =
      { data := some [0, 0, 0], used_bytes := 0, item_size := 3, total_bytes := 3,
        init_bytes := 3 } ∧
    (vector_init 3 1 true).2.total_bytes ≤
      12297829382473034411 * (vector_init 3 1 true).2.item_size ∧
    12297829382473034411 < SIZE ∧
    vector_get (vector_init 3 1 true).2 12297829382473034411 = some 1 ∧
    vector_del (vector_init 3 1 true).2 12297829382473034411 none =
      (ERROR.SUCCESS,
        { data := some [0, 0, 0], used_bytes := 18446744073709551613, item_size := 3,
          total_bytes := 3, init_bytes := 3 }) ∧
    vector_del (vector_init 3 1 true).2 12297829382473034411 none ≠
      (ERROR.FAILURE, (vector_init 3 1 true).2) ∧
    vector_del_copy (vector_init 3 1 true).2 12297829382473034411 (some []) none = none ∧
    vector_del_copy (vector_init 3 1 true).2 12297829382473034411 (some []) none ≠
      some (none, (vector_init 3 1 true).2) := by
  decide

/-! ## Sequences of operations -/

/-- What one defined operation does to the accounting fields. -/
theorem step_effect (v v1 : VECTOR) (op : Op) (h : step v op = some v1) :
    Effect v op v1 := by
  have hpush : ∀ size r, v1.used_bytes = (vector_push_new v size r).2.used_bytes →
      v1.item_size = (vector_push_new v size r).2.item_size →
      v1.total_bytes = (vector_push_new v size r).2.total_bytes →
      v1.init_bytes = (vector_push_new v size r).2.init_bytes →
      (doubling_fits v op = true → size = v.item_size → v.total_bytes ≤ v.used_bytes →
        v.total_bytes * 2 < SIZE) → Effect v op v1 := by
    intro size r h1 h2 h3 h4 hd
    obtain ⟨e1, e2, e3⟩ := push_new_effect v size r
    rw [← h1, ← h3] at e3
    refine ⟨h2.trans e1, h4.trans e2, ?_⟩
    rcases e3 with e | e | e
    · exact Or.inl e
    · exact Or.inr (Or.inl e)
    · exact Or.inr (Or.inr (Or.inl ⟨e.2.1, e.2.2.1, e.2.2.2, fun hf => hd hf e.1 e.2.1⟩))
  have hdel : ∀ index r, v1 = (vector_del v index r).2 →
      (del_has_item v op = true → v.item_size ≤ v.used_bytes) → Effect v op v1 := by
    intro index r h1 hd
    obtain ⟨e1, e2, e3⟩ := del_effect v index r
    rw [← h1] at e1 e2 e3
    refine ⟨e1, e2, ?_⟩
    rcases e3 with e | e
    · exact Or.inl e
    · exact Or.inr (Or.inr (Or.inr ⟨hd, e.1, e.2⟩))
  cases op with
  | push value size r =>
    simp only [step, Option.map_eq_some', Prod.exists, exists_eq_right] at h
    obtain ⟨p, hp⟩ := h
    obtain ⟨_, h1, h2, h3, h4⟩ := push_fields v v1 value size r p hp
    exact hpush size r h1 h2 h3 h4 (by
      intro hf hs hfull
      simpa [doubling_fits, hs, hfull, growth_factor] using hf)
  | push_new size r =>
    simp only [step, Option.some.injEq] at h
    subst h
    exact hpush size r rfl rfl rfl rfl (by
      intro hf hs hfull
      simpa [doubling_fits, hs, hfull, growth_factor] using hf)
  | del index r =>
    simp only [step, Option.some.injEq] at h
    exact hdel index r h.symm (by simp [del_has_item])
  | del_copy index m r =>
    simp only [step, Option.map_eq_some', Prod.exists, exists_eq_right] at h
    obtain ⟨c, hc⟩ := h
    rcases del_copy_state v v1 index m r c hc with e | e
    · subst e
      exact ⟨rfl, rfl, Or.inl ⟨rfl, rfl⟩⟩
    · exact hdel index r e (by simp [del_has_item])
  | pop r =>
    simp only [step, vector_pop, Option.map_eq_some', Prod.exists, exists_eq_right] at h
    obtain ⟨e, he⟩ := h
    split at he
    · exact absurd he (by simp)
    · simp only [Option.some.injEq] at he
      exact hdel _ r (by rw [he]) (by simp [del_has_item])
  | pop_copy m r =>
    simp only [step, vector_pop_copy, Option.map_eq_some', Prod.exists, exists_eq_right] at h
    obtain ⟨c, hc⟩ := h
    split at hc
    · exact absurd hc (by simp)
    · rcases del_copy_state v v1 _ m r c hc with e | e
      · subst e
        exact ⟨rfl, rfl, Or.inl ⟨rfl, rfl⟩⟩
      · exact hdel _ r e (by simp [del_has_item])

theorem run_cons (v w : VECTOR) (op : Op) (ops : List Op) :
    run v (op :: ops) = some w ↔ ∃ v1, step v op = some v1 ∧ run v1 ops = some w := by
  simp [run, Option.bind_eq_some]

theorem along_cons (ok : VECTOR → Op → Bool) (v v1 : VECTOR) (op : Op) (ops : List Op)
    (h : along ok v (op :: ops) = true) (hs : step v op = some v1) :
    ok v op = true ∧ along ok v1 ops = true := by
  simpa [along, hs] using h

/-- A property kept by every permitted, defined operation holds after a run. -/
theorem run_invariant (P : VECTOR → Prop) (ok1 ok2 : VECTOR → Op → Bool)
    (hstep : ∀ v op v1, P v → ok1 v op = true → ok2 v op = true →
      step v op = some v1 → P v1) :
    ∀ (ops : List Op) (v w : VECTOR), P v → along ok1 v ops = true →
      along ok2 v ops = true → run v ops = some w → P w := by
  intro ops
  induction ops with
  | nil =>
    intro v w hP _ _ hrun
    simp only [run, Option.some.injEq] at hrun
    exact hrun ▸ hP
  | cons op ops ih =>
    intro v w hP h1 h2 hrun
    obtain ⟨v1, hs, hr⟩ := (run_cons v w op ops).mp hrun
    obtain ⟨a1, b1⟩ := along_cons ok1 v v1 op ops h1 hs
    obtain ⟨a2, b2⟩ := along_cons ok2 v v1 op ops h2 hs
    exact ih v1 w (hstep v op v1 hP a1 a2 hs) b1 b2 hr

/-- A successful `vector_init` did not wrap and set every field. -/
theorem init_success (item_size capacity : Nat) (ok : Bool)
    (h : (vector_init item_size capacity ok).1 = ERROR.SUCCESS) :
    capacity * item_size < SIZE ∧
    (vector_init item_size capacity ok).2 =
      { data := some (List.replicate (capacity * item_size) 0)
        used_bytes := 0
        item_size := item_size
        total_bytes := capacity * item_size
        init_bytes := capacity * item_size } := by
  unfold vector_init calloc at *
  by_cases hc : ok = true ∧ capacity * item_size < SIZE
  · simp [hc, Nat.mod_eq_of_lt hc.2]
  · simp [hc] at h

theorem cap_inv_step (item_size init_bytes : Nat) (v v1 : VECTOR) (op : Op)
    (hP : CapInv item_size init_bytes v) (hfit : doubling_fits v op = true)
    (hs : step v op = some v1) : CapInv item_size init_bytes v1 := by
  obtain ⟨hi, hn, k, hk⟩ := hP
  obtain ⟨e1, e2, e3⟩ := step_effect v v1 op hs
  refine ⟨e1.trans hi, e2.trans hn, ?_⟩
  rcases e3 with e | e | e | e
  · exact ⟨k, e.2.trans hk⟩
  · exact ⟨k, e.2.1.trans hk⟩
  · refine ⟨k + 1, ?_⟩
    rw [e.2.1, Nat.mod_eq_of_lt (e.2.2.2 hfit), hk, pow_succ, Nat.mul_assoc]
  · rcases e.2.2 with t | t
    · exact ⟨k, t.trans hk⟩
    · cases k with
      | zero =>
        rw [hn] at t
        simp only [pow_zero, Nat.mul_one] at hk
        omega
      | succ k =>
        refine ⟨k, ?_⟩
        rw [t.2.2, hk, pow_succ, ← Nat.mul_assoc, Nat.mul_div_cancel _ (by decide)]

/-- C3: after every sequence of push, del and pop operations on a vector that
`vector_init(item_size, capacity)` produced, no capacity doubling leaving the
range of `size_t`: `total_bytes >= init_bytes`, `total_bytes` is a multiple of
`item_size`, `total_bytes = init_bytes * 2 ^ k` for some `k`, and `init_bytes`
and `item_size` are the ones `vector_init` set. -/
theorem capacity_is_init_times_power_of_two (item_size capacity : Nat) (ok : Bool)
    (ops : List Op) (v : VECTOR)
    (hinit : (vector_init item_size capacity ok).1 = ERROR.SUCCESS)
    (hfit : along doubling_fits (vector_init item_size capacity ok).2 ops = true)
    (hrun : run (vector_init item_size capacity ok).2 ops = some v) :
    v.init_bytes ≤ v.total_bytes ∧ v.item_size ∣ v.total_bytes ∧
    (∃ k, v.total_bytes = v.init_bytes * 2 ^ k) ∧
    v.init_bytes = capacity * item_size ∧ v.item_size = item_size := by
  obtain ⟨_, h0⟩ := init_success item_size capacity ok hinit
  have hP0 : CapInv item_size (capacity * item_size) (vector_init item_size capacity ok).2 := by
    rw [h0]
    exact ⟨rfl, rfl, 0, by simp⟩
  obtain ⟨hi, hn, k, hk⟩ := run_invariant (CapInv item_size (capacity * item_size))
    doubling_fits doubling_fits
    (fun v op v1 hP a _ hs => cap_inv_step _ _ v v1 op hP a hs) ops _ v hP0 hfit hfit hrun
  refine ⟨?_, ?_, ⟨k, by rw [hk, hn]⟩, hn, hi⟩
  · rw [hk, hn]
    exact Nat.le_mul_of_pos_right _ (by positivity)
  · rw [hk, hi]
    exact Dvd.dvd.mul_right (Dvd.intro_left capacity rfl) _

theorem capacity_is_init_times_power_of_two_witness :
    ∃ v, run (vector_init 2 1 true).2
        [Op.push [1, 2] 2 none, Op.push [3, 4] 2 (some []), Op.push_new 2 (some []),
          Op.del 7 none, Op.pop (some [])] = some v ∧
      v.init_bytes ≤ v.total_bytes ∧ v.item_size ∣ v.total_bytes ∧
      (∃ k, v.total_bytes = v.init_bytes * 2 ^ k) ∧
      v.init_bytes = 1 * 2 ∧ v.item_size = 2 :=
  ⟨{ data := some [1, 2, 3, 4], used_bytes := 4, item_size := 2, total_bytes := 4,
     init_bytes := 2 }, by decide,
    capacity_is_init_times_power_of_two 2 1 true
      [Op.push [1, 2] 2 none, Op.push [3, 4] 2 (some []), Op.push_new 2 (some []),
        Op.del 7 none, Op.pop (some [])]
      { data := some [1, 2, 3, 4], used_bytes := 4, item_size := 2, total_bytes := 4,
        init_bytes := 2 }
      (by decide) (by decide) (by decide)⟩

theorem add_le_of_dvd_lt (d a b : Nat) (ha : d ∣ a) (hb : d ∣ b) (h : a < b) : a + d ≤ b := by
  obtain ⟨x, rfl⟩ := ha
  obtain ⟨y, rfl⟩ := hb
  have hd : 0 < d := by
    rcases Nat.eq_zero_or_pos d with h0 | h0
    · subst h0
      simp at h
    · exact h0
  have hxy : x < y := Nat.lt_of_mul_lt_mul_left h
  calc d * x + d = d * (x + 1) := by ring
    _ ≤ d * y := Nat.mul_le_mul_left d hxy

theorem occ_inv_step (item_size init_bytes : Nat) (v v1 : VECTOR) (op : Op)
    (hP : OccInv item_size init_bytes v) (hfit : doubling_fits v op = true)
    (hdel : del_has_item v op = true) (hs : step v op = some v1) :
    OccInv item_size init_bytes v1 := by
  obtain ⟨hC, hO⟩ := hP
  have hC1 := cap_inv_step item_size init_bytes v v1 op hC hfit hs
  refine ⟨hC1, ?_⟩
  obtain ⟨hi, hn, k, hk⟩ := hC
  obtain ⟨_, _, k1, hk1⟩ := hC1
  obtain ⟨_, _, e3⟩ := step_effect v v1 op hs
  rcases hO with ⟨z1, z2, z3⟩ | ⟨p1, p2, p3, p4, p5⟩
  · left
    rw [hi, z1] at e3
    rw [z2, z3] at e3
    refine ⟨z1, ?_, ?_⟩
    · rcases e3 with e | e | e | e
      · exact e.1
      · omega
      · simpa using e.2.2.1
      · simpa using e.2.1
    · rcases e3 with e | e | e | e
      · exact e.2
      · omega
      · simpa using e.2.1
      · rcases e.2.2 with t | t
        · exact t
        · omega
  · right
    have hit : item_size ∣ v.total_bytes := by
      rw [hk]
      exact Dvd.dvd.mul_right p2 _
    have htpos : 0 < v.total_bytes := by
      rw [hk]
      positivity
    have hile : item_size ≤ v.total_bytes := Nat.le_of_dvd htpos hit
    rw [hi] at e3
    refine ⟨p1, p2, ?_⟩
    rcases e3 with e | e | e | e
    · rw [e.1, e.2]
      exact ⟨p3, p4, p5⟩
    · have hle := add_le_of_dvd_lt item_size _ _ p3 hit e.1
      rw [e.2.1, e.2.2, Nat.mod_eq_of_lt (by omega)]
      exact ⟨Dvd.dvd.add p3 (dvd_refl _), hle, p5⟩
    · have h2 := e.2.2.2 hfit
      have hu : v.used_bytes = v.total_bytes := by omega
      rw [e.2.1, e.2.2.1, Nat.mod_eq_of_lt h2, Nat.mod_eq_of_lt (by omega)]
      exact ⟨Dvd.dvd.add p3 (dvd_refl _), by omega, h2⟩
    · have hu := e.1 hdel
      have hsub := sub_no_wrap v.used_bytes item_size (by omega) hu
      rw [hsub] at e
      rw [e.2.1]
      refine ⟨Nat.dvd_sub' p3 (dvd_refl _), ?_, ?_⟩
      · rcases e.2.2 with t | t
        · rw [t]
          omega
        · have hhalf := t.2.1
          rw [e.2.1] at hhalf
          rw [t.2.2]
          exact hhalf
      · rcases e.2.2 with t | t
        · rw [t]
          exact p5
        · rw [t.2.2]
          omega

theorem occ_inv_init (item_size capacity : Nat) (ok : Bool) (hcap : 1 ≤ capacity)
    (hinit : (vector_init item_size capacity ok).1 = ERROR.SUCCESS) :
    OccInv item_size (capacity * item_size) (vector_init item_size capacity ok).2 := by
  obtain ⟨hlt, h0⟩ := init_success item_size capacity ok hinit
  rw [h0]
  refine ⟨⟨rfl, rfl, 0, by simp⟩, ?_⟩
  rcases Nat.eq_zero_or_pos item_size with hz | hz
  · left
    simp [hz]
  · right
    exact ⟨Nat.mul_pos hcap hz, Dvd.intro_left capacity rfl, dvd_zero _, Nat.zero_le _, hlt⟩

/-- C2 as amended: on a vector that `vector_init` produced with `capacity >= 1`,
after every sequence of push, del and pop operations in which each removal is
applied while at least one element is occupied (`used_bytes >= item_size`) and
no capacity doubling leaves the range of `size_t`, `used_bytes <= total_bytes`. -/
theorem used_le_total_within_contract (item_size capacity : Nat) (ok : Bool)
    (ops : List Op) (v : VECTOR)
    (hcap : 1 ≤ capacity)
    (hinit : (vector_init item_size capacity ok).1 = ERROR.SUCCESS)
    (hfit : along doubling_fits (vector_init item_size capacity ok).2 ops = true)
    (hdel : along del_has_item (vector_init item_size capacity ok).2 ops = true)
    (hrun : run (vector_init item_size capacity ok).2 ops = some v) :
    v.used_bytes ≤ v.total_bytes := by
  have hP := run_invariant (OccInv item_size (capacity * item_size))
    doubling_fits del_has_item
    (fun v op v1 hP a b hs => occ_inv_step _ _ v v1 op hP a b hs) ops _ v
    (occ_inv_init item_size capacity ok hcap hinit) hfit hdel hrun
  rcases hP.2 with ⟨_, z2, z3⟩ | ⟨_, _, _, p4, _⟩
  · omega
  · exact p4

theorem used_le_total_within_contract_witness :
    ∃ v, run (vector_init 2 1 true).2
        [Op.push [1, 2] 2 none, Op.push [3, 4] 2 (some []), Op.push_new 2 (some []),
          Op.del 7 none, Op.pop (some []), Op.del 0 (some [])] = some v ∧
      v.used_bytes ≤ v.total_bytes :=
  ⟨{ data := some [1, 2], used_bytes := 2, item_size := 2, total_bytes := 2,
     init_bytes := 2 }, by decide,
    used_le_total_within_contract 2 1 true
      [Op.push [1, 2] 2 none, Op.push [3, 4] 2 (some []), Op.push_new 2 (some []),
        Op.del 7 none, Op.pop (some []), Op.del 0 (some [])]
      { data := some [1, 2], used_bytes := 2, item_size := 2, total_bytes := 2,
        init_bytes := 2 }
      (by decide) (by decide) (by decide) (by decide) (by decide)⟩

/-- C2 as stated fails: on the empty vector of `vector_init(1, 1)` the single
operation `vector_del(0)` passes the capacity check, and the `size_t`
subtraction wraps `used_bytes` to `2 ^ 64 - 1`, far above `total_bytes = 1`. -/
theorem used_exceeds_total_after_del_on_empty :
    (vector_init 1 1 true).1 = ERROR.SUCCESS ∧
    run (vector_init 1 1 true).2 [Op.del 0 none] =
      some { data := some [0], used_bytes := 18446744073709551615, item_size := 1,
             total_bytes := 1, init_bytes := 1 } ∧
    ¬ (18446744073709551615 ≤ 1) := by
  decide

/-! ## Pushing a list of values -/

theorem memcpy_whole (dest src : List Byte) (doff : Nat) (h : doff + src.length ≤ dest.length) :
    memcpy dest doff src 0 src.length =
      some (dest.take doff ++ src ++ dest.drop (doff + src.length)) := by
  simp [memcpy, h]

theorem push_within (v : VECTOR) (buf value junk : List Byte)
    (hbuf : v.data = some buf) (hlen : value.length = v.item_size)
    (hlt : v.used_bytes < v.total_bytes)
    (hfit : v.used_bytes + v.item_size ≤ buf.length) (hsz : v.used_bytes + v.item_size < SIZE) :
    vector_push v value v.item_size (some junk) =
      some (some v.used_bytes,
        { v with data := some (buf.take v.used_bytes ++ value ++
                                buf.drop (v.used_bytes + v.item_size))
                 used_bytes := v.used_bytes + v.item_size }) := by
  have hn : ¬ v.total_bytes ≤ v.used_bytes := by omega
  have hm := memcpy_whole buf value v.used_bytes (by omega)
  rw [hlen] at hm
  simp [vector_push, vector_push_new, hn, hbuf, hm, Nat.mod_eq_of_lt hsz]

theorem push_grown (v : VECTOR) (buf value junk : List Byte)
    (hbuf : v.data = some buf) (hlen : value.length = v.item_size)
    (hblen : buf.length = v.total_bytes)
    (hfull : v.used_bytes = v.total_bytes)
    (hfit : v.item_size ≤ v.total_bytes) (hsz : v.total_bytes * 2 < SIZE) :
    vector_push v value v.item_size (some junk) =
      some (some v.used_bytes,
        { v with data := some (buf ++ value ++
                    (fresh junk v.total_bytes).drop v.item_size)
                 total_bytes := v.total_bytes * 2
                 used_bytes := v.used_bytes + v.item_size }) := by
  have hn : v.total_bytes ≤ v.used_bytes := by omega
  have hr : realloc v.data (v.total_bytes * 2) (some junk) =
      some (buf ++ fresh junk v.total_bytes) := by
    simp only [realloc, hbuf, Option.getD_some, hblen]
    rw [List.take_of_length_le (by omega)]
    congr 3
    omega
  have hg : vector_grow v (some junk) =
      (ERROR.SUCCESS,
        { v with data := some (buf ++ fresh junk v.total_bytes)
                 total_bytes := v.total_bytes * 2 }) := by
    simp [vector_grow, growth_factor, Nat.mod_eq_of_lt hsz, hr]
  have hfl : (fresh junk v.total_bytes).length = v.total_bytes := by simp [fresh]
  have hm := memcpy_whole (buf ++ fresh junk v.total_bytes) value v.used_bytes
    (by simp [hfl, hblen]; omega)
  rw [hlen] at hm
  have h1 : (buf ++ fresh junk v.total_bytes).take v.used_bytes = buf := by
    rw [hfull, ← hblen]
    exact List.take_left _ _
  have h2 : (buf ++ fresh junk v.total_bytes).drop (v.used_bytes + v.item_size) =
      (fresh junk v.total_bytes).drop v.item_size := by
    rw [hfull, ← hblen, ← List.drop_drop, List.drop_left]
  rw [h1, h2] at hm
  simp [vector_push, vector_push_new, hn, hg, hm,
    Nat.mod_eq_of_lt (show v.used_bytes + v.item_size < SIZE by omega)]

/-- One more successful push on a vector holding `n` pushed elements. -/
theorem push_filled (item_size capacity n : Nat) (content value junk : List Byte) (v : VECTOR)
    (hitem : 1 ≤ item_size) (hcap : 1 ≤ capacity)
    (hF : Filled item_size capacity n content v) (hlen : value.length = item_size)
    (hfit : v.used_bytes = v.total_bytes → v.total_bytes * 2 < SIZE) :
    ∃ v1, vector_push v value v.item_size (some junk) = some (some (n * item_size), v1) ∧
      Filled item_size capacity (n + 1) (content ++ value) v1 := by
  obtain ⟨hi, hn, hu, hs, ⟨k, hk, hle, hleast⟩, buf, hbuf, hblen, hcont⟩ := hF
  have hsucc : (n + 1) * item_size = n * item_size + item_size := by ring
  have hlen1 : value.length = v.item_size := by rw [hi]; exact hlen
  by_cases hlt : v.used_bytes < v.total_bytes
  · have hnlt : n < capacity * 2 ^ k := by
      rw [hu, hk] at hlt
      exact Nat.lt_of_mul_lt_mul_right hlt
    have hroom : (n + 1) * item_size ≤ v.total_bytes := by
      rw [hk]
      exact Nat.mul_le_mul_right _ hnlt
    have hp := push_within v buf value junk hbuf hlen1 hlt
      (by rw [hblen, hu, hi]; omega) (by rw [hu, hi]; omega)
    rw [hu] at hp
    refine ⟨_, hp, hi, hn, by simp only [hi]; omega, hs,
      ⟨k, hk, hnlt, fun j hj => Nat.lt_succ_of_lt (hleast j hj)⟩, _, rfl, ?_, ?_⟩
    · simp only [List.length_append, List.length_take, List.length_drop, hblen, hlen1]
      rw [hi]
      omega
    · simp only [hi]
      rw [List.append_assoc, ← hcont, hsucc]
      have hl : (List.take (n * item_size) buf).length = n * item_size := by
        rw [List.length_take, hblen]
        omega
      rw [List.take_append_eq_append_take, hl, List.take_of_length_le (by omega)]
      congr 1
      rw [Nat.add_sub_cancel_left, List.take_append_of_le_length (by omega),
        List.take_of_length_le (by omega)]
  · have hfull : v.used_bytes = v.total_bytes := by
      have : n * item_size ≤ v.total_bytes := by
        rw [hk]
        exact Nat.mul_le_mul_right _ hle
      omega
    have hneq : n = capacity * 2 ^ k := by
      rw [hu, hk] at hfull
      exact Nat.eq_of_mul_eq_mul_right (by omega) hfull
    have hpos : 1 ≤ capacity * 2 ^ k := Nat.mul_pos hcap (by positivity)
    have hile : v.item_size ≤ v.total_bytes := by
      rw [hk, hi]
      exact Nat.le_mul_of_pos_left _ hpos
    have hdbl := hfit hfull
    have hp := push_grown v buf value junk hbuf hlen1 hblen hfull hile hdbl
    rw [hu] at hp
    refine ⟨_, hp, hi, hn, by simp only [hi]; omega, by simp only; omega,
      ⟨k + 1, ?_, ?_, ?_⟩, _, rfl, ?_, ?_⟩
    · simp only [hk]
      ring
    · have hdbl : capacity * 2 ^ (k + 1) = 2 * (capacity * 2 ^ k) := by ring
      rw [hdbl]
      omega
    · intro j hj
      rcases Nat.lt_succ_iff_lt_or_eq.mp hj with h | h
      · exact Nat.lt_succ_of_lt (hleast j h)
      · rw [h, ← hneq]
        exact Nat.lt_succ_self _
    · simp only [List.length_append, List.length_drop, hblen, hlen1, fresh, List.length_map,
        List.length_range]
      omega
    · have hb : buf = content := by
        rw [← hcont, List.take_of_length_le (by omega)]
      rw [← hb]
      exact List.take_left' (by
        rw [List.length_append, hblen, hlen, hsucc]
        omega)

/-- A successful `realloc` gives a block of the requested size. -/
theorem realloc_length (ptr : Option (List Byte)) (size : Nat) (junk : List Byte) :
    ∃ block, realloc ptr size (some junk) = some block ∧ block.length = size := by
  refine ⟨_, rfl, ?_⟩
  simp only [List.length_append, List.length_take, fresh, List.length_map, List.length_range]
  omega

/-- A push on a full vector whose doubled capacity leaves the range of `size_t`
copies outside the reallocated block: it is undefined. -/
theorem push_wrapped_undefined (v : VECTOR) (value junk : List Byte)
    (hfull : v.used_bytes = v.total_bytes) (hs : v.total_bytes < SIZE)
    (hov : SIZE ≤ v.total_bytes * 2) :
    vector_push v value v.item_size (some junk) = none := by
  obtain ⟨block, hr, hbl⟩ := realloc_length v.data (v.total_bytes * 2 % SIZE) junk
  have hmod : v.total_bytes * 2 % SIZE = v.total_bytes * 2 - SIZE := by
    rw [Nat.mod_eq_sub_mod hov]
    exact Nat.mod_eq_of_lt (by omega)
  have hg : vector_grow v (some junk) =
      (ERROR.SUCCESS, { v with data := some block, total_bytes := v.total_bytes * 2 % SIZE }) := by
    simp [vector_grow, growth_factor, hr]
  have hn : v.total_bytes ≤ v.used_bytes := by omega
  have hm : memcpy block v.used_bytes value 0 v.item_size = none := by
    have hno : ¬ (v.used_bytes + v.item_size ≤ block.length) := by omega
    simp [memcpy, hno]
  simp [vector_push, vector_push_new, hn, hg, hm]

/-- A defined, successful push on a vector holding `n` pushed elements leaves a
vector holding `n + 1`. -/
theorem push_filled_of_defined (item_size capacity n : Nat) (content value junk : List Byte)
    (v v1 : VECTOR) (p : Nat) (hitem : 1 ≤ item_size) (hcap : 1 ≤ capacity)
    (hF : Filled item_size capacity n content v) (hlen : value.length = item_size)
    (hp : vector_push v value v.item_size (some junk) = some (some p, v1)) :
    Filled item_size capacity (n + 1) (content ++ value) v1 := by
  have hdbl : v.used_bytes = v.total_bytes → v.total_bytes * 2 < SIZE := by
    intro hfull
    by_contra hcon
    rw [push_wrapped_undefined v value junk hfull hF.2.2.2.1 (by omega)] at hp
    exact absurd hp (by simp)
  obtain ⟨w, hw, hFw⟩ := push_filled item_size capacity n content value junk v hitem hcap
    hF hlen hdbl
  rw [hw] at hp
  simp only [Option.some.injEq, Prod.mk.injEq] at hp
  rw [← hp.2]
  exact hFw

/-- Whenever pushing a list of values of the right size is defined and
successful, the vector holds them after the `n` elements it held before. -/
theorem push_all_filled_of_defined (item_size capacity : Nat) (hitem : 1 ≤ item_size)
    (hcap : 1 ≤ capacity) :
    ∀ (xs : List (List Byte × List Byte)) (n : Nat) (content : List Byte) (v w : VECTOR),
      Filled item_size capacity n content v →
      (∀ x ∈ xs, x.1.length = item_size) →
      push_all v xs = some w →
      Filled item_size capacity (n + xs.length)
        (content ++ (xs.map Prod.fst).flatten) w := by
  intro xs
  induction xs with
  | nil =>
    intro n content v w hF _ hw
    simp only [push_all, Option.some.injEq] at hw
    rw [← hw]
    simpa using hF
  | cons x rest ih =>
    intro n content v w hF hlen hw
    obtain ⟨value, junk⟩ := x
    have hl : value.length = item_size := hlen (value, junk) (List.mem_cons_self _ _)
    simp only [push_all] at hw
    split at hw
    · rename_i p v1 hp
      have hF1 := push_filled_of_defined item_size capacity n content value junk v v1 p
        hitem hcap hF hl hp
      have hidx : n + 1 + rest.length = n + (rest.length + 1) := by omega
      have hFw := ih (n + 1) (content ++ value) v1 w hF1
        (fun y hy => hlen y (List.mem_cons_of_mem _ hy)) hw
      rw [hidx, List.append_assoc] at hFw
      simpa using hFw
    · exact absurd hw (by simp)

/-- Pushing a list of values of the right size on a vector holding `n` pushed
elements succeeds and appends them. -/
theorem push_all_filled (item_size capacity : Nat) (hitem : 1 ≤ item_size)
    (hcap : 1 ≤ capacity) :
    ∀ (xs : List (List Byte × List Byte)) (n : Nat) (content : List Byte) (v : VECTOR),
      Filled item_size capacity n content v →
      (∀ x ∈ xs, x.1.length = item_size) →
      2 * (n + xs.length) * item_size < SIZE →
      ∃ w, push_all v xs = some w ∧
        Filled item_size capacity (n + xs.length)
          (content ++ (xs.map Prod.fst).flatten) w := by
  intro xs
  induction xs with
  | nil =>
    intro n content v hF _ _
    exact ⟨v, rfl, by simpa using hF⟩
  | cons x rest ih =>
    intro n content v hF hlen hfit
    obtain ⟨value, junk⟩ := x
    have hl : value.length = item_size := hlen (value, junk) (List.mem_cons_self _ _)
    have hmono : 2 * n * item_size ≤ 2 * (n + (rest.length + 1)) * item_size :=
      Nat.mul_le_mul_right _ (by omega)
    have hdbl : v.used_bytes = v.total_bytes → v.total_bytes * 2 < SIZE := by
      intro hfull
      have hexp : v.total_bytes * 2 = 2 * n * item_size := by
        rw [← hfull, hF.2.2.1]
        ring
      rw [hexp]
      exact lt_of_le_of_lt hmono (by simpa using hfit)
    obtain ⟨v1, hp, hF1⟩ := push_filled item_size capacity n content value junk v hitem hcap
      hF hl hdbl
    have hidx : n + 1 + rest.length = n + (rest.length + 1) := by omega
    obtain ⟨w, hw, hFw⟩ := ih (n + 1) (content ++ value) v1 hF1
      (fun y hy => hlen y (List.mem_cons_of_mem _ hy)) (by rw [hidx]; exact hfit)
    refine ⟨w, ?_, ?_⟩
    · simp only [push_all, hp]
      exact hw
    · rw [hidx, List.append_assoc] at hFw
      simpa using hFw

/-- The call `vector_init` succeeds when `calloc` does and the size fits. -/
theorem init_ok (item_size capacity : Nat) (hfit : capacity * item_size < SIZE) :
    (vector_init item_size capacity true).1 = ERROR.SUCCESS := by
  simp [vector_init, calloc, hfit]

/-- The vector of a successful `vector_init` holds no pushed element. -/
theorem filled_init (item_size capacity : Nat) (ok : Bool)
    (hinit : (vector_init item_size capacity ok).1 = ERROR.SUCCESS) :
    Filled item_size capacity 0 [] (vector_init item_size capacity ok).2 := by
  obtain ⟨hfit, hv⟩ := init_success item_size capacity ok hinit
  rw [hv]
  exact ⟨rfl, rfl, by simp, hfit,
    ⟨0, by simp, Nat.zero_le _, fun j hj => absurd hj (by omega)⟩, _, rfl, by simp, by simp⟩

/-- Slot `i` of a concatenation of blocks of equal length `m` is block `i`. -/
theorem flatten_slot (m : Nat) :
    ∀ (L : List (List Byte)) (i : Nat) (hi : i < L.length), (∀ x ∈ L, x.length = m) →
      (L.flatten.drop (i * m)).take m = L.get ⟨i, hi⟩ := by
  intro L
  induction L with
  | nil => intro i hi; exact absurd hi (by simp)
  | cons l rest ih =>
    intro i hi hlen
    have hl : l.length = m := hlen l (List.mem_cons_self _ _)
    cases i with
    | zero =>
      simp only [Nat.zero_mul, List.drop_zero, List.flatten_cons, List.get_eq_getElem,
        List.getElem_cons_zero]
      exact List.take_left' hl
    | succ i =>
      have hsplit : (i + 1) * m = l.length + i * m := by rw [hl]; ring
      rw [List.flatten_cons, hsplit, List.drop_append]
      simpa using ih i (by simpa using hi) (fun x hx => hlen x (List.mem_cons_of_mem _ hx))

/-- Reading back element `i` of a vector holding `n` pushed elements. -/
theorem filled_get (item_size capacity n i : Nat) (values : List (List Byte)) (v : VECTOR)
    (hitem : 1 ≤ item_size) (hF : Filled item_size capacity n values.flatten v)
    (hn : values.length = n)
    (hlen : ∀ x ∈ values, x.length = item_size) (hi : i < values.length) :
    vector_get v i = some (i * item_size) ∧
      load v (vector_get v i) = some (values.get ⟨i, hi⟩) := by
  obtain ⟨hit, _, hu, hs, ⟨k, hk, hle, _⟩, buf, hbuf, hblen, hcont⟩ := hF
  have hin : (i + 1) * item_size ≤ n * item_size := Nat.mul_le_mul_right _ (by omega)
  have hnt : n * item_size ≤ v.total_bytes := by
    rw [hk]
    exact Nat.mul_le_mul_right _ hle
  have hsucc : (i + 1) * item_size = i * item_size + item_size := by ring
  have hg : vector_get v i = some (i * item_size) := by
    have hmod : (i * v.item_size) % SIZE = i * item_size := by
      rw [hit]
      exact Nat.mod_eq_of_lt (by omega)
    have hlt : ¬ v.total_bytes ≤ i * item_size := by omega
    simp [vector_get, hmod, hlt]
  refine ⟨hg, ?_⟩
  have hslot := flatten_slot item_size values i hi hlen
  rw [← hcont, List.drop_take, List.take_take] at hslot
  have hmin : min item_size (n * item_size - i * item_size) = item_size := by omega
  rw [hmin] at hslot
  simp only [hg, load, hbuf, hit, hblen]
  rw [if_pos (by omega), hslot]

/-- C1: for `item_size >= 1`, `capacity >= 1` and a list of values of
`item_size` bytes each: whenever `vector_init` and then `vector_push` of the
values in order succeed (all allocations succeeding), `vector_get(i)`, for every
`i` below the number of values, is the pointer `data + i * item_size` and refers
to exactly the bytes of the `i`-th pushed value, whatever growth happened in
between and whatever the reallocated memory held; and they do succeed as soon
as the initial capacity and twice the pushed bytes fit a `size_t`. -/
theorem push_then_get_returns_pushed_values (item_size capacity : Nat)
    (xs : List (List Byte × List Byte))
    (hitem : 1 ≤ item_size) (hcap : 1 ≤ capacity)
    (hlen : ∀ x ∈ xs, x.1.length = item_size) :
    (capacity * item_size < SIZE → 2 * xs.length * item_size < SIZE →
      (vector_init item_size capacity true).1 = ERROR.SUCCESS ∧
      ∃ v, push_all (vector_init item_size capacity true).2 xs = some v) ∧
    (∀ (ok : Bool) (v : VECTOR),
      (vector_init item_size capacity ok).1 = ERROR.SUCCESS →
      push_all (vector_init item_size capacity ok).2 xs = some v →
      ∀ (i : Nat) (hi : i < xs.length),
        vector_get v i = some (i * item_size) ∧
        load v (vector_get v i) = some (xs.get ⟨i, hi⟩).1) := by
  constructor
  · intro hinit hfit
    have h0 := init_ok item_size capacity hinit
    obtain ⟨v, hv, _⟩ := push_all_filled item_size capacity hitem hcap xs 0 [] _
      (filled_init item_size capacity true h0) hlen (by simpa using hfit)
    exact ⟨h0, v, hv⟩
  · intro ok v h0 hv i hi
    have hF := push_all_filled_of_defined item_size capacity hitem hcap xs 0 [] _ v
      (filled_init item_size capacity ok h0) hlen hv
    simp only [Nat.zero_add, List.nil_append] at hF
    have hi1 : i < (xs.map Prod.fst).length := by simpa using hi
    have hg := filled_get item_size capacity xs.length i (xs.map Prod.fst) v hitem hF
      (by simp) (by simpa using hlen) hi1
    simpa using hg

theorem push_then_get_returns_pushed_values_witness :
    ∃ v, push_all (vector_init 2 1 true).2
        [([1, 2], []), ([3, 4], [9, 9, 9]), ([5, 6], [7, 7, 7, 7, 7])] = some v ∧
      load v (vector_get v 0) = some [1, 2] ∧
      load v (vector_get v 1) = some [3, 4] ∧
      load v (vector_get v 2) = some [5, 6] := by
  have h := push_then_get_returns_pushed_values 2 1
    [([1, 2], []), ([3, 4], [9, 9, 9]), ([5, 6], [7, 7, 7, 7, 7])]
    (by decide) (by decide) (by decide)
  obtain ⟨h0, v, hv⟩ := h.1 (by decide) (by decide)
  exact ⟨v, hv, (h.2 true v h0 hv 0 (by decide)).2, (h.2 true v h0 hv 1 (by decide)).2,
    (h.2 true v h0 hv 2 (by decide)).2⟩

/-- C5: for `item_size >= 1`, `capacity >= 1` and `N` values of `item_size`
bytes: whenever `vector_init` and then the `N` pushes succeed,
`used_bytes = N * item_size` and `total_bytes = capacity * 2 ^ k * item_size`
for the least `k` with `capacity * 2 ^ k >= N`; pushing `capacity + 1` elements
gives `total_bytes = 2 * capacity * item_size`, and pushing 10000 elements into
capacity 16 gives `total_bytes = 2 ^ 14 * item_size`; and the pushes do succeed
as soon as the initial capacity and twice the pushed bytes fit a `size_t`. -/
theorem push_capacity_growth (item_size capacity : Nat)
    (xs : List (List Byte × List Byte))
    (hitem : 1 ≤ item_size) (hcap : 1 ≤ capacity)
    (hlen : ∀ x ∈ xs, x.1.length = item_size) :
    (capacity * item_size < SIZE → 2 * xs.length * item_size < SIZE →
      ∃ v, push_all (vector_init item_size capacity true).2 xs = some v) ∧
    (∀ (ok : Bool) (v : VECTOR),
      (vector_init item_size capacity ok).1 = ERROR.SUCCESS →
      push_all (vector_init item_size capacity ok).2 xs = some v →
      v.used_bytes = xs.length * item_size ∧
      (∃ k, v.total_bytes = capacity * 2 ^ k * item_size ∧
        xs.length ≤ capacity * 2 ^ k ∧ ∀ j, j < k → capacity * 2 ^ j < xs.length) ∧
      (xs.length = capacity + 1 → v.total_bytes = 2 * capacity * item_size) ∧
      (capacity = 16 → xs.length = 10000 → v.total_bytes = 2 ^ 14 * item_size)) := by
  constructor
  · intro hinit hfit
    obtain ⟨v, hv, _⟩ := push_all_filled item_size capacity hitem hcap xs 0 [] _
      (filled_init item_size capacity true (init_ok item_size capacity hinit)) hlen
      (by simpa using hfit)
    exact ⟨v, hv⟩
  · intro ok v h0 hv
    have hF := push_all_filled_of_defined item_size capacity hitem hcap xs 0 [] _ v
      (filled_init item_size capacity ok h0) hlen hv
    simp only [Nat.zero_add, List.nil_append] at hF
    obtain ⟨_, _, hu, _, ⟨k, hk, hle, hleast⟩, _⟩ := hF
    refine ⟨hu, ⟨k, hk, hle, hleast⟩, ?_, ?_⟩
    · intro hN
      have hk1 : k = 1 := by
        rcases Nat.lt_trichotomy k 1 with h | h | h
        · have hk0 : k = 0 := by omega
          rw [hk0] at hle
          simp only [pow_zero, Nat.mul_one] at hle
          omega
        · exact h
        · have h1 := hleast 1 h
          simp only [pow_one] at h1
          omega
      rw [hk, hk1]
      ring
    · intro hC hN
      subst hC
      rw [hN] at hle hleast
      have hk10 : k = 10 := by
        have hub : k < 11 := by
          by_contra hcon
          have h10 := hleast 10 (by omega)
          norm_num at h10
        have hlb : 10 ≤ k := by
          by_contra hcon
          have hpow : 2 ^ k ≤ 2 ^ 9 := Nat.pow_le_pow_right (by decide) (by omega)
          norm_num at hpow
          omega
        omega
      rw [hk, hk10]
      norm_num

theorem push_capacity_growth_witness :
    ∃ v, push_all (vector_init 8 16 true).2
        (List.replicate 10000 ([1, 2, 3, 4, 5, 6, 7, 8], [])) = some v ∧
      v.used_bytes = 10000 * 8 ∧ v.total_bytes = 2 ^ 14 * 8 := by
  have h := push_capacity_growth 8 16 (List.replicate 10000 ([1, 2, 3, 4, 5, 6, 7, 8], []))
    (by decide) (by decide) (by intro x hx; rw [List.eq_of_mem_replicate hx]; rfl)
  obtain ⟨v, hv⟩ := h.1 (by decide) (by rw [List.length_replicate]; decide)
  have hp := h.2 true v (by decide) hv
  rw [List.length_replicate] at hp
  exact ⟨v, hv, hp.1, hp.2.2.2 rfl rfl⟩

/-! ## Pop, copies, initialisation and failed shrinks -/

/-- C11, evaluated where the code leaves it.  After `vector_init(1, 1)` and one
push the vector holds one element and is full.  `vector_del` of the last
element, index `count - 1 = 0`, returns SUCCESS and empties the vector, but
`vector_pop` deletes at index `used_bytes / item_size = 1`, one past the last
element, which fails the capacity check: it returns FAILURE and changes
nothing. -/
theorem pop_fails_on_full_vector :
    push_all (vector_init 1 1 true).2 [([7], [])] =
      some { data := some [7], used_bytes := 1, item_size := 1, total_bytes := 1,
             init_bytes := 1 } ∧
    vector_del
        { data := some [7], used_bytes := 1, item_size := 1, total_bytes := 1,
          init_bytes := 1 } (1 / 1 - 1) (some []) =
      (ERROR.SUCCESS,
        { data := some [7], used_bytes := 0, item_size := 1, total_bytes := 1,
          init_bytes := 1 }) ∧
    vector_pop
        { data := some [7], used_bytes := 1, item_size := 1, total_bytes := 1,
          init_bytes := 1 } (some []) =
      some (ERROR.FAILURE,
        { data := some [7], used_bytes := 1, item_size := 1, total_bytes := 1,
          init_bytes := 1 }) := by
  decide

/-- C12, evaluated where the code leaves it.  After `vector_init(1, 2)` and a
push of the byte 7 the last stored element is `[7]`, at index 0.
`vector_pop_copy` copies at index `used_bytes / item_size = 1`, one past the
last element, and returns the bytes of that unused slot, `[0]`, while
`vector_del_copy(0)` returns `[7]`.  On the full vector of `vector_init(1, 1)`
and one push `vector_pop_copy` returns NULL and removes nothing. -/
theorem pop_copy_misses_last_element :
    push_all (vector_init 1 2 true).2 [([7], [])] =
      some { data := some [7, 0], used_bytes := 1, item_size := 1, total_bytes := 2,
             init_bytes := 2 } ∧
    vector_pop_copy
        { data := some [7, 0], used_bytes := 1, item_size := 1, total_bytes := 2,
          init_bytes := 2 } (some []) (some []) =
      some (some [0],
        { data := some [7, 0], used_bytes := 0, item_size := 1, total_bytes := 2,
          init_bytes := 2 }) ∧
    vector_del_copy
        { data := some [7, 0], used_bytes := 1, item_size := 1, total_bytes := 2,
          init_bytes := 2 } (1 / 1 - 1) (some []) (some []) =
      some (some [7],
        { data := some [7, 0], used_bytes := 0, item_size := 1, total_bytes := 2,
          init_bytes := 2 }) ∧
    push_all (vector_init 1 1 true).2 [([7], [])] =
      some { data := some [7], used_bytes := 1, item_size := 1, total_bytes := 1,
             init_bytes := 1 } ∧
    vector_pop_copy
        { data := some [7], used_bytes := 1, item_size := 1, total_bytes := 1,
          init_bytes := 1 } (some []) (some []) =
      some (none,
        { data := some [7], used_bytes := 1, item_size := 1, total_bytes := 1,
          init_bytes := 1 }) := by
  decide

/-- C13: on a vector whose block has `total_bytes` bytes, a multiple of
`item_size`, and an index with `index * item_size < total_bytes`:
when the `malloc` of the copy succeeds `vector_del_copy` returns a fresh block
of `item_size` bytes equal to the bytes the vector held at offset
`index * item_size`, and leaves the vector in the state `vector_del(index)`
produces; when the `malloc` fails it returns NULL and leaves the vector as it
was. -/
theorem del_copy_returns_element (vec : VECTOR) (index : Nat) (buf junk : List Byte)
    (r : Option (List Byte))
    (hbuf : vec.data = some buf) (hlen : buf.length = vec.total_bytes)
    (hdvd : vec.item_size ∣ vec.total_bytes) (htot : vec.total_bytes < SIZE)
    (hidx : index * vec.item_size < vec.total_bytes) :
    vector_del_copy vec index (some junk) r =
      some (some ((buf.drop (index * vec.item_size)).take vec.item_size),
        (vector_del vec index r).2) ∧
    ((buf.drop (index * vec.item_size)).take vec.item_size).length = vec.item_size ∧
    vector_del_copy vec index none r = some (none, vec) := by
  have hmod : (index * vec.item_size) % SIZE = index * vec.item_size :=
    Nat.mod_eq_of_lt (by omega)
  have hg : vector_get vec index = some (index * vec.item_size) := by
    rw [← hmod]
    exact get_of_lt vec index (by rw [hmod]; exact hidx)
  have hin : index * vec.item_size + vec.item_size ≤ buf.length := by
    rw [hlen]
    exact add_le_of_dvd_lt _ _ _ (Dvd.intro_left index rfl) hdvd hidx
  have hfl : (fresh junk vec.item_size).length = vec.item_size := by simp [fresh]
  have hm : memcpy (fresh junk vec.item_size) 0 buf (index * vec.item_size) vec.item_size =
      some ((buf.drop (index * vec.item_size)).take vec.item_size) := by
    simp [memcpy, hfl, hin]
  refine ⟨?_, ?_, ?_⟩
  · simp [vector_del_copy, malloc, hg, hbuf, hm]
  · rw [List.length_take, List.length_drop]
    omega
  · simp [vector_del_copy, malloc]

/-- C14: `vector_init` returns SUCCESS exactly when `calloc` succeeds and FAILURE
otherwise; on success the vector has the given `item_size`, `used_bytes = 0`,
`total_bytes = init_bytes = capacity * item_size` and a block of `total_bytes`
zero bytes, so that `used_bytes <= total_bytes`, `total_bytes >= init_bytes`
and `total_bytes` is a multiple of `item_size`. -/
theorem vector_init_result (item_size capacity : Nat) (ok : Bool) :
    ((vector_init item_size capacity ok).1 = ERROR.SUCCESS ↔
      (calloc capacity item_size ok).isSome = true) ∧
    ((calloc capacity item_size ok).isSome = false →
      (vector_init item_size capacity ok).1 = ERROR.FAILURE) ∧
    ((vector_init item_size capacity ok).1 = ERROR.SUCCESS →
      (vector_init item_size capacity ok).2 =
        { data := some (List.replicate (capacity * item_size) 0)
          used_bytes := 0
          item_size := item_size
          total_bytes := capacity * item_size
          init_bytes := capacity * item_size } ∧
      (vector_init item_size capacity ok).2.used_bytes ≤
        (vector_init item_size capacity ok).2.total_bytes ∧
      (vector_init item_size capacity ok).2.init_bytes ≤
        (vector_init item_size capacity ok).2.total_bytes ∧
      (vector_init item_size capacity ok).2.item_size ∣
        (vector_init item_size capacity ok).2.total_bytes) := by
  refine ⟨?_, ?_, ?_⟩
  · unfold vector_init
    cases h : (calloc capacity item_size ok).isSome <;> simp [h]
  · intro h
    simp [vector_init, h]
  · intro h
    obtain ⟨_, hv⟩ := init_success item_size capacity ok h
    rw [hv]
    exact ⟨rfl, Nat.zero_le _, Nat.le_refl _, Dvd.intro_left capacity rfl⟩

theorem vector_init_result_witness :
    (vector_init 8 16 true).2 =
        { data := some (List.replicate (16 * 8) 0)
          used_bytes := 0
          item_size := 8
          total_bytes := 16 * 8
          init_bytes := 16 * 8 } ∧
      (vector_init 8 16 true).2.used_bytes ≤ (vector_init 8 16 true).2.total_bytes ∧
      (vector_init 8 16 true).2.init_bytes ≤ (vector_init 8 16 true).2.total_bytes ∧
      (vector_init 8 16 true).2.item_size ∣ (vector_init 8 16 true).2.total_bytes :=
  (vector_init_result 8 16 true).2.2 (by decide)

theorem del_copy_returns_element_witness :
    vector_del_copy
        { data := some [1, 2, 3, 4], used_bytes := 4, item_size := 2, total_bytes := 4,
          init_bytes := 4 } 1 (some [9]) (some []) =
      some (some (([1, 2, 3, 4].drop (1 * 2)).take 2),
        (vector_del
          { data := some [1, 2, 3, 4], used_bytes := 4, item_size := 2, total_bytes := 4,
            init_bytes := 4 } 1 (some [])).2) ∧
    (([1, 2, 3, 4] : List Byte).drop (1 * 2)).take 2 = [3, 4] ∧
    vector_del_copy
        { data := some [1, 2, 3, 4], used_bytes := 4, item_size := 2, total_bytes := 4,
          init_bytes := 4 } 1 none (some []) =
      some (none,
        { data := some [1, 2, 3, 4], used_bytes := 4, item_size := 2, total_bytes := 4,
          init_bytes := 4 }) := by
  have h := del_copy_returns_element
    { data := some [1, 2, 3, 4], used_bytes := 4, item_size := 2, total_bytes := 4,
      init_bytes := 4 } 1 [1, 2, 3, 4] [9] (some []) rfl rfl (by decide) (by decide)
    (by decide)
  exact ⟨h.1, by decide, h.2.2⟩

/-- C15 as stated fails: the vector of `vector_init(1, 2)` after three pushes
has `total_bytes = 4 > init_bytes = 2` and `used_bytes = 3`; a delete brings
`used_bytes` to `2 <= 4 / 2`, the `realloc` of `vector_shrink` fails and
`vector_shrink` returns FAILURE, yet `vector_del` returns SUCCESS. -/
theorem del_reports_success_when_shrink_fails :
    push_all (vector_init 1 2 true).2 [([1], []), ([2], []), ([3], [])] =
      some { data := some [1, 2, 3, 0], used_bytes := 3, item_size := 1, total_bytes := 4,
             init_bytes := 2 } ∧
    (4 > 2 ∧ 3 - 1 ≤ 4 / 2) ∧
    vector_shrink
        { data := some [1, 2, 3, 0], used_bytes := 2, item_size := 1, total_bytes := 4,
          init_bytes := 2 } none =
      (ERROR.FAILURE,
        { data := some [1, 2, 3, 0], used_bytes := 2, item_size := 1, total_bytes := 4,
          init_bytes := 2 }) ∧
    vector_del
        { data := some [1, 2, 3, 0], used_bytes := 3, item_size := 1, total_bytes := 4,
          init_bytes := 2 } 0 none =
      (ERROR.SUCCESS,
        { data := some [1, 2, 3, 0], used_bytes := 2, item_size := 1, total_bytes := 4,
          init_bytes := 2 }) := by
  decide

/-- C15 as amended: when a delete passes the capacity check and satisfies the
shrink condition (`total_bytes > init_bytes` and the new
`used_bytes <= total_bytes / 2`) and the `realloc` of the shrink fails,
`vector_shrink` returns FAILURE and `vector_del` ignores it: `vector_del`
returns SUCCESS, with `used_bytes` decremented by `item_size` and
`total_bytes` and the buffer as they were. -/
theorem del_ignores_shrink_failure (vec : VECTOR) (index : Nat)
    (hidx : (index * vec.item_size) % SIZE < vec.total_bytes)
    (hsz : vec.used_bytes < SIZE) (hused : vec.item_size ≤ vec.used_bytes)
    (hgt : vec.total_bytes > vec.init_bytes)
    (hhalf : vec.used_bytes - vec.item_size ≤ vec.total_bytes / 2) :
    vector_shrink { vec with used_bytes := vec.used_bytes - vec.item_size } none =
      (ERROR.FAILURE, { vec with used_bytes := vec.used_bytes - vec.item_size }) ∧
    vector_del vec index none =
      (ERROR.SUCCESS, { vec with used_bytes := vec.used_bytes - vec.item_size }) := by
  have hg := get_of_lt vec index hidx
  have hs := sub_no_wrap vec.used_bytes vec.item_size hsz hused
  have hsh : vector_shrink { vec with used_bytes := vec.used_bytes - vec.item_size } none =
      (ERROR.FAILURE, { vec with used_bytes := vec.used_bytes - vec.item_size }) := by
    simp [vector_shrink, realloc]
  refine ⟨hsh, ?_⟩
  simp only [vector_del, hg, hs, growth_factor]
  rw [if_pos ⟨hgt, hhalf⟩, hsh]

theorem del_ignores_shrink_failure_witness :
    vector_shrink
        { data := some [1, 2, 3, 0], used_bytes := 3 - 1, item_size := 1, total_bytes := 4,
          init_bytes := 2 } none =
      (ERROR.FAILURE,
        { data := some [1, 2, 3, 0], used_bytes := 3 - 1, item_size := 1, total_bytes := 4,
          init_bytes := 2 }) ∧
    vector_del
        { data := some [1, 2, 3, 0], used_bytes := 3, item_size := 1, total_bytes := 4,
          init_bytes := 2 } 0 none =
      (ERROR.SUCCESS,
        { data := some [1, 2, 3, 0], used_bytes := 3 - 1, item_size := 1, total_bytes := 4,
          init_bytes := 2 }) :=
  del_ignores_shrink_failure
    { data := some [1, 2, 3, 0], used_bytes := 3, item_size := 1, total_bytes := 4,
      init_bytes := 2 } 0 (by decide) (by decide) (by decide) (by decide) (by decide)

/-! ## Push followed by delete -/

/-- Accounting fields after `vector_del`, with the reason for an unchanged
capacity. -/
theorem del_effect_exact (v : VECTOR) (index : Nat) (r : Option (List Byte)) :
    (vector_del v index r).2.item_size = v.item_size ∧
    (vector_del v index r).2.init_bytes = v.init_bytes ∧
    (((vector_del v index r).2.used_bytes = v.used_bytes ∧
        (vector_del v index r).2.total_bytes = v.total_bytes) ∨
      ((vector_del v index r).2.used_bytes =
          (v.used_bytes + (SIZE - v.item_size % SIZE)) % SIZE ∧
        (((vector_del v index r).2.total_bytes = v.total_bytes ∧
            (r.isSome = true →
              ¬ (v.init_bytes < v.total_bytes ∧
                (vector_del v index r).2.used_bytes ≤ v.total_bytes / 2))) ∨
          (v.init_bytes < v.total_bytes ∧
            (vector_del v index r).2.used_bytes ≤ v.total_bytes / 2 ∧
            (vector_del v index r).2.total_bytes = v.total_bytes / 2)))) := by
  unfold vector_del
  cases hg : vector_get v index with
  | none => simp
  | some off =>
    dsimp only
    split
    · rename_i hc
      simp only [growth_factor] at hc
      cases r with
      | none => simp [vector_shrink, realloc]
      | some junk =>
        simp only [vector_shrink, realloc, growth_factor, true_and]
        right
        exact Or.inr ⟨hc.1, hc.2, trivial⟩
    · rename_i hc
      simp only [growth_factor] at hc
      simp only [true_and]
      right
      exact Or.inl (fun _ => hc)

/-- What one defined operation does to the accounting fields, exactly. -/
theorem step_transition (v v1 : VECTOR) (op : Op) (h : step v op = some v1) :
    Transition v op v1 := by
  have hpush : ∀ size r, v1.used_bytes = (vector_push_new v size r).2.used_bytes →
      v1.item_size = (vector_push_new v size r).2.item_size →
      v1.total_bytes = (vector_push_new v size r).2.total_bytes →
      v1.init_bytes = (vector_push_new v size r).2.init_bytes →
      (doubling_fits v op = true → size = v.item_size → v.total_bytes ≤ v.used_bytes →
        v.total_bytes * 2 < SIZE) → Transition v op v1 := by
    intro size r h1 h2 h3 h4 hd
    obtain ⟨e1, e2, e3⟩ := push_new_effect v size r
    rw [← h1, ← h3] at e3
    refine ⟨h2.trans e1, h4.trans e2, ?_⟩
    rcases e3 with e | e | e
    · exact Or.inl e
    · exact Or.inr (Or.inl e)
    · exact Or.inr (Or.inr (Or.inl ⟨e.2.1, e.2.2.1, e.2.2.2, fun hf => hd hf e.1 e.2.1⟩))
  have hdel : ∀ index r, v1 = (vector_del v index r).2 →
      (del_has_item v op = true → v.item_size ≤ v.used_bytes) →
      (shrink_succeeds op = true → r.isSome = true) → Transition v op v1 := by
    intro index r h1 hd hr
    obtain ⟨e1, e2, e3⟩ := del_effect_exact v index r
    rw [← h1] at e1 e2 e3
    refine ⟨e1, e2, ?_⟩
    rcases e3 with e | e
    · exact Or.inl e
    · refine Or.inr (Or.inr (Or.inr ⟨hd, e.1, ?_⟩))
      rcases e.2 with t | t
      · exact Or.inl ⟨t.1, fun hs => t.2 (hr hs)⟩
      · exact Or.inr t
  cases op with
  | push value size r =>
    simp only [step, Option.map_eq_some', Prod.exists, exists_eq_right] at h
    obtain ⟨p, hp⟩ := h
    obtain ⟨_, h1, h2, h3, h4⟩ := push_fields v v1 value size r p hp
    exact hpush size r h1 h2 h3 h4 (by
      intro hf hs hfull
      simpa [doubling_fits, hs, hfull, growth_factor] using hf)
  | push_new size r =>
    simp only [step, Option.some.injEq] at h
    subst h
    exact hpush size r rfl rfl rfl rfl (by
      intro hf hs hfull
      simpa [doubling_fits, hs, hfull, growth_factor] using hf)
  | del index r =>
    simp only [step, Option.some.injEq] at h
    exact hdel index r h.symm (by simp [del_has_item]) (by simp [shrink_succeeds])
  | del_copy index m r =>
    simp only [step, Option.map_eq_some', Prod.exists, exists_eq_right] at h
    obtain ⟨c, hc⟩ := h
    rcases del_copy_state v v1 index m r c hc with e | e
    · subst e
      exact ⟨rfl, rfl, Or.inl ⟨rfl, rfl⟩⟩
    · exact hdel index r e (by simp [del_has_item]) (by simp [shrink_succeeds])
  | pop r =>
    simp only [step, vector_pop, Option.map_eq_some', Prod.exists, exists_eq_right] at h
    obtain ⟨e, he⟩ := h
    split at he
    · exact absurd he (by simp)
    · simp only [Option.some.injEq] at he
      exact hdel _ r (by rw [he]) (by simp [del_has_item]) (by simp [shrink_succeeds])
  | pop_copy m r =>
    simp only [step, vector_pop_copy, Option.map_eq_some', Prod.exists, exists_eq_right] at h
    obtain ⟨c, hc⟩ := h
    split at hc
    · exact absurd hc (by simp)
    · rcases del_copy_state v v1 _ m r c hc with e | e
      · subst e
        exact ⟨rfl, rfl, Or.inl ⟨rfl, rfl⟩⟩
      · exact hdel _ r e (by simp [del_has_item]) (by simp [shrink_succeeds])

theorem within_contract_parts (v : VECTOR) (op : Op) (h : within_contract v op = true) :
    doubling_fits v op = true ∧ del_has_item v op = true ∧ shrink_succeeds op = true := by
  simpa [within_contract, Bool.and_eq_true, and_assoc] using h

/-- Under well-formed use a vector above its initial capacity stays more than
half full. -/
theorem half_full_step (item_size init_bytes : Nat) (v v1 : VECTOR) (op : Op)
    (hitem : 1 ≤ item_size) (hO : OccInv item_size init_bytes v) (hH : HalfFull v)
    (hwc : within_contract v op = true) (hs : step v op = some v1) : HalfFull v1 := by
  obtain ⟨hfit, hdel, hsh⟩ := within_contract_parts v op hwc
  obtain ⟨⟨hi, hn, k, hk⟩, hocc⟩ := hO
  obtain ⟨_, e2, e3⟩ := step_transition v v1 op hs
  rcases hocc with ⟨z1, _, _⟩ | ⟨p1, p2, p3, p4, p5⟩
  · omega
  have hit : item_size ∣ v.total_bytes := by
    rw [hk]
    exact Dvd.dvd.mul_right p2 _
  have htpos : 0 < v.total_bytes := by
    rw [hk]
    positivity
  have hile : item_size ≤ v.total_bytes := Nat.le_of_dvd htpos hit
  unfold HalfFull at *
  rw [hi] at e3
  rw [e2]
  rcases e3 with e | e | e | e
  · rw [e.1, e.2]
    exact hH
  · have hle := add_le_of_dvd_lt item_size _ _ p3 hit e.1
    rw [e.2.1, e.2.2, Nat.mod_eq_of_lt (by omega)]
    intro h
    have := hH h
    omega
  · have h2 := e.2.2.2 hfit
    rw [e.2.1, e.2.2.1, Nat.mod_eq_of_lt h2, Nat.mod_eq_of_lt (by omega)]
    intro _
    omega
  · have hu := e.1 hdel
    have hsub := sub_no_wrap v.used_bytes item_size (by omega) hu
    rw [hsub] at e
    rcases e.2.2 with t | t
    · have hno := t.2 hsh
      rw [e.2.1] at hno
      rw [t.1, e.2.1]
      intro h
      have hnot : ¬ (v.used_bytes - item_size ≤ v.total_bytes / 2) := fun hc => hno ⟨h, hc⟩
      omega
    · have hlt := hH t.1
      have hhalf := t.2.1
      rw [e.2.1] at hhalf
      cases k with
      | zero =>
        simp only [pow_zero, Nat.mul_one] at hk
        omega
      | succ k =>
        have hdiv : v.total_bytes / 2 = init_bytes * 2 ^ k := by
          rw [hk, pow_succ, ← Nat.mul_assoc, Nat.mul_div_cancel _ (by decide)]
        have hdh : item_size ∣ v.total_bytes / 2 := by
          rw [hdiv]
          exact Dvd.dvd.mul_right p2 _
        have hhpos : 0 < v.total_bytes / 2 := by
          rw [hdiv]
          positivity
        have hge := add_le_of_dvd_lt item_size (v.total_bytes / 2) v.used_bytes hdh p3
          (by omega)
        rw [t.2.2, e.2.1]
        intro _
        omega

theorem memcpy_length (dest src d : List Byte) (doff soff n : Nat)
    (h : memcpy dest doff src soff n = some d) : d.length = dest.length := by
  unfold memcpy at h
  split at h
  · rename_i hc
    simp only [Option.some.injEq] at h
    rw [← h]
    simp only [List.length_append, List.length_take, List.length_drop]
    omega
  · exact absurd h (by simp)

theorem grow_block (v : VECTOR) (r : Option (List Byte)) (hB : HasBlock v) :
    HasBlock (vector_grow v r).2 := by
  cases r with
  | none => simpa [vector_grow, realloc] using hB
  | some junk =>
    obtain ⟨block, hr, hl⟩ := realloc_length v.data (v.total_bytes * growth_factor % SIZE) junk
    simp only [vector_grow, hr]
    exact ⟨block, rfl, hl⟩

theorem shrink_block (v : VECTOR) (r : Option (List Byte)) (hB : HasBlock v) :
    HasBlock (vector_shrink v r).2 := by
  cases r with
  | none => simpa [vector_shrink, realloc] using hB
  | some junk =>
    obtain ⟨block, hr, hl⟩ := realloc_length v.data (v.total_bytes / growth_factor) junk
    simp only [vector_shrink, hr]
    exact ⟨block, rfl, hl⟩

theorem push_new_block (v : VECTOR) (size : Nat) (r : Option (List Byte)) (hB : HasBlock v) :
    HasBlock (vector_push_new v size r).2 := by
  unfold vector_push_new
  by_cases hs : size = v.item_size
  · by_cases hf : v.total_bytes ≤ v.used_bytes
    · obtain ⟨buf, h1, h2⟩ := grow_block v r hB
      by_cases hg : (vector_grow v r).1 = ERROR.SUCCESS
      · simp only [hs, hf, hg, ne_eq, not_true_eq_false, ite_false, ite_true, ge_iff_le]
        exact ⟨buf, h1, h2⟩
      · simp only [hs, hf, hg, ne_eq, not_true_eq_false, not_false_eq_true, ite_false,
          ite_true, ge_iff_le]
        exact ⟨buf, h1, h2⟩
    · obtain ⟨buf, h1, h2⟩ := hB
      simp only [hs, hf, ne_eq, not_true_eq_false, ite_false, ge_iff_le]
      exact ⟨buf, h1, h2⟩
  · simp only [hs, ne_eq, not_false_eq_true, ite_true]
    exact hB

theorem push_block (v v1 : VECTOR) (value : List Byte) (size : Nat) (r : Option (List Byte))
    (p : Ptr) (hB : HasBlock v) (h : vector_push v value size r = some (p, v1)) :
    HasBlock v1 := by
  have hn := push_new_block v size r hB
  unfold vector_push at h
  split at h
  · rename_i vec1 heq
    simp only [Option.some.injEq, Prod.mk.injEq] at h
    rw [heq] at hn
    rw [← h.2]
    exact hn
  · rename_i element vec1 heq
    rw [heq] at hn
    obtain ⟨buf, hb, hl⟩ := hn
    simp only at hb hl
    split at h
    · exact absurd h (by simp)
    · rename_i buf1 hm
      simp only [Option.some.injEq, Prod.mk.injEq] at h
      rw [hb] at hm
      simp only [Option.some_bind] at hm
      rw [← h.2]
      exact ⟨buf1, rfl, (memcpy_length _ _ _ _ _ _ hm).trans hl⟩

theorem del_block (v : VECTOR) (index : Nat) (r : Option (List Byte)) (hB : HasBlock v) :
    HasBlock (vector_del v index r).2 := by
  unfold vector_del
  split
  · exact hB
  · dsimp only
    split
    · exact shrink_block _ r hB
    · exact hB

theorem block_step (v v1 : VECTOR) (op : Op) (hB : HasBlock v) (h : step v op = some v1) :
    HasBlock v1 := by
  cases op with
  | push value size r =>
    simp only [step, Option.map_eq_some', Prod.exists, exists_eq_right] at h
    obtain ⟨p, hp⟩ := h
    exact push_block v v1 value size r p hB hp
  | push_new size r =>
    simp only [step, Option.some.injEq] at h
    rw [← h]
    exact push_new_block v size r hB
  | del index r =>
    simp only [step, Option.some.injEq] at h
    rw [← h]
    exact del_block v index r hB
  | del_copy index m r =>
    simp only [step, Option.map_eq_some', Prod.exists, exists_eq_right] at h
    obtain ⟨c, hc⟩ := h
    rcases del_copy_state v v1 index m r c hc with e | e
    · rw [e]
      exact hB
    · rw [e]
      exact del_block v index r hB
  | pop r =>
    simp only [step, vector_pop, Option.map_eq_some', Prod.exists, exists_eq_right] at h
    obtain ⟨e, he⟩ := h
    split at he
    · exact absurd he (by simp)
    · simp only [Option.some.injEq] at he
      have hv : v1 = (vector_del v (v.used_bytes / v.item_size) r).2 := by rw [he]
      rw [hv]
      exact del_block v _ r hB
  | pop_copy m r =>
    simp only [step, vector_pop_copy, Option.map_eq_some', Prod.exists, exists_eq_right] at h
    obtain ⟨c, hc⟩ := h
    split at hc
    · exact absurd hc (by simp)
    · rcases del_copy_state v v1 _ m r c hc with e | e
      · rw [e]
        exact hB
      · rw [e]
        exact del_block v _ r hB

/-- Every reachable state satisfies the occupancy invariant, is more than half
full above the initial capacity, and owns a block of `total_bytes` bytes. -/
theorem reachable_sound (item_size capacity : Nat) (v : VECTOR) (hitem : 1 ≤ item_size)
    (hcap : 1 ≤ capacity) (h : Reachable item_size capacity v) :
    OccInv item_size (capacity * item_size) v ∧ HalfFull v ∧ HasBlock v := by
  obtain ⟨ok, ops, hinit, halong, hrun⟩ := h
  obtain ⟨_, h0⟩ := init_success item_size capacity ok hinit
  refine run_invariant
    (fun w => OccInv item_size (capacity * item_size) w ∧ HalfFull w ∧ HasBlock w)
    within_contract within_contract ?_ ops _ v ?_ halong halong hrun
  · intro w op w1 hP hwc _ hs
    obtain ⟨hfit, hdel, _⟩ := within_contract_parts w op hwc
    exact ⟨occ_inv_step _ _ w w1 op hP.1 hfit hdel hs,
      half_full_step _ _ w w1 op hitem hP.1 hP.2.1 hwc hs, block_step w w1 op hP.2.2 hs⟩
  · refine ⟨occ_inv_init item_size capacity ok hcap hinit, ?_, ?_⟩
    · rw [h0]
      intro hlt
      exact absurd hlt (Nat.lt_irrefl _)
    · rw [h0]
      exact ⟨_, rfl, by simp⟩

/-- A delete that passes the capacity check without meeting the shrink
condition only decrements `used_bytes`. -/
theorem del_no_shrink (w : VECTOR) (index : Nat) (r : Option (List Byte))
    (hidx : (index * w.item_size) % SIZE < w.total_bytes)
    (hnc : ¬ (w.total_bytes > w.init_bytes ∧
      (w.used_bytes + (SIZE - w.item_size % SIZE)) % SIZE ≤ w.total_bytes / 2)) :
    vector_del w index r =
      (ERROR.SUCCESS,
        { w with used_bytes := (w.used_bytes + (SIZE - w.item_size % SIZE)) % SIZE }) := by
  have hg := get_of_lt w index hidx
  simp only [vector_del, hg, growth_factor]
  rw [if_neg hnc]

/-- A delete that passes the capacity check and meets the shrink condition,
with a successful `realloc`, halves the block. -/
theorem del_shrinks (w : VECTOR) (index : Nat) (junk : List Byte)
    (hidx : (index * w.item_size) % SIZE < w.total_bytes)
    (hc : w.total_bytes > w.init_bytes ∧
      (w.used_bytes + (SIZE - w.item_size % SIZE)) % SIZE ≤ w.total_bytes / 2) :
    vector_del w index (some junk) =
      (ERROR.SUCCESS,
        { w with used_bytes := (w.used_bytes + (SIZE - w.item_size % SIZE)) % SIZE
                 data := realloc w.data (w.total_bytes / 2) (some junk)
                 total_bytes := w.total_bytes / 2 }) := by
  have hg := get_of_lt w index hidx
  simp only [vector_del, hg, growth_factor]
  rw [if_pos hc]
  simp [vector_shrink, realloc, growth_factor]

/-- C16: in every state reachable from `vector_init(item_size >= 1, capacity >= 1)`
by operations used within the contract (pushes, removals applied to a
non-empty vector, reallocations of shrinks succeeding), a successful
`vector_push` of an `item_size`-byte value returns the pointer
`data + used_bytes`, and `vector_del` of the index of the element just pushed
(reallocation succeeding) returns SUCCESS and restores `used_bytes` and
`total_bytes` to their values before the push, whether or not the push grew the
buffer; `item_size` and `init_bytes` are unchanged and the bytes of the
previously stored elements are as before the push. -/
theorem push_then_del_restores (item_size capacity : Nat) (v v1 : VECTOR)
    (value junk1 junk2 : List Byte) (p : Nat)
    (hitem : 1 ≤ item_size) (hcap : 1 ≤ capacity)
    (hreach : Reachable item_size capacity v) (hlen : value.length = item_size)
    (hpush : vector_push v value item_size (some junk1) = some (some p, v1)) :
    p = v.used_bytes ∧
    (vector_del v1 (p / item_size) (some junk2)).1 = ERROR.SUCCESS ∧
    (vector_del v1 (p / item_size) (some junk2)).2.used_bytes = v.used_bytes ∧
    (vector_del v1 (p / item_size) (some junk2)).2.total_bytes = v.total_bytes ∧
    (vector_del v1 (p / item_size) (some junk2)).2.item_size = v.item_size ∧
    (vector_del v1 (p / item_size) (some junk2)).2.init_bytes = v.init_bytes ∧
    (vector_del v1 (p / item_size) (some junk2)).2.data.map (List.take v.used_bytes) =
      v.data.map (List.take v.used_bytes) := by
  obtain ⟨⟨⟨hi, hn, k, hk⟩, hocc⟩, hH, buf, hbuf, hblen⟩ :=
    reachable_sound item_size capacity v hitem hcap hreach
  rcases hocc with ⟨z1, _, _⟩ | ⟨p1, p2, p3, p4, p5⟩
  · omega
  have hit : item_size ∣ v.total_bytes := by
    rw [hk]
    exact Dvd.dvd.mul_right p2 _
  have htpos : 0 < v.total_bytes := by
    rw [hk]
    positivity
  have hile : item_size ≤ v.total_bytes := Nat.le_of_dvd htpos hit
  have hlen1 : value.length = v.item_size := by rw [hi]; exact hlen
  have hdm : v.used_bytes / item_size * item_size = v.used_bytes := Nat.div_mul_cancel p3
  have hinle : v.init_bytes ≤ v.total_bytes := by
    rw [hn, hk]
    exact Nat.le_mul_of_pos_right _ (by positivity)
  rw [← hi] at hpush
  by_cases hlt : v.used_bytes < v.total_bytes
  · have hle := add_le_of_dvd_lt item_size _ _ p3 hit hlt
    have hp := push_within v buf value junk1 hbuf hlen1 hlt
      (by rw [hblen, hi]; exact hle) (by rw [hi]; omega)
    rw [hp] at hpush
    simp only [Option.some.injEq, Prod.mk.injEq] at hpush
    obtain ⟨hp1, hp2⟩ := hpush
    subst hp2
    subst hp1
    have hU : (v.used_bytes + v.item_size + (SIZE - v.item_size % SIZE)) % SIZE =
        v.used_bytes := by
      rw [sub_no_wrap _ _ (by rw [hi]; omega) (by omega)]
      omega
    have hd := del_no_shrink
      { v with data := some (buf.take v.used_bytes ++ value ++
                  buf.drop (v.used_bytes + v.item_size))
               used_bytes := v.used_bytes + v.item_size }
      (v.used_bytes / item_size) (some junk2)
      (by simp only [hi, hdm]; rw [Nat.mod_eq_of_lt (by omega)]; exact hlt)
      (by
        simp only [hU]
        intro hc
        have := hH hc.1
        omega)
    rw [hd]
    simp only [hU, hbuf, Option.map_some', true_and]
    congr 1
    rw [List.append_assoc, List.take_append_of_le_length (by simp; omega), List.take_take]
    simp
  · have hfull : v.used_bytes = v.total_bytes := by omega
    have hdbl : v.total_bytes * 2 < SIZE := by
      by_contra hcon
      rw [push_wrapped_undefined v value junk1 hfull p5 (by omega)] at hpush
      exact absurd hpush (by simp)
    have hp := push_grown v buf value junk1 hbuf hlen1 hblen hfull (by rw [hi]; exact hile)
      hdbl
    rw [hp] at hpush
    simp only [Option.some.injEq, Prod.mk.injEq] at hpush
    obtain ⟨hp1, hp2⟩ := hpush
    subst hp2
    subst hp1
    have hU : (v.used_bytes + v.item_size + (SIZE - v.item_size % SIZE)) % SIZE =
        v.used_bytes := by
      rw [sub_no_wrap _ _ (by rw [hi]; omega) (by omega)]
      omega
    have hd := del_shrinks
      { v with data := some (buf ++ value ++ (fresh junk1 v.total_bytes).drop v.item_size)
               total_bytes := v.total_bytes * 2
               used_bytes := v.used_bytes + v.item_size }
      (v.used_bytes / item_size) junk2
      (by simp only [hi, hdm]; rw [Nat.mod_eq_of_lt (by omega)]; omega)
      (by simp only [hU]; omega)
    rw [hd]
    simp only [hU, hbuf, Option.map_some', true_and, realloc, Option.getD_some]
    refine ⟨by omega, ?_⟩
    congr 1
    rw [take_realloc _ junk2 _ _ (by omega) (by simp; omega), List.append_assoc,
      List.take_append_of_le_length (by omega)]

set_option maxRecDepth 8000 in
theorem push_then_del_restores_witness :
    vector_push (vector_init 8 16 true).2 [1, 2, 3, 4, 5, 6, 7, 8] 8 (some []) =
      some (some 0,
        { data := some ([1, 2, 3, 4, 5, 6, 7, 8] ++ List.replicate 120 0)
          used_bytes := 8, item_size := 8, total_bytes := 128, init_bytes := 128 }) ∧
    (vector_del
        { data := some ([1, 2, 3, 4, 5, 6, 7, 8] ++ List.replicate 120 0)
          used_bytes := 8, item_size := 8, total_bytes := 128, init_bytes := 128 }
        0 (some [])).1 = ERROR.SUCCESS ∧
    (vector_del
        { data := some ([1, 2, 3, 4, 5, 6, 7, 8] ++ List.replicate 120 0)
          used_bytes := 8, item_size := 8, total_bytes := 128, init_bytes := 128 }
        0 (some [])).2.used_bytes = 0 ∧
    (vector_del
        { data := some ([1, 2, 3, 4, 5, 6, 7, 8] ++ List.replicate 120 0)
          used_bytes := 8, item_size := 8, total_bytes := 128, init_bytes := 128 }
        0 (some [])).2.total_bytes = 16 * 8 := by
  have hp : vector_push (vector_init 8 16 true).2 [1, 2, 3, 4, 5, 6, 7, 8] 8 (some []) =
      some (some 0,
        { data := some ([1, 2, 3, 4, 5, 6, 7, 8] ++ List.replicate 120 0)
          used_bytes := 8, item_size := 8, total_bytes := 128, init_bytes := 128 }) := by
    decide
  have h := push_then_del_restores 8 16 (vector_init 8 16 true).2 _ [1, 2, 3, 4, 5, 6, 7, 8] [] [] 0
    (by decide) (by decide) ⟨true, [], by decide, rfl, rfl⟩ rfl hp
  exact ⟨hp, h.2.1, h.2.2.1, h.2.2.2.1⟩

/-- C16 as stated fails when the `realloc` of a shrink fails: after
`vector_init(1, 1)` and one push the vector is full; a second successful push
grows it to `total_bytes = 2`; `vector_del` of the index of the element just
pushed, with a failing `realloc`, returns SUCCESS and restores
`used_bytes = 1` but leaves `total_bytes = 2`, not the 1 of before the push. -/
theorem push_then_del_keeps_capacity_when_shrink_fails :
    push_all (vector_init 1 1 true).2 [([7], [])] =
      some { data := some [7], used_bytes := 1, item_size := 1, total_bytes := 1,
             init_bytes := 1 } ∧
    vector_push
        { data := some [7], used_bytes := 1, item_size := 1, total_bytes := 1,
          init_bytes := 1 } [8] 1 (some []) =
      some (some 1,
        { data := some [7, 8], used_bytes := 2, item_size := 1, total_bytes := 2,
          init_bytes := 1 }) ∧
    vector_del
        { data := some [7, 8], used_bytes := 2, item_size := 1, total_bytes := 2,
          init_bytes := 1 } (1 / 1) none =
      (ERROR.SUCCESS,
        { data := some [7, 8], used_bytes := 1, item_size := 1, total_bytes := 2,
          init_bytes := 1 }) ∧
    ¬ ((2 : Nat) = 1) := by
  decide

/-! ## Test harness -/

/-- C17: on a registry of capacity `MAX_TESTS = 4096` holding at most that many
entries, `test_add` returns FAILURE exactly when the registry already holds
`MAX_TESTS` entries, and then leaves the registry as it was; otherwise it
returns SUCCESS, stores the procedure and the name at position `size`,
increases `size` by one and alters no other entry. -/
theorem test_add_result (t : TESTS) (f : TEST) (name : String)
    (hmax : t.max_size = MAX_TESTS) (hsize : t.size ≤ MAX_TESTS)
    (hf : t.functions.length = MAX_TESTS) (hn : t.names.length = MAX_TESTS) :
    ((test_add t f name).1 = ERROR.FAILURE ↔ t.size = MAX_TESTS) ∧
    (t.size = MAX_TESTS → test_add t f name = (ERROR.FAILURE, t)) ∧
    (t.size < MAX_TESTS →
      (test_add t f name).1 = ERROR.SUCCESS ∧
      (test_add t f name).2.size = t.size + 1 ∧
      (test_add t f name).2.max_size = MAX_TESTS ∧
      (test_add t f name).2.functions.length = MAX_TESTS ∧
      (test_add t f name).2.names.length = MAX_TESTS ∧
      (test_add t f name).2.functions[t.size]? = some f ∧
      (test_add t f name).2.names[t.size]? = some (some name) ∧
      ∀ i, i ≠ t.size →
        (test_add t f name).2.functions[i]? = t.functions[i]? ∧
        (test_add t f name).2.names[i]? = t.names[i]?) := by
  have hS : MAX_TESTS < SIZE := by decide
  refine ⟨?_, ?_, ?_⟩
  · unfold test_add
    rw [hmax]
    by_cases h : t.size < MAX_TESTS
    · simp only [h, ite_true]
      constructor
      · intro hc
        exact absurd hc (by decide)
      · intro hc
        omega
    · simp only [h, ite_false, true_iff]
      omega
  · intro h
    simp [test_add, hmax, h]
  · intro h
    have hmod : (t.size + 1) % SIZE = t.size + 1 := Nat.mod_eq_of_lt (by omega)
    simp only [test_add, hmax, h, ite_true, hmod, List.length_set, hf, hn, true_and]
    refine ⟨List.getElem?_set_self (by omega), List.getElem?_set_self (by omega), ?_⟩
    intro i hi
    exact ⟨List.getElem?_set_ne (Ne.symm hi), List.getElem?_set_ne (Ne.symm hi)⟩

theorem test_add_result_witness :
    (test_add tests 11 "first").1 = ERROR.SUCCESS ∧
    (test_add tests 11 "first").2.size = 0 + 1 ∧
    (test_add tests 11 "first").2.functions[0]? = some 11 ∧
    test_add
        { functions := List.replicate MAX_TESTS 7
          names := List.replicate MAX_TESTS (some "t")
          size := MAX_TESTS
          max_size := MAX_TESTS } 11 "late" =
      (ERROR.FAILURE,
        { functions := List.replicate MAX_TESTS 7
          names := List.replicate MAX_TESTS (some "t")
          size := MAX_TESTS
          max_size := MAX_TESTS }) := by
  have h1 := test_add_result tests 11 "first" rfl (by decide) (by simp [tests])
    (by simp [tests])
  have h2 := test_add_result
    { functions := List.replicate MAX_TESTS 7
      names := List.replicate MAX_TESTS (some "t")
      size := MAX_TESTS
      max_size := MAX_TESTS } 11 "late" rfl (Nat.le_refl _) (by simp) (by simp)
  have h3 := h1.2.2 (by decide)
  exact ⟨h3.1, h3.2.1, h3.2.2.2.2.2.1, h2.2.1 rfl⟩

/-- The loop of `tests_run` over a list of indices: registry, events. -/
theorem loop_out (returns : Nat → Bool) :
    ∀ (l : List Nat) (h : HARNESS),
      (l.foldl (fun acc i =>
          test_run acc (acc.tests.functions.getD i 0) (acc.tests.names.getD i none) i
            (returns i)) h).tests = h.tests ∧
      (l.foldl (fun acc i =>
          test_run acc (acc.tests.functions.getD i 0) (acc.tests.names.getD i none) i
            (returns i)) h).out = h.out ++ l.flatMap (test_events h.tests returns) := by
  intro l
  induction l with
  | nil => intro h; simp
  | cons i l ih =>
    intro h
    have hstep : (test_run h (h.tests.functions.getD i 0) (h.tests.names.getD i none) i
        (returns i)).tests = h.tests ∧
        (test_run h (h.tests.functions.getD i 0) (h.tests.names.getD i none) i
          (returns i)).out = h.out ++ test_events h.tests returns i := by
      unfold test_run test_events
      cases returns i <;> simp
    obtain ⟨i1, i2⟩ := ih (test_run h (h.tests.functions.getD i 0)
      (h.tests.names.getD i none) i (returns i))
    rw [List.foldl_cons]
    refine ⟨i1.trans hstep.1, ?_⟩
    rw [i2, hstep.1, hstep.2, List.flatMap_cons, List.append_assoc]

/-- The loop of `tests_run` over a list of indices: the two counters. -/
theorem loop_counts (returns : Nat → Bool) :
    ∀ (l : List Nat) (h : HARNESS), h.current_test < UINT → h.passed_tests < UINT →
      (l.foldl (fun acc i =>
          test_run acc (acc.tests.functions.getD i 0) (acc.tests.names.getD i none) i
            (returns i)) h).current_test = (h.current_test + l.length) % UINT ∧
      (l.foldl (fun acc i =>
          test_run acc (acc.tests.functions.getD i 0) (acc.tests.names.getD i none) i
            (returns i)) h).passed_tests =
        (h.passed_tests + l.countP (fun i => returns i)) % UINT := by
  intro l
  induction l with
  | nil =>
    intro h hc hp
    simp [Nat.mod_eq_of_lt hc, Nat.mod_eq_of_lt hp]
  | cons i l ih =>
    intro h hc hp
    have hU : 0 < UINT := by decide
    have hstep : (test_run h (h.tests.functions.getD i 0) (h.tests.names.getD i none) i
        (returns i)).current_test = (h.current_test + 1) % UINT ∧
        (test_run h (h.tests.functions.getD i 0) (h.tests.names.getD i none) i
          (returns i)).passed_tests =
          (h.passed_tests + if returns i then 1 else 0) % UINT := by
      unfold test_run
      cases returns i <;> simp [Nat.mod_eq_of_lt hp]
    obtain ⟨i1, i2⟩ := ih (test_run h (h.tests.functions.getD i 0)
      (h.tests.names.getD i none) i (returns i))
      (by rw [hstep.1]; exact Nat.mod_lt _ hU) (by rw [hstep.2]; exact Nat.mod_lt _ hU)
    rw [List.foldl_cons]
    constructor
    · rw [i1, hstep.1, Nat.mod_add_mod, List.length_cons]
      congr 1
      omega
    · rw [i2, hstep.2, Nat.mod_add_mod, List.countP_cons]
      congr 1
      omega

theorem count_split (returns : Nat → Bool) (l : List Nat) :
    l.countP (fun i => returns i) + l.countP (fun i => !returns i) = l.length := by
  induction l with
  | nil => rfl
  | cons i l ih =>
    rw [List.countP_cons, List.countP_cons, List.length_cons]
    cases returns i <;> simp <;> omega

/-- C18: on a registry of at most `MAX_TESTS` entries the first call of
`tests_run` in a process (both counters zero) returns SUCCESS if and only if
every queued test procedure returns normally, and FAILURE otherwise;
`current_test` is the number of queued tests, `passed_tests` the number that
returned normally, and the number of failures `current_test - passed_tests`,
which the last line printed on FAILURE reports, is the number that aborted. -/
theorem first_run_counts (t : TESTS) (returns : Nat → Bool) (hsize : t.size ≤ MAX_TESTS) :
    ((tests_run (harness_start t) returns).1 = ERROR.SUCCESS ↔
      ∀ i, i < t.size → returns i = true) ∧
    ((tests_run (harness_start t) returns).1 = ERROR.FAILURE ↔
      ∃ i, i < t.size ∧ returns i = false) ∧
    (tests_run (harness_start t) returns).2.current_test = t.size ∧
    (tests_run (harness_start t) returns).2.passed_tests =
      (List.range t.size).countP (fun i => returns i) ∧
    (tests_run (harness_start t) returns).2.current_test -
        (tests_run (harness_start t) returns).2.passed_tests =
      (List.range t.size).countP (fun i => !returns i) ∧
    ((tests_run (harness_start t) returns).1 = ERROR.FAILURE →
      (tests_run (harness_start t) returns).2.out.getLast? =
        some (Event.failed ((List.range t.size).countP (fun i => !returns i)))) := by
  have hU : MAX_TESTS < UINT := by decide
  have hsplit := count_split returns (List.range t.size)
  rw [List.length_range] at hsplit
  have h0 : (0 : Nat) < UINT := by decide
  obtain ⟨hc, hp⟩ := loop_counts returns (List.range t.size) (harness_start t) h0 h0
  have hall : (List.range t.size).countP (fun i => returns i) = t.size ↔
      ∀ i, i < t.size → returns i = true := by
    have h := List.countP_eq_length (p := fun i => returns i) (l := List.range t.size)
    rw [List.length_range] at h
    rw [h]
    constructor
    · intro hh i hi
      exact hh i (List.mem_range.mpr hi)
    · intro hh i hi
      exact hh i (List.mem_range.mp hi)
  have hsome : (∃ i, i < t.size ∧ returns i = false) ↔
      ¬ (∀ i, i < t.size → returns i = true) := by
    constructor
    · rintro ⟨i, hi, hf⟩ hh
      rw [hh i hi] at hf
      exact absurd hf (by decide)
    · intro hh
      by_contra hcon
      apply hh
      intro i hi
      by_contra hr
      exact hcon ⟨i, hi, by simpa using hr⟩
  unfold tests_run
  dsimp only [harness_start] at hc hp ⊢
  rw [List.length_range, Nat.zero_add, Nat.mod_eq_of_lt (by omega)] at hc
  rw [Nat.zero_add, Nat.mod_eq_of_lt (by omega)] at hp
  generalize List.foldl (fun acc i =>
      test_run acc (acc.tests.functions.getD i 0) (acc.tests.names.getD i none) i
        (returns i))
    { tests := t, current_test := 0, passed_tests := 0, out := [] }
    (List.range t.size) = L at hc hp ⊢
  by_cases heq : L.current_test = L.passed_tests
  · have hyes : ∀ i, i < t.size → returns i = true := hall.mp (by omega)
    rw [if_pos heq]
    refine ⟨⟨fun _ => hyes, fun _ => rfl⟩, ⟨fun h => ERROR.noConfusion h,
      fun h => absurd hyes (hsome.mp h)⟩, hc, hp, ?_, fun h => ERROR.noConfusion h⟩
    show L.current_test - L.passed_tests = _
    omega
  · have hno : ¬ (∀ i, i < t.size → returns i = true) := fun h => heq (by
      have := hall.mpr h
      omega)
    rw [if_neg heq]
    refine ⟨⟨fun h => ERROR.noConfusion h, fun h => absurd h hno⟩,
      ⟨fun _ => hsome.mpr hno, fun _ => rfl⟩, hc, hp, ?_, ?_⟩
    · show L.current_test - L.passed_tests = _
      omega
    · intro _
      show (L.out ++ [Event.failed _]).getLast? = _
      rw [List.getLast?_concat]
      congr 2
      rw [hc, hp]
      have hlt : (List.range t.size).countP (fun i => returns i) < UINT := by omega
      rw [Nat.mod_eq_of_lt hlt]
      have hrw : t.size + (UINT - (List.range t.size).countP (fun i => returns i)) =
          (List.range t.size).countP (fun i => !returns i) + UINT := by omega
      rw [hrw, Nat.add_mod_right]
      exact Nat.mod_eq_of_lt (by omega)

theorem first_run_counts_witness :
    (tests_run
        (harness_start (test_add (test_add (test_add tests 11 "a").2 22 "b").2 33 "c").2)
        (fun i => i != 1)).1 = ERROR.FAILURE ∧
    (tests_run
        (harness_start (test_add (test_add (test_add tests 11 "a").2 22 "b").2 33 "c").2)
        (fun i => i != 1)).2.passed_tests = 2 ∧
    (tests_run
        (harness_start (test_add (test_add (test_add tests 11 "a").2 22 "b").2 33 "c").2)
        (fun i => i != 1)).2.current_test -
      (tests_run
        (harness_start (test_add (test_add (test_add tests 11 "a").2 22 "b").2 33 "c").2)
        (fun i => i != 1)).2.passed_tests = 1 ∧
    (tests_run
        (harness_start (test_add (test_add (test_add tests 11 "a").2 22 "b").2 33 "c").2)
        (fun i => i != 1)).2.out.getLast? = some (Event.failed 1) := by
  have h := first_run_counts (test_add (test_add (test_add tests 11 "a").2 22 "b").2 33 "c").2
    (fun i => i != 1) (by decide)
  have hf := h.2.1.mpr ⟨1, by decide, by decide⟩
  exact ⟨hf, h.2.2.2.1, h.2.2.2.2.1, h.2.2.2.2.2 hf⟩

theorem calls_append (a b : List Event) : calls (a ++ b) = calls a ++ calls b := by
  induction a with
  | nil => rfl
  | cons e a ih =>
    cases e <;> simp [calls, ih]

theorem calls_test_events (t : TESTS) (returns : Nat → Bool) (l : List Nat) :
    calls (l.flatMap (test_events t returns)) = l.map (fun i => t.functions.getD i 0) := by
  induction l with
  | nil => rfl
  | cons i l ih =>
    rw [List.flatMap_cons, calls_append, ih, List.map_cons]
    unfold test_events
    cases returns i <;> simp [calls]

/-- The registry after registering a list of procedures that fits. -/
theorem add_all_spec :
    ∀ (adds : List (TEST × String)) (t : TESTS), t.max_size = MAX_TESTS →
      t.functions.length = MAX_TESTS → t.size + adds.length ≤ MAX_TESTS →
      (add_all t adds).size = t.size + adds.length ∧
      (add_all t adds).max_size = MAX_TESTS ∧
      (add_all t adds).functions.length = MAX_TESTS ∧
      (∀ j, j < adds.length →
        (add_all t adds).functions[t.size + j]? = (adds.map Prod.fst)[j]?) ∧
      (∀ i, i < t.size → (add_all t adds).functions[i]? = t.functions[i]?) := by
  intro adds
  induction adds with
  | nil =>
    intro t hmax hf _
    exact ⟨rfl, hmax, hf, fun j hj => absurd hj (by simp), fun i _ => rfl⟩
  | cons a adds ih =>
    intro t hmax hf hfit
    simp only [List.length_cons] at hfit
    have hlt : t.size < MAX_TESTS := by omega
    have hS : MAX_TESTS < SIZE := by decide
    have hmod : (t.size + 1) % SIZE = t.size + 1 := Nat.mod_eq_of_lt (by omega)
    have hadd : (test_add t a.1 a.2).2 =
        { t with functions := t.functions.set t.size a.1
                 names := t.names.set t.size (some a.2)
                 size := t.size + 1 } := by
      simp [test_add, hmax, hlt, hmod]
    have hsz : (test_add t a.1 a.2).2.size = t.size + 1 := by rw [hadd]
    have hfun : (test_add t a.1 a.2).2.functions = t.functions.set t.size a.1 := by rw [hadd]
    have hmx : (test_add t a.1 a.2).2.max_size = MAX_TESTS := by rw [hadd]; exact hmax
    obtain ⟨i1, i2, i3, i4, i5⟩ := ih (test_add t a.1 a.2).2 hmx
      (by rw [hfun]; simpa using hf) (by rw [hsz]; omega)
    have hunf : add_all t (a :: adds) = add_all (test_add t a.1 a.2).2 adds := rfl
    rw [hunf]
    rw [hsz] at i1 i4 i5
    rw [hfun] at i5
    refine ⟨by rw [i1, List.length_cons]; omega, i2, i3, ?_, ?_⟩
    · intro j hj
      cases j with
      | zero =>
        rw [Nat.add_zero, i5 t.size (by omega), List.getElem?_set_self (by omega)]
        simp
      | succ j =>
        have := i4 j (by simpa using hj)
        rw [show t.size + (j + 1) = t.size + 1 + j by omega, this]
        simp
    · intro i hi
      rw [i5 i (by omega), List.getElem?_set_ne (by omega)]

theorem registered_in_order (adds : List (TEST × String)) (hlen : adds.length ≤ MAX_TESTS) :
    (add_all tests adds).size = adds.length ∧
    (List.range (add_all tests adds).size).map
        (fun i => (add_all tests adds).functions.getD i 0) = adds.map Prod.fst := by
  obtain ⟨h1, _, _, h4, _⟩ := add_all_spec adds tests rfl (by simp [tests])
    (by simp [tests]; exact hlen)
  have hs : (add_all tests adds).size = adds.length := by
    rw [h1]
    simp [tests]
  refine ⟨hs, ?_⟩
  rw [hs]
  apply List.ext_getElem
  · simp
  · intro i hi1 hi2
    simp only [List.length_map, List.length_range] at hi1
    have h := h4 i hi1
    simp only [tests, Nat.zero_add] at h
    simp only [List.getElem_map, List.getElem_range, List.getD_eq_getElem?_getD]
    have hfold : add_all
        { functions := List.replicate MAX_TESTS 0, names := List.replicate MAX_TESTS none,
          size := 0, max_size := MAX_TESTS } adds = add_all tests adds := rfl
    rw [hfold] at h
    rw [h, List.getElem?_eq_getElem (by simpa using hi1)]
    simp

/-- C19: a failing test never aborts the batch.  Whatever the outcomes of the
tests and whatever the counters, `tests_run` leaves the registry as it is,
returns after printing the summary line, and on its way prints the header of
and calls each of the `size` queued procedures exactly once, in the order of
the indices `0 .. size - 1`, whether or not earlier ones aborted; for a
registry filled by `test_add` this is the order of registration. -/
theorem run_calls_each_test_once (h : HARNESS) (returns : Nat → Bool) :
    (tests_run h returns).2.tests = h.tests ∧
    (∃ summary, (summary = Event.all_passed ∨ ∃ n, summary = Event.failed n) ∧
      (tests_run h returns).2.out =
        h.out ++ (List.range h.tests.size).flatMap (test_events h.tests returns) ++
          [summary]) ∧
    calls (tests_run h returns).2.out =
      calls h.out ++ (List.range h.tests.size).map (fun i => h.tests.functions.getD i 0) ∧
    (∀ adds : List (TEST × String), adds.length ≤ MAX_TESTS →
      h.tests = add_all tests adds →
      calls (tests_run h returns).2.out = calls h.out ++ adds.map Prod.fst) := by
  obtain ⟨ht, ho⟩ := loop_out returns (List.range h.tests.size) h
  have hout : ∃ summary, (summary = Event.all_passed ∨ ∃ n, summary = Event.failed n) ∧
      (tests_run h returns).2.out =
        h.out ++ (List.range h.tests.size).flatMap (test_events h.tests returns) ++
          [summary] := by
    unfold tests_run
    dsimp only
    split
    · exact ⟨Event.all_passed, Or.inl rfl, by rw [ho]⟩
    · exact ⟨Event.failed _, Or.inr ⟨_, rfl⟩, by rw [ho]⟩
  have hcalls : calls (tests_run h returns).2.out =
      calls h.out ++ (List.range h.tests.size).map (fun i => h.tests.functions.getD i 0) := by
    obtain ⟨summary, hs, he⟩ := hout
    rw [he, calls_append, calls_append, calls_test_events]
    rcases hs with hs | ⟨n, hs⟩ <;> simp [hs, calls]
  refine ⟨?_, hout, hcalls, ?_⟩
  · unfold tests_run
    dsimp only
    split <;> exact ht
  · intro adds hlen hreg
    rw [hcalls, hreg, (registered_in_order adds hlen).2]

theorem run_calls_each_test_once_witness :
    calls (tests_run
        { tests := add_all tests [(11, "a"), (22, "b"), (33, "c")]
          current_test := 0, passed_tests := 0, out := [] }
        (fun i => i != 1)).2.out =
      calls [] ++ [(11, "a"), (22, "b"), (33, "c")].map Prod.fst :=
  (run_calls_each_test_once
    { tests := add_all tests [(11, "a"), (22, "b"), (33, "c")]
      current_test := 0, passed_tests := 0, out := [] }
    (fun i => i != 1)).2.2.2 [(11, "a"), (22, "b"), (33, "c")] (by decide) rfl

/-! ## Release primitives -/

theorem mem_filter_ne (l : List Resource) (x y : Resource) :
    y ∈ l.filter (fun z => z ≠ x) ↔ y ∈ l ∧ y ≠ x := by
  simp [List.mem_filter]

/-- C20: each release primitive, applied to a binding that holds a live
resource, releases that resource and leaves the bound storage equal to its
sentinel: `destroy_heap_object` frees the block and stores NULL, `close_fp`
closes the stream and stores NULL, `close_fd` closes the descriptor and stores
`invalid_fileno = -1`.  Exactly one call of `free`, `fclose` or `close` is made,
on that resource; no other binding's storage is modified and every other
resource stays as it was. -/
theorem release_sets_sentinel (w : WORLD) (addr : Nat) (p : Int)
    (hval : w.store addr = p) :
    (p ≠ 0 → Resource.heap p ∈ w.live →
      ∃ w1, destroy_heap_object w addr = some w1 ∧ w1.store addr = 0 ∧
        Resource.heap p ∉ w1.live ∧ w1.released = w.released ++ [Resource.heap p] ∧
        (∀ a, a ≠ addr → w1.store a = w.store a) ∧
        (∀ x, x ≠ Resource.heap p → (x ∈ w1.live ↔ x ∈ w.live))) ∧
    (p ≠ 0 → Resource.stream p ∈ w.live →
      ∃ w1, close_fp w addr = some w1 ∧ w1.store addr = 0 ∧
        Resource.stream p ∉ w1.live ∧ w1.released = w.released ++ [Resource.stream p] ∧
        (∀ a, a ≠ addr → w1.store a = w.store a) ∧
        (∀ x, x ≠ Resource.stream p → (x ∈ w1.live ↔ x ∈ w.live))) ∧
    (p ≠ invalid_fileno → Resource.fd p ∈ w.live →
      (close_fd w addr).store addr = invalid_fileno ∧
        Resource.fd p ∉ (close_fd w addr).live ∧
        (close_fd w addr).released = w.released ++ [Resource.fd p] ∧
        (∀ a, a ≠ addr → (close_fd w addr).store a = w.store a) ∧
        (∀ x, x ≠ Resource.fd p → (x ∈ (close_fd w addr).live ↔ x ∈ w.live))) := by
  refine ⟨?_, ?_, ?_⟩
  · intro hp hlive
    have hd : destroy_heap_object w addr =
        some { store := Function.update w.store addr 0
               live := w.live.filter (fun x => x ≠ Resource.heap p)
               released := w.released ++ [Resource.heap p] } := by
      simp [destroy_heap_object, free, hval, hp, hlive]
    refine ⟨_, hd, by simp, by simp [mem_filter_ne], rfl, ?_, ?_⟩
    · intro a ha
      simp [Function.update, ha]
    · intro x hx
      simp [mem_filter_ne, hx]
  · intro hp hlive
    have hd : close_fp w addr =
        some { store := Function.update w.store addr 0
               live := w.live.filter (fun x => x ≠ Resource.stream p)
               released := w.released ++ [Resource.stream p] } := by
      simp [close_fp, fclose, hval, hp, hlive]
    refine ⟨_, hd, by simp, by simp [mem_filter_ne], rfl, ?_, ?_⟩
    · intro a ha
      simp [Function.update, ha]
    · intro x hx
      simp [mem_filter_ne, hx]
  · intro hp _
    have hd : close_fd w addr =
        { store := Function.update w.store addr invalid_fileno
          live := w.live.filter (fun x => x ≠ Resource.fd p)
          released := w.released ++ [Resource.fd p] } := by
      simp [close_fd, close, hval, hp]
    rw [hd]
    refine ⟨by simp, by simp [mem_filter_ne], rfl, ?_, ?_⟩
    · intro a ha
      simp [Function.update, ha]
    · intro x hx
      simp [mem_filter_ne, hx]

theorem release_sets_sentinel_witness :
    (∃ w1, destroy_heap_object
        { store := fun a => if a = 0 then 1000 else if a = 1 then 3000 else 3
          live := [Resource.heap 1000, Resource.stream 3000, Resource.fd 3]
          released := [] } 0 = some w1 ∧ w1.store 0 = 0 ∧
        Resource.heap 1000 ∉ w1.live ∧ w1.released = [] ++ [Resource.heap 1000] ∧
        (∀ a, a ≠ 0 → w1.store a = if a = 0 then 1000 else if a = 1 then 3000 else 3) ∧
        (∀ x, x ≠ Resource.heap 1000 →
          (x ∈ w1.live ↔ x ∈ [Resource.heap 1000, Resource.stream 3000, Resource.fd 3]))) ∧
    (∃ w1, close_fp
        { store := fun a => if a = 0 then 1000 else if a = 1 then 3000 else 3
          live := [Resource.heap 1000, Resource.stream 3000, Resource.fd 3]
          released := [] } 1 = some w1 ∧ w1.store 1 = 0 ∧
        Resource.stream 3000 ∉ w1.live ∧ w1.released = [] ++ [Resource.stream 3000] ∧
        (∀ a, a ≠ 1 → w1.store a = if a = 0 then 1000 else if a = 1 then 3000 else 3) ∧
        (∀ x, x ≠ Resource.stream 3000 →
          (x ∈ w1.live ↔ x ∈ [Resource.heap 1000, Resource.stream 3000, Resource.fd 3]))) ∧
    (close_fd
        { store := fun a => if a = 0 then 1000 else if a = 1 then 3000 else 3
          live := [Resource.heap 1000, Resource.stream 3000, Resource.fd 3]
          released := [] } 2).store 2 = invalid_fileno ∧
    Resource.fd 3 ∉ (close_fd
        { store := fun a => if a = 0 then 1000 else if a = 1 then 3000 else 3
          live := [Resource.heap 1000, Resource.stream 3000, Resource.fd 3]
          released := [] } 2).live :=
  ⟨(release_sets_sentinel
      { store := fun a => if a = 0 then 1000 else if a = 1 then 3000 else 3
        live := [Resource.heap 1000, Resource.stream 3000, Resource.fd 3]
        released := [] } 0 1000 rfl).1 (by decide) (by decide),
    (release_sets_sentinel
      { store := fun a => if a = 0 then 1000 else if a = 1 then 3000 else 3
        live := [Resource.heap 1000, Resource.stream 3000, Resource.fd 3]
        released := [] } 1 3000 rfl).2.1 (by decide) (by decide),
    ((release_sets_sentinel
      { store := fun a => if a = 0 then 1000 else if a = 1 then 3000 else 3
        live := [Resource.heap 1000, Resource.stream 3000, Resource.fd 3]
        released := [] } 2 3 rfl).2.2 (by decide) (by decide)).1,
    ((release_sets_sentinel
      { store := fun a => if a = 0 then 1000 else if a = 1 then 3000 else 3
        live := [Resource.heap 1000, Resource.stream 3000, Resource.fd 3]
        released := [] } 2 3 rfl).2.2 (by decide) (by decide)).2.1⟩

/-! ## Idempotence of the release primitives -/

/-- C21: each release primitive of `raii.h` is idempotent.  On a binding that
holds the sentinel (NULL for `destroy_heap_object` and `close_fp`, -1 for
`close_fd`) it returns the state as it is, so no `free`, `fclose` or `close` is
logged and nothing changes.  For every state, applying the primitive twice to a
binding gives the same state, with the same log of released resources, as
applying it once, and across the two applications the log gains every resource
at most once. -/
theorem release_idempotent (w : WORLD) (addr : Nat) :
    (w.store addr = 0 → destroy_heap_object w addr = some w ∧ close_fp w addr = some w) ∧
    (w.store addr = invalid_fileno → close_fd w addr = w) ∧
    (destroy_heap_object w addr).bind (fun w1 => destroy_heap_object w1 addr) =
      destroy_heap_object w addr ∧
    (close_fp w addr).bind (fun w1 => close_fp w1 addr) = close_fp w addr ∧
    close_fd (close_fd w addr) addr = close_fd w addr ∧
    (∀ w2 x, (destroy_heap_object w addr).bind (fun w1 => destroy_heap_object w1 addr) =
        some w2 → w2.released.count x ≤ w.released.count x + 1) ∧
    (∀ w2 x, (close_fp w addr).bind (fun w1 => close_fp w1 addr) = some w2 →
      w2.released.count x ≤ w.released.count x + 1) ∧
    (∀ x, (close_fd (close_fd w addr) addr).released.count x ≤ w.released.count x + 1) := by
  have hd : (destroy_heap_object w addr).bind (fun w1 => destroy_heap_object w1 addr) =
      destroy_heap_object w addr := by
    by_cases h0 : w.store addr = 0
    · simp [destroy_heap_object, h0]
    · by_cases hl : Resource.heap (w.store addr) ∈ w.live
      · simp [destroy_heap_object, free, h0, hl]
      · simp [destroy_heap_object, free, h0, hl]
  have hf : (close_fp w addr).bind (fun w1 => close_fp w1 addr) = close_fp w addr := by
    by_cases h0 : w.store addr = 0
    · simp [close_fp, h0]
    · by_cases hl : Resource.stream (w.store addr) ∈ w.live
      · simp [close_fp, fclose, h0, hl]
      · simp [close_fp, fclose, h0, hl]
  have hc : close_fd (close_fd w addr) addr = close_fd w addr := by
    by_cases h0 : w.store addr = invalid_fileno
    · simp [close_fd, h0]
    · simp [close_fd, close, h0]
  refine ⟨?_, ?_, hd, hf, hc, ?_, ?_, ?_⟩
  · intro h0
    simp [destroy_heap_object, close_fp, h0]
  · intro h0
    simp [close_fd, h0]
  · intro w2 x h2
    rw [hd] at h2
    by_cases h0 : w.store addr = 0
    · simp [destroy_heap_object, h0] at h2
      rw [← h2]
      omega
    · by_cases hl : Resource.heap (w.store addr) ∈ w.live
      · simp [destroy_heap_object, free, h0, hl] at h2
        rw [← h2]
        simp only [List.count_append]
        have := List.count_le_length x [Resource.heap (w.store addr)]
        simp only [List.length_singleton] at this
        omega
      · simp [destroy_heap_object, free, h0, hl] at h2
  · intro w2 x h2
    rw [hf] at h2
    by_cases h0 : w.store addr = 0
    · simp [close_fp, h0] at h2
      rw [← h2]
      omega
    · by_cases hl : Resource.stream (w.store addr) ∈ w.live
      · simp [close_fp, fclose, h0, hl] at h2
        rw [← h2]
        simp only [List.count_append]
        have := List.count_le_length x [Resource.stream (w.store addr)]
        simp only [List.length_singleton] at this
        omega
      · simp [close_fp, fclose, h0, hl] at h2
  · intro x
    rw [hc]
    by_cases h0 : w.store addr = invalid_fileno
    · simp [close_fd, h0]
    · simp only [close_fd, close, h0, ne_eq, not_false_eq_true, if_true, List.count_append]
      have := List.count_le_length x [Resource.fd (w.store addr)]
      simp only [List.length_singleton] at this
      omega

theorem release_idempotent_witness :
    destroy_heap_object
        { store := fun a => if a = 0 then 0 else if a = 1 then 3000 else -1
          live := [Resource.stream 3000], released := [Resource.heap 1000] } 0 =
      some { store := fun a => if a = 0 then 0 else if a = 1 then 3000 else -1
             live := [Resource.stream 3000], released := [Resource.heap 1000] } ∧
    close_fd
        { store := fun a => if a = 0 then 0 else if a = 1 then 3000 else -1
          live := [Resource.stream 3000], released := [Resource.heap 1000] } 2 =
      { store := fun a => if a = 0 then 0 else if a = 1 then 3000 else -1
        live := [Resource.stream 3000], released := [Resource.heap 1000] } ∧
    (close_fp
        { store := fun a => if a = 0 then 0 else if a = 1 then 3000 else -1
          live := [Resource.stream 3000], released := [Resource.heap 1000] } 1).bind
        (fun w1 => close_fp w1 1) =
      close_fp
        { store := fun a => if a = 0 then 0 else if a = 1 then 3000 else -1
          live := [Resource.stream 3000], released := [Resource.heap 1000] } 1 :=
  ⟨((release_idempotent
      { store := fun a => if a = 0 then 0 else if a = 1 then 3000 else -1
        live := [Resource.stream 3000], released := [Resource.heap 1000] } 0).1 rfl).1,
    (release_idempotent
      { store := fun a => if a = 0 then 0 else if a = 1 then 3000 else -1
        live := [Resource.stream 3000], released := [Resource.heap 1000] } 2).2.1 rfl,
    (release_idempotent
      { store := fun a => if a = 0 then 0 else if a = 1 then 3000 else -1
        live := [Resource.stream 3000], released := [Resource.heap 1000] } 1).2.2.2.1⟩

/-! ## Pop on an arbitrary well-formed vector -/

theorem along_take (ok : VECTOR → Op → Bool) :
    ∀ (ops : List Op) (v : VECTOR) (n : Nat), along ok v ops = true →
      along ok v (ops.take n) = true := by
  intro ops
  induction ops with
  | nil =>
    intro v n h
    simp [along]
  | cons op ops ih =>
    intro v n h
    cases n with
    | zero => simp [along]
    | succ n =>
      simp only [List.take_succ_cons, along, Bool.and_eq_true] at h ⊢
      refine ⟨h.1, ?_⟩
      cases hs : step v op with
      | none => rfl
      | some v1 =>
        have h2 := h.2
        rw [hs] at h2
        exact ih v1 n h2

/-- Below the capacity a push does not look at the allocator. -/
theorem push_same_below (v : VECTOR) (value : List Byte) (size : Nat)
    (r r1 : Option (List Byte)) (hlt : v.used_bytes < v.total_bytes) :
    vector_push v value size r = vector_push v value size r1 := by
  have hn : ¬ v.used_bytes ≥ v.total_bytes := by omega
  simp [vector_push, vector_push_new, hn]

/-- A correctly sized push of an `item_size`-byte value is defined on a vector
that satisfies the occupancy invariant and owns its block, unless the capacity
doubling leaves the range of `size_t`. -/
theorem push_defined (item_size init_bytes : Nat) (v : VECTOR) (value : List Byte)
    (r : Option (List Byte)) (hitem : 1 ≤ item_size) (hO : OccInv item_size init_bytes v)
    (hB : HasBlock v) (hlen : value.length = item_size)
    (hfit : doubling_fits v (Op.push value item_size r) = true) :
    ∃ p v1, vector_push v value item_size r = some (p, v1) := by
  obtain ⟨⟨hi, hn, k, hk⟩, hocc⟩ := hO
  obtain ⟨buf, hbuf, hblen⟩ := hB
  rcases hocc with ⟨z1, _, _⟩ | ⟨p1, p2, p3, p4, p5⟩
  · omega
  have hit : item_size ∣ v.total_bytes := by
    rw [hk]
    exact Dvd.dvd.mul_right p2 _
  have htpos : 0 < v.total_bytes := by
    rw [hk]
    positivity
  have hile : item_size ≤ v.total_bytes := Nat.le_of_dvd htpos hit
  have hlen1 : value.length = v.item_size := by rw [hi]; exact hlen
  rw [← hi] at hfit ⊢
  by_cases hlt : v.used_bytes < v.total_bytes
  · have hle := add_le_of_dvd_lt item_size _ _ p3 hit hlt
    rw [push_same_below v value v.item_size r (some []) hlt,
      push_within v buf value [] hbuf hlen1 hlt (by rw [hblen, hi]; exact hle)
        (by rw [hi]; omega)]
    exact ⟨_, _, rfl⟩
  · have hfull : v.used_bytes = v.total_bytes := by omega
    cases r with
    | none =>
      refine ⟨none, v, ?_⟩
      have hge : v.used_bytes ≥ v.total_bytes := by omega
      simp [vector_push, vector_push_new, vector_grow, realloc, hge]
    | some junk =>
      have hdbl : v.total_bytes * 2 < SIZE := by
        have hge : v.total_bytes ≤ v.used_bytes := by omega
        simpa [doubling_fits, hge, growth_factor] using hfit
      rw [push_grown v buf value junk hbuf hlen1 hblen hfull (by rw [hi]; exact hile) hdbl]
      exact ⟨_, _, rfl⟩

/-- A sequence of correctly sized pushes and of deletes, each delete applied to
a non-empty vector and no doubling leaving the range of `size_t`, is defined
from every state that satisfies the occupancy invariant and owns its block. -/
theorem run_defined (item_size init_bytes : Nat) (hitem : 1 ≤ item_size) :
    ∀ (ops : List Op) (v : VECTOR), OccInv item_size init_bytes v → HasBlock v →
      (∀ op ∈ ops, push_or_del item_size op = true) →
      along doubling_fits v ops = true → along del_has_item v ops = true →
      ∃ w, run v ops = some w := by
  intro ops
  induction ops with
  | nil =>
    intro v _ _ _ _ _
    exact ⟨v, rfl⟩
  | cons op ops ih =>
    intro v hO hB hall hfit hdel
    have hop := hall op (List.mem_cons_self _ _)
    have hfit0 : doubling_fits v op = true := by
      simp only [along, Bool.and_eq_true] at hfit
      exact hfit.1
    have hs : ∃ v1, step v op = some v1 := by
      cases op with
      | push value size r =>
        simp only [push_or_del, Bool.and_eq_true, decide_eq_true_eq] at hop
        obtain ⟨hl, hsz⟩ := hop
        subst hsz
        obtain ⟨p, v1, hp⟩ := push_defined size init_bytes v value r hitem hO hB hl hfit0
        exact ⟨v1, by simp [step, hp]⟩
      | del index r => exact ⟨_, rfl⟩
      | push_new size r => simp [push_or_del] at hop
      | del_copy index m r => simp [push_or_del] at hop
      | pop r => simp [push_or_del] at hop
      | pop_copy m r => simp [push_or_del] at hop
    obtain ⟨v1, hs⟩ := hs
    obtain ⟨_, hfit1⟩ := along_cons doubling_fits v v1 op ops hfit hs
    obtain ⟨hdel0, hdel1⟩ := along_cons del_has_item v v1 op ops hdel hs
    obtain ⟨w, hw⟩ := ih v1 (occ_inv_step _ _ v v1 op hO hfit0 hdel0 hs)
      (block_step v v1 op hB hs) (fun o ho => hall o (List.mem_cons_of_mem _ ho)) hfit1 hdel1
    exact ⟨w, (run_cons v w op ops).2 ⟨v1, hs, hw⟩⟩

/-- C23: on a vector created by `vector_init` with `item_size >= 1` and
`capacity >= 1`, along every sequence of operations in which each removal is
applied while `used_bytes >= item_size` and no capacity doubling leaves the
range of `size_t` (the allocator calls may succeed or fail), after each
operation `used_bytes` is a multiple of `item_size` and
`used_bytes <= total_bytes`; and a sequence of correctly sized pushes and of
deletes is defined to its end. -/
theorem occupancy_invariant_preserved (item_size capacity : Nat) (ok : Bool)
    (ops : List Op) (hitem : 1 ≤ item_size) (hcap : 1 ≤ capacity)
    (hinit : (vector_init item_size capacity ok).1 = ERROR.SUCCESS)
    (hfit : along doubling_fits (vector_init item_size capacity ok).2 ops = true)
    (hdel : along del_has_item (vector_init item_size capacity ok).2 ops = true) :
    (∀ n u, run (vector_init item_size capacity ok).2 (ops.take n) = some u →
      u.item_size = item_size ∧ item_size ∣ u.used_bytes ∧
        u.used_bytes ≤ u.total_bytes) ∧
    ((∀ op ∈ ops, push_or_del item_size op = true) →
      ∃ v, run (vector_init item_size capacity ok).2 ops = some v) := by
  have h0 := occ_inv_init item_size capacity ok hcap hinit
  constructor
  · intro n u hrun
    have hP := run_invariant (OccInv item_size (capacity * item_size))
      doubling_fits del_has_item
      (fun v op v1 hP a b hs => occ_inv_step _ _ v v1 op hP a b hs) (ops.take n) _ u h0
      (along_take doubling_fits ops _ n hfit) (along_take del_has_item ops _ n hdel) hrun
    obtain ⟨⟨hi, _, _⟩, hocc⟩ := hP
    rcases hocc with ⟨z1, _, _⟩ | ⟨_, _, p3, p4, _⟩
    · omega
    · exact ⟨hi, p3, p4⟩
  · intro hall
    obtain ⟨_, hv⟩ := init_success item_size capacity ok hinit
    refine run_defined item_size (capacity * item_size) hitem ops _ h0 ?_ hall hfit hdel
    rw [hv]
    exact ⟨_, rfl, by simp⟩

theorem occupancy_invariant_preserved_witness :
    (∀ n u, run (vector_init 2 1 true).2
        ([Op.push [1, 2] 2 none, Op.push [3, 4] 2 none, Op.push [3, 4] 2 (some []),
          Op.del 0 none, Op.del 1 (some [])].take n) = some u →
      u.item_size = 2 ∧ 2 ∣ u.used_bytes ∧ u.used_bytes ≤ u.total_bytes) ∧
    (∃ v, run (vector_init 2 1 true).2
        [Op.push [1, 2] 2 none, Op.push [3, 4] 2 none, Op.push [3, 4] 2 (some []),
          Op.del 0 none, Op.del 1 (some [])] = some v) :=
  ⟨(occupancy_invariant_preserved 2 1 true
      [Op.push [1, 2] 2 none, Op.push [3, 4] 2 none, Op.push [3, 4] 2 (some []),
        Op.del 0 none, Op.del 1 (some [])]
      (by decide) (by decide) (by decide) (by decide) (by decide)).1,
    (occupancy_invariant_preserved 2 1 true
      [Op.push [1, 2] 2 none, Op.push [3, 4] 2 none, Op.push [3, 4] 2 (some []),
        Op.del 0 none, Op.del 1 (some [])]
      (by decide) (by decide) (by decide) (by decide) (by decide)).2 (by decide)⟩

/-! ## States reached by successful pushes and deletes -/

/-- Every state reached by successful pushes and deletes on a non-empty vector
satisfies the occupancy invariant, is more than half full above the initial
capacity, and owns a block of `total_bytes` bytes. -/
theorem reached_sound (item_size capacity : Nat) (v : VECTOR) (hitem : 1 ≤ item_size)
    (hcap : 1 ≤ capacity) (h : Reached item_size capacity v) :
    OccInv item_size (capacity * item_size) v ∧ HalfFull v ∧ HasBlock v := by
  induction h with
  | init ok hinit =>
    obtain ⟨_, h0⟩ := init_success item_size capacity ok hinit
    refine ⟨occ_inv_init item_size capacity ok hcap hinit, ?_, ?_⟩
    · rw [h0]
      intro hlt
      exact absurd hlt (Nat.lt_irrefl _)
    · rw [h0]
      exact ⟨_, rfl, by simp⟩
  | push v v1 value junk p _ hlen hp ih =>
    obtain ⟨hO, hH, hB⟩ := ih
    have hs : step v (Op.push value item_size (some junk)) = some v1 := by
      simp [step, hp]
    have hfit : doubling_fits v (Op.push value item_size (some junk)) = true := by
      obtain ⟨⟨hi, _, _⟩, hocc⟩ := hO
      rcases hocc with ⟨z1, _, _⟩ | ⟨_, _, _, p4, p5⟩
      · omega
      simp only [doubling_fits, growth_factor]
      split
      · rename_i hc
        have hfull : v.used_bytes = v.total_bytes := by omega
        simp only [decide_eq_true_eq]
        by_contra hcon
        rw [← hi, push_wrapped_undefined v value junk hfull p5 (by omega)] at hp
        exact absurd hp (by simp)
      · rfl
    have hwc : within_contract v (Op.push value item_size (some junk)) = true := by
      simp [within_contract, hfit, del_has_item, shrink_succeeds]
    exact ⟨occ_inv_step _ _ v v1 _ hO hfit (by simp [del_has_item]) hs,
      half_full_step _ _ v v1 _ hitem hO hH hwc hs, block_step v v1 _ hB hs⟩
  | del v index junk _ hne ih =>
    obtain ⟨hO, hH, hB⟩ := ih
    have hs : step v (Op.del index (some junk)) = some (vector_del v index (some junk)).2 :=
      rfl
    have hdel : del_has_item v (Op.del index (some junk)) = true := by
      simp only [del_has_item, decide_eq_true_eq]
      rw [hO.1.1]
      exact hne
    have hwc : within_contract v (Op.del index (some junk)) = true := by
      simp [within_contract, hdel, doubling_fits, shrink_succeeds]
    exact ⟨occ_inv_step _ _ v _ _ hO (by simp [doubling_fits]) hdel hs,
      half_full_step _ _ v _ _ hitem hO hH hwc hs, block_step v _ _ hB hs⟩

/-- The numeric facts of a reached state. -/
theorem reached_facts (item_size capacity : Nat) (v : VECTOR) (hitem : 1 ≤ item_size)
    (hcap : 1 ≤ capacity) (h : Reached item_size capacity v) :
    v.item_size = item_size ∧ v.init_bytes = capacity * item_size ∧
    0 < v.init_bytes ∧ v.init_bytes ≤ v.total_bytes ∧ item_size ∣ v.used_bytes ∧
    v.used_bytes ≤ v.total_bytes ∧ v.total_bytes < SIZE ∧
    (v.init_bytes < v.total_bytes →
      v.total_bytes < 2 * v.used_bytes ∧ item_size ∣ v.total_bytes / 2) := by
  obtain ⟨⟨⟨hi, hn, k, hk⟩, hocc⟩, hH, _⟩ := reached_sound item_size capacity v hitem hcap h
  rcases hocc with ⟨z1, _, _⟩ | ⟨p1, p2, p3, p4, p5⟩
  · omega
  refine ⟨hi, hn, by rw [hn]; exact p1, ?_, p3, p4, p5, ?_⟩
  · rw [hn, hk]
    exact Nat.le_mul_of_pos_right _ (by positivity)
  · intro hlt
    refine ⟨hH hlt, ?_⟩
    cases k with
    | zero =>
      rw [hn, hk] at hlt
      simp at hlt
    | succ j =>
      have h2 : v.total_bytes / 2 = capacity * item_size * 2 ^ j := by
        rw [hk, pow_succ, ← Nat.mul_assoc]
        exact Nat.mul_div_cancel _ (by decide)
      rw [h2]
      exact Dvd.dvd.mul_right p2 _

/-- A delete that returns SUCCESS passed the capacity check and decremented
`used_bytes`. -/
theorem del_success (v : VECTOR) (index : Nat) (r : Option (List Byte)) :
    ((vector_del v index r).1 = ERROR.SUCCESS ↔
      (index * v.item_size) % SIZE < v.total_bytes) ∧
    ((vector_del v index r).1 = ERROR.SUCCESS →
      (vector_del v index r).2.used_bytes =
        (v.used_bytes + (SIZE - v.item_size % SIZE)) % SIZE) := by
  by_cases hlt : (index * v.item_size) % SIZE < v.total_bytes
  · have hg := get_of_lt v index hlt
    have h : (vector_del v index r).1 = ERROR.SUCCESS ∧
        (vector_del v index r).2.used_bytes =
          (v.used_bytes + (SIZE - v.item_size % SIZE)) % SIZE := by
      simp only [vector_del, hg]
      split
      · exact ⟨rfl, (shrink_fields _ r).1⟩
      · exact ⟨rfl, rfl⟩
    exact ⟨⟨fun _ => hlt, fun _ => h.1⟩, fun _ => h.2⟩
  · have hg := get_of_ge v index (by omega)
    have h : vector_del v index r = (ERROR.FAILURE, v) := by
      simp [vector_del, hg]
    rw [h]
    exact ⟨⟨fun he => ERROR.noConfusion he, fun hc => absurd hc hlt⟩,
      fun he => ERROR.noConfusion he⟩

/-- C24: in every state reached from `vector_init(item_size >= 1, capacity >= 1)`
by successful pushes and by deletes applied to a non-empty vector (the
reallocations succeeding), a vector above its initial capacity is more than
half full: `total_bytes > init_bytes` implies `2 * used_bytes > total_bytes`.
Consequently a delete that shrank the buffer leaves the vector exactly full
(`used_bytes = total_bytes`), so the next push has to grow it: it returns NULL
when the `realloc` fails and doubles `total_bytes` when it succeeds. -/
theorem above_initial_capacity_more_than_half_full (item_size capacity : Nat) (v : VECTOR)
    (hitem : 1 ≤ item_size) (hcap : 1 ≤ capacity) (h : Reached item_size capacity v) :
    (v.init_bytes < v.total_bytes → v.total_bytes < 2 * v.used_bytes) ∧
    (∀ index junk, item_size ≤ v.used_bytes →
      (vector_del v index (some junk)).2.total_bytes < v.total_bytes →
      (vector_del v index (some junk)).2.used_bytes =
        (vector_del v index (some junk)).2.total_bytes ∧
      (vector_push_new (vector_del v index (some junk)).2 item_size none).1 = none ∧
      (∀ junk1, (vector_push_new (vector_del v index (some junk)).2 item_size
          (some junk1)).2.total_bytes =
        2 * (vector_del v index (some junk)).2.total_bytes) ∧
      (∀ value junk1 p v2,
        vector_push (vector_del v index (some junk)).2 value item_size (some junk1) =
          some (p, v2) →
        v2.total_bytes = 2 * (vector_del v index (some junk)).2.total_bytes)) := by
  obtain ⟨hi, hn, hpos, hinle, hdvd, hle, hsz, hhalf⟩ :=
    reached_facts item_size capacity v hitem hcap h
  refine ⟨fun hlt => (hhalf hlt).1, ?_⟩
  intro index junk hne hshrank
  obtain ⟨e1, e2, e3⟩ := del_effect_exact v index (some junk)
  generalize vector_del v index (some junk) = d at e1 e2 e3 hshrank ⊢
  have hfull : d.2.used_bytes = d.2.total_bytes ∧ d.2.total_bytes * 2 ≤ v.total_bytes := by
    rcases e3 with ⟨_, a2⟩ | ⟨b1, b2⟩
    · omega
    · rcases b2 with ⟨c1, _⟩ | ⟨c1, c2, c3⟩
      · omega
      · obtain ⟨hH, hd2⟩ := hhalf c1
        rw [sub_no_wrap _ _ (by omega) (by rw [hi]; exact hne), hi] at b1
        have hgt : v.total_bytes / 2 < v.used_bytes := by omega
        have := add_le_of_dvd_lt item_size _ _ hd2 hdvd hgt
        omega
  obtain ⟨hu, ht⟩ := hfull
  have hge : d.2.used_bytes ≥ d.2.total_bytes := by omega
  have hmod : d.2.total_bytes * 2 % SIZE = 2 * d.2.total_bytes := by
    rw [Nat.mod_eq_of_lt (by omega)]
    omega
  have hnew : ∀ junk1, (vector_push_new d.2 item_size (some junk1)).2.total_bytes =
      2 * d.2.total_bytes := by
    intro junk1
    simp [vector_push_new, vector_grow, realloc, growth_factor, e1, hi, hge, hmod]
  refine ⟨hu, ?_, hnew, ?_⟩
  · simp [vector_push_new, vector_grow, realloc, e1, hi, hge]
  · intro value junk1 p v2 hp
    rw [(push_fields _ _ _ _ _ _ hp).2.2.2.1]
    exact hnew junk1

set_option maxRecDepth 8000 in
theorem above_initial_capacity_more_than_half_full_witness :
    (vector_del
        { data := some [1, 2, 3, 0], used_bytes := 3, item_size := 1, total_bytes := 4,
          init_bytes := 1 } 0 (some [])).2.used_bytes =
      (vector_del
        { data := some [1, 2, 3, 0], used_bytes := 3, item_size := 1, total_bytes := 4,
          init_bytes := 1 } 0 (some [])).2.total_bytes ∧
    (vector_del
        { data := some [1, 2, 3, 0], used_bytes := 3, item_size := 1, total_bytes := 4,
          init_bytes := 1 } 0 (some [])).2.total_bytes = 2 :=
  ⟨((above_initial_capacity_more_than_half_full 1 1
      { data := some [1, 2, 3, 0], used_bytes := 3, item_size := 1, total_bytes := 4,
        init_bytes := 1 } (by decide) (by decide)
      (Reached.push
        { data := some [1, 2], used_bytes := 2, item_size := 1, total_bytes := 2,
          init_bytes := 1 } _ [3] [] 2
        (Reached.push
          { data := some [1], used_bytes := 1, item_size := 1, total_bytes := 1,
            init_bytes := 1 } _ [2] [] 1
          (Reached.push (vector_init 1 1 true).2 _ [1] [] 0
            (Reached.init true (by decide)) rfl (by decide))
          rfl (by decide))
        rfl (by decide))).2 0 [] (by decide) (by decide)).1,
    by decide⟩

/-! ## Pushes followed by as many deletes -/

theorem push_all_reached (item_size capacity : Nat) (hitem : 1 ≤ item_size)
    (hcap : 1 ≤ capacity) :
    ∀ (xs : List (List Byte × List Byte)) (v w : VECTOR), Reached item_size capacity v →
      (∀ x ∈ xs, x.1.length = item_size) → push_all v xs = some w →
      Reached item_size capacity w := by
  intro xs
  induction xs with
  | nil =>
    intro v w hv _ hw
    simp only [push_all, Option.some.injEq] at hw
    rw [← hw]
    exact hv
  | cons x rest ih =>
    intro v w hv hlen hw
    obtain ⟨value, junk⟩ := x
    have hl : value.length = item_size := hlen (value, junk) (List.mem_cons_self _ _)
    have hi := (reached_facts item_size capacity v hitem hcap hv).1
    simp only [push_all] at hw
    split at hw
    · rename_i p v1 hp
      rw [hi] at hp
      exact ih v1 w (Reached.push v v1 value junk p hv hl hp)
        (fun y hy => hlen y (List.mem_cons_of_mem _ hy)) hw
    · exact absurd hw (by simp)

theorem del_all_reached (item_size capacity : Nat) (hitem : 1 ≤ item_size)
    (hcap : 1 ≤ capacity) :
    ∀ (ds : List (Nat × List Byte)) (v w : VECTOR) (k : Nat),
      Reached item_size capacity v → v.used_bytes = k * item_size → ds.length ≤ k →
      del_all v ds = some w →
      Reached item_size capacity w ∧ w.used_bytes = (k - ds.length) * item_size := by
  intro ds
  induction ds with
  | nil =>
    intro v w k hv hu _ hw
    simp only [del_all, Option.some.injEq] at hw
    rw [← hw]
    exact ⟨hv, by simpa using hu⟩
  | cons d rest ih =>
    intro v w k hv hu hk hw
    obtain ⟨index, junk⟩ := d
    obtain ⟨hi, _, _, _, _, hle, hsz, _⟩ := reached_facts item_size capacity v hitem hcap hv
    cases k with
    | zero => simp at hk
    | succ j =>
      have hsucc : (j + 1) * item_size = j * item_size + item_size := by ring
      have hne : item_size ≤ v.used_bytes := by omega
      simp only [del_all] at hw
      split at hw
      · rename_i v1 hd
        have hr := Reached.del v index junk hv hne
        have hused := (del_success v index (some junk)).2 (by rw [hd])
        rw [hd] at hr hused
        rw [sub_no_wrap _ _ (by omega) (by rw [hi]; exact hne), hi] at hused
        obtain ⟨hw1, hw2⟩ := ih v1 w j hr (by simp only at hused; omega)
          (by simp only [List.length_cons] at hk; omega) hw
        refine ⟨hw1, ?_⟩
        rw [hw2, List.length_cons, Nat.add_sub_add_right]
      · exact absurd hw (by simp)

theorem del_all_defined (item_size capacity : Nat) (hitem : 1 ≤ item_size)
    (hcap : 1 ≤ capacity) :
    ∀ (ds : List (Nat × List Byte)) (v : VECTOR) (k : Nat),
      Reached item_size capacity v → v.used_bytes = k * item_size → ds.length ≤ k →
      (∀ d ∈ ds, (d.1 * item_size) % SIZE < capacity * item_size) →
      ∃ w, del_all v ds = some w := by
  intro ds
  induction ds with
  | nil =>
    intro v k _ _ _ _
    exact ⟨v, rfl⟩
  | cons d rest ih =>
    intro v k hv hu hk hidx
    obtain ⟨index, junk⟩ := d
    obtain ⟨hi, hn, _, hinle, _, hle, hsz, _⟩ :=
      reached_facts item_size capacity v hitem hcap hv
    have hlt := hidx (index, junk) (List.mem_cons_self _ _)
    have h1 : (vector_del v index (some junk)).1 = ERROR.SUCCESS :=
      (del_success v index (some junk)).1.2 (by rw [hi]; simp only at hlt; omega)
    have hd : vector_del v index (some junk) =
        (ERROR.SUCCESS, (vector_del v index (some junk)).2) := Prod.ext h1 rfl
    have hw : del_all v ((index, junk) :: rest) =
        del_all (vector_del v index (some junk)).2 rest := by
      simp only [del_all]
      rw [hd]
    rw [hw]
    cases k with
    | zero => simp at hk
    | succ j =>
      have hsucc : (j + 1) * item_size = j * item_size + item_size := by ring
      have hne : item_size ≤ v.used_bytes := by omega
      have hused := (del_success v index (some junk)).2 h1
      rw [sub_no_wrap _ _ (by omega) (by rw [hi]; exact hne), hi] at hused
      exact ih _ j (Reached.del v index junk hv hne) (by omega)
        (by simp only [List.length_cons] at hk; omega)
        (fun y hy => hidx y (List.mem_cons_of_mem _ hy))

/-- C22: shrinking gives back all growth.  For `item_size >= 1`, `capacity >= 1`
and `N` values of `item_size` bytes, after a successful `vector_init`, `N`
successful pushes and then `N` successful deletes (reallocations succeeding)
the vector has `used_bytes = 0` and `total_bytes = init_bytes =
capacity * item_size`; after every prefix of the pushes and of the deletes
`total_bytes` is at least `init_bytes`; and the whole sequence is defined and
succeeds whenever twice the pushed bytes fit a `size_t` and the offset of each
delete index lies inside the initial capacity. -/
theorem pushes_then_deletes_give_back_growth (item_size capacity : Nat) (ok : Bool)
    (xs : List (List Byte × List Byte)) (ds : List (Nat × List Byte))
    (hitem : 1 ≤ item_size) (hcap : 1 ≤ capacity)
    (hinit : (vector_init item_size capacity ok).1 = ERROR.SUCCESS)
    (hlen : ∀ x ∈ xs, x.1.length = item_size) (hN : ds.length = xs.length) :
    (∀ v w, push_all (vector_init item_size capacity ok).2 xs = some v →
      del_all v ds = some w →
      w.used_bytes = 0 ∧ w.total_bytes = capacity * item_size ∧
        w.init_bytes = capacity * item_size) ∧
    (∀ n u, push_all (vector_init item_size capacity ok).2 (xs.take n) = some u →
      u.init_bytes = capacity * item_size ∧ u.init_bytes ≤ u.total_bytes) ∧
    (∀ v n u, push_all (vector_init item_size capacity ok).2 xs = some v →
      del_all v (ds.take n) = some u →
      u.init_bytes = capacity * item_size ∧ u.init_bytes ≤ u.total_bytes) ∧
    (2 * xs.length * item_size < SIZE →
      (∀ d ∈ ds, (d.1 * item_size) % SIZE < capacity * item_size) →
      ∃ v w, push_all (vector_init item_size capacity ok).2 xs = some v ∧
        del_all v ds = some w) := by
  have h0 : Reached item_size capacity (vector_init item_size capacity ok).2 :=
    Reached.init ok hinit
  have hF0 := filled_init item_size capacity ok hinit
  have hpushed : ∀ v, push_all (vector_init item_size capacity ok).2 xs = some v →
      Reached item_size capacity v ∧ v.used_bytes = xs.length * item_size := by
    intro v hv
    refine ⟨push_all_reached item_size capacity hitem hcap xs _ v h0 hlen hv, ?_⟩
    have hF := push_all_filled_of_defined item_size capacity hitem hcap xs 0 [] _ v hF0
      hlen hv
    rw [hF.2.2.1, Nat.zero_add]
  refine ⟨?_, ?_, ?_, ?_⟩
  · intro v w hv hw
    obtain ⟨hr, hu⟩ := hpushed v hv
    obtain ⟨hrw, huw⟩ := del_all_reached item_size capacity hitem hcap ds v w xs.length hr hu
      (by omega) hw
    obtain ⟨_, hn, _, hinle, _, _, _, hhalf⟩ :=
      reached_facts item_size capacity w hitem hcap hrw
    have hz : w.used_bytes = 0 := by
      rw [huw, hN]
      simp
    refine ⟨hz, ?_, hn⟩
    by_cases hlt : w.init_bytes < w.total_bytes
    · have := (hhalf hlt).1
      omega
    · omega
  · intro n u hu
    have hr := push_all_reached item_size capacity hitem hcap (xs.take n) _ u h0
      (fun x hx => hlen x (List.mem_of_mem_take hx)) hu
    obtain ⟨_, hn, _, hinle, _⟩ := reached_facts item_size capacity u hitem hcap hr
    exact ⟨hn, hinle⟩
  · intro v n u hv hu
    obtain ⟨hr, huv⟩ := hpushed v hv
    have hlt : (ds.take n).length ≤ xs.length := by
      rw [List.length_take]
      omega
    obtain ⟨hru, _⟩ := del_all_reached item_size capacity hitem hcap (ds.take n) v u
      xs.length hr huv hlt hu
    obtain ⟨_, hn, _, hinle, _⟩ := reached_facts item_size capacity u hitem hcap hru
    exact ⟨hn, hinle⟩
  · intro hfit hidx
    obtain ⟨v, hv, _⟩ := push_all_filled item_size capacity hitem hcap xs 0 [] _ hF0 hlen
      (by simpa using hfit)
    obtain ⟨hr, hu⟩ := hpushed v hv
    obtain ⟨w, hw⟩ := del_all_defined item_size capacity hitem hcap ds v xs.length hr hu
      (by omega) hidx
    exact ⟨v, w, hv, hw⟩

set_option maxRecDepth 8000 in
theorem pushes_then_deletes_give_back_growth_witness :
    ∃ v w, push_all (vector_init 1 1 true).2 [([1], []), ([2], []), ([3], [])] = some v ∧
      del_all v [(0, []), (0, []), (0, [])] = some w ∧
      v.total_bytes = 4 ∧
      w.used_bytes = 0 ∧ w.total_bytes = 1 * 1 ∧ w.init_bytes = 1 * 1 := by
  have hp : push_all (vector_init 1 1 true).2 [([1], []), ([2], []), ([3], [])] =
      some { data := some [1, 2, 3, 0], used_bytes := 3, item_size := 1, total_bytes := 4,
             init_bytes := 1 } := by decide
  have hd : del_all { data := some [1, 2, 3, 0], used_bytes := 3, item_size := 1,
                      total_bytes := 4, init_bytes := 1 } [(0, []), (0, []), (0, [])] =
      some { data := some [1], used_bytes := 0, item_size := 1, total_bytes := 1,
             init_bytes := 1 } := by decide
  exact ⟨_, _, hp, hd, rfl,
    (pushes_then_deletes_give_back_growth 1 1 true [([1], []), ([2], []), ([3], [])]
      [(0, []), (0, []), (0, [])] (by decide) (by decide) (by decide) (by decide)
      (by decide)).1 _ _ hp hd⟩

/-! ## Sessions of the test harness -/

theorem count_ok_test_events (t : TESTS) (returns : Nat → Bool) (l : List Nat) :
    (l.flatMap (test_events t returns)).count Event.ok = l.countP (fun i => returns i) := by
  induction l with
  | nil => rfl
  | cons i rest ih =>
    rw [List.flatMap_cons, List.count_append, ih, List.countP_cons]
    cases hr : returns i
    · simp [test_events, hr]
    · simp [test_events, hr]
      omega

/-- The state after `tests_run`, from any state whose counters are `unsigned
int` values. -/
theorem tests_run_fields (h : HARNESS) (returns : Nat → Bool)
    (hc : h.current_test < UINT) (hp : h.passed_tests < UINT) :
    (tests_run h returns).2.tests = h.tests ∧
    (tests_run h returns).2.current_test = (h.current_test + h.tests.size) % UINT ∧
    (tests_run h returns).2.passed_tests =
      (h.passed_tests + (List.range h.tests.size).countP (fun i => returns i)) % UINT ∧
    executed (tests_run h returns).2 = executed h + h.tests.size ∧
    passed (tests_run h returns).2 =
      passed h + (List.range h.tests.size).countP (fun i => returns i) ∧
    ((tests_run h returns).1 = ERROR.SUCCESS ↔
      (tests_run h returns).2.current_test = (tests_run h returns).2.passed_tests) := by
  obtain ⟨k1, k2⟩ := loop_counts returns (List.range h.tests.size) h hc hp
  obtain ⟨o1, o2⟩ := loop_out returns (List.range h.tests.size) h
  have hcalls : ∀ e : Event, (calls [e]).length = 0 → ∀ out : List Event,
      (calls (out ++ [e])).length = (calls out).length := by
    intro e he out
    rw [calls_append, List.length_append, he, Nat.add_zero]
  rw [List.length_range] at k1
  simp only [tests_run]
  split
  · rename_i heq
    refine ⟨o1, k1, k2, ?_, ?_, ?_⟩
    · simp only [executed]
      rw [hcalls Event.all_passed rfl, o2, calls_append, calls_test_events, List.length_append,
        List.length_map, List.length_range]
    · simp only [passed]
      rw [o2, List.count_append, List.count_append, count_ok_test_events]
      simp
    · exact ⟨fun _ => heq, fun _ => rfl⟩
  · rename_i hne
    refine ⟨o1, k1, k2, ?_, ?_, ?_⟩
    · simp only [executed]
      rw [hcalls (Event.failed _) rfl, o2, calls_append, calls_test_events, List.length_append,
        List.length_map, List.length_range]
    · simp only [passed]
      rw [o2, List.count_append, List.count_append, count_ok_test_events]
      simp
    · exact ⟨fun he => ERROR.noConfusion he, fun he => absurd he hne⟩

theorem counted_step (h : HARNESS) (c : Call) (hC : Counted h) : Counted (call_step h c) := by
  obtain ⟨c1, c2, c3⟩ := hC
  cases c with
  | add test_function test_name => exact ⟨c1, c2, c3⟩
  | run returns =>
    have hpos : 0 < UINT := by decide
    have hc : h.current_test < UINT := by rw [c1]; exact Nat.mod_lt _ hpos
    have hp : h.passed_tests < UINT := by rw [c2]; exact Nat.mod_lt _ hpos
    obtain ⟨_, f2, f3, f4, f5, _⟩ := tests_run_fields h returns hc hp
    have hle := List.countP_le_length (fun i => returns i) (l := List.range h.tests.size)
    rw [List.length_range] at hle
    show Counted (tests_run h returns).2
    refine ⟨?_, ?_, ?_⟩
    · rw [f2, f4, c1, Nat.mod_add_mod]
    · rw [f3, f5, c2, Nat.mod_add_mod]
    · rw [f4, f5]
      omega

theorem session_counted : ∀ (cs : List Call) (h : HARNESS), Counted h →
    Counted (session h cs) := by
  intro cs
  induction cs with
  | nil =>
    intro h hC
    exact hC
  | cons c cs ih =>
    intro h hC
    exact ih (call_step h c) (counted_step h c hC)

/-- C26 as amended: the counters `current_test` and `passed_tests` are never
reset: after every sequence of `test_add` and `tests_run` calls they hold the
numbers of tests executed and passed in the whole process, modulo `2 ^ 32`;
`test_add` leaves them as they are and `tests_run` adds the tests of this run
to them.  As long as fewer than `2 ^ 32` tests have been executed in the
process, `passed_tests <= current_test` holds and a call of `tests_run`
returns SUCCESS if and only if no test has aborted in this or in any earlier
`tests_run` call, so once one run has had a failure every later run returns
FAILURE, even when all of its tests pass. -/
theorem run_succeeds_iff_no_abort_so_far (t : TESTS) (cs : List Call)
    (returns : Nat → Bool) (h : HARNESS) (hh : h = session (harness_start t) cs) :
    (h.current_test = executed h % UINT ∧ h.passed_tests = passed h % UINT) ∧
    (∀ f name, (call_step h (Call.add f name)).current_test = h.current_test ∧
      (call_step h (Call.add f name)).passed_tests = h.passed_tests) ∧
    (tests_run h returns).2.current_test = (h.current_test + h.tests.size) % UINT ∧
    (tests_run h returns).2.passed_tests =
      (h.passed_tests + (List.range h.tests.size).countP (fun i => returns i)) % UINT ∧
    aborted (tests_run h returns).2 =
      aborted h + (List.range h.tests.size).countP (fun i => !returns i) ∧
    (executed (tests_run h returns).2 < UINT →
      h.passed_tests ≤ h.current_test ∧
      (tests_run h returns).2.passed_tests ≤ (tests_run h returns).2.current_test ∧
      ((tests_run h returns).1 = ERROR.SUCCESS ↔ aborted (tests_run h returns).2 = 0) ∧
      (0 < aborted h → (tests_run h returns).1 = ERROR.FAILURE) ∧
      ((tests_run h returns).1 = ERROR.SUCCESS ↔
        aborted h = 0 ∧ ∀ i, i < h.tests.size → returns i = true)) := by
  have hC0 : Counted (harness_start t) := ⟨rfl, rfl, Nat.le_refl _⟩
  have hC := session_counted cs (harness_start t) hC0
  rw [← hh] at hC
  obtain ⟨c1, c2, c3⟩ := hC
  have hpos : 0 < UINT := by decide
  have hc : h.current_test < UINT := by rw [c1]; exact Nat.mod_lt _ hpos
  have hp : h.passed_tests < UINT := by rw [c2]; exact Nat.mod_lt _ hpos
  obtain ⟨_, f2, f3, f4, f5, f6⟩ := tests_run_fields h returns hc hp
  have hsplit := count_split returns (List.range h.tests.size)
  rw [List.length_range] at hsplit
  have hab : aborted (tests_run h returns).2 =
      aborted h + (List.range h.tests.size).countP (fun i => !returns i) := by
    simp only [aborted]
    rw [f4, f5]
    omega
  refine ⟨⟨c1, c2⟩, fun _ _ => ⟨rfl, rfl⟩, f2, f3, hab, ?_⟩
  intro hlt
  rw [f4] at hlt
  have e1 : h.current_test = executed h := by
    rw [c1]
    exact Nat.mod_eq_of_lt (by omega)
  have e2 : h.passed_tests = passed h := by
    rw [c2]
    exact Nat.mod_eq_of_lt (by omega)
  have e3 : (tests_run h returns).2.current_test = executed h + h.tests.size := by
    rw [f2, e1]
    exact Nat.mod_eq_of_lt hlt
  have e4 : (tests_run h returns).2.passed_tests =
      passed h + (List.range h.tests.size).countP (fun i => returns i) := by
    rw [f3, e2]
    exact Nat.mod_eq_of_lt (by omega)
  have hiff : (tests_run h returns).1 = ERROR.SUCCESS ↔
      aborted (tests_run h returns).2 = 0 := by
    rw [f6, e3, e4, hab]
    simp only [aborted]
    omega
  have hall : (List.range h.tests.size).countP (fun i => !returns i) = 0 ↔
      ∀ i, i < h.tests.size → returns i = true := by
    rw [List.countP_eq_zero]
    constructor
    · intro hz i hi
      have := hz i (List.mem_range.mpr hi)
      simpa using this
    · intro hz i hi
      simp [hz i (List.mem_range.mp hi)]
  refine ⟨by omega, by omega, hiff, ?_, ?_⟩
  · intro hpos1
    cases hr : (tests_run h returns).1 with
    | FAILURE => rfl
    | SUCCESS =>
      have := hiff.mp hr
      omega
  · rw [hiff, hab, ← hall]
    omega

theorem run_succeeds_iff_no_abort_so_far_witness :
    (tests_run
        (session (harness_start tests)
          [Call.add 11 "a", Call.add 22 "b", Call.run (fun i => i != 1), Call.add 33 "c"])
        (fun _ => true)).1 = ERROR.FAILURE :=
  ((run_succeeds_iff_no_abort_so_far tests
    [Call.add 11 "a", Call.add 22 "b", Call.run (fun i => i != 1), Call.add 33 "c"]
    (fun _ => true) _ rfl).2.2.2.2.2 (by decide)).2.2.2.1 (by decide)

theorem session_cons (h : HARNESS) (c : Call) (cs : List Call) :
    session h (c :: cs) = session (call_step h c) cs := rfl

/-- Runs in which every test aborts leave the registry and `passed_tests` as
they are and add the number of registered tests to `current_test` each time. -/
theorem aborting_runs (n : Nat) : ∀ (h : HARNESS), h.current_test < UINT →
    h.passed_tests < UINT →
    (session h (List.replicate n (Call.run (fun _ => false)))).tests = h.tests ∧
    (session h (List.replicate n (Call.run (fun _ => false)))).current_test =
      (h.current_test + n * h.tests.size) % UINT ∧
    (session h (List.replicate n (Call.run (fun _ => false)))).passed_tests =
      h.passed_tests := by
  induction n with
  | zero =>
    intro h hc hp
    refine ⟨rfl, ?_, rfl⟩
    simp only [session, List.replicate, List.foldl_nil, Nat.zero_mul, Nat.add_zero]
    exact (Nat.mod_eq_of_lt hc).symm
  | succ n ih =>
    intro h hc hp
    obtain ⟨f1, f2, f3, _⟩ := tests_run_fields h (fun _ => false) hc hp
    have hz : (List.range h.tests.size).countP (fun _ => false) = 0 := by simp
    rw [hz, Nat.add_zero, Nat.mod_eq_of_lt hp] at f3
    have hpos : 0 < UINT := by decide
    have hstep : session h (List.replicate (n + 1) (Call.run (fun _ => false))) =
        session (tests_run h (fun _ => false)).2
          (List.replicate n (Call.run (fun _ => false))) := session_cons _ _ _
    obtain ⟨i1, i2, i3⟩ := ih (tests_run h (fun _ => false)).2
      (by rw [f2]; exact Nat.mod_lt _ hpos) (by rw [f3]; exact hp)
    rw [hstep, i1, i2, i3, f1, f2, f3, Nat.mod_add_mod]
    refine ⟨rfl, ?_, rfl⟩
    congr 1
    ring

/-- On a registry of one test with `current_test = 2 ^ 32 - 1` and
`passed_tests = 0`, a run in which the test aborts returns SUCCESS, and a run in
which it passes leaves `current_test = 0` and `passed_tests = 1`. -/
theorem run_at_counter_limit (h : HARNESS) (hs : h.tests.size = 1)
    (hcur : h.current_test = 4294967295) (hpas : h.passed_tests = 0) :
    (tests_run h (fun _ => false)).1 = ERROR.SUCCESS ∧
    (tests_run h (fun _ => true)).2.current_test = 0 ∧
    (tests_run h (fun _ => true)).2.passed_tests = 1 := by
  have hc : h.current_test < UINT := by rw [hcur]; decide
  have hp : h.passed_tests < UINT := by rw [hpas]; decide
  obtain ⟨_, f2, f3, _, _, f6⟩ := tests_run_fields h (fun _ => false) hc hp
  obtain ⟨_, g2, g3, _⟩ := tests_run_fields h (fun _ => true) hc hp
  rw [hs, hcur] at f2 g2
  rw [hs, hpas] at f3 g3
  refine ⟨?_, ?_, ?_⟩
  · rw [f6, f2, f3]
    decide
  · rw [g2]
    decide
  · rw [g3]
    decide

/-- C26 as stated fails once the `unsigned int` counters wrap.  Register one
test and call `tests_run` `2 ^ 32 - 1` times with the test aborting each time:
`current_test = 2 ^ 32 - 1` and `passed_tests = 0`.  If the test aborts again in
the next run, `current_test` wraps to 0, equal to `passed_tests`, and
`tests_run` returns SUCCESS although the test aborted in this run and in every
earlier one.  If instead the test passes in the next run, the counters become
`current_test = 0` and `passed_tests = 1`, so `passed_tests <= current_test`
does not hold. -/
theorem run_succeeds_after_counter_wrap :
    (session (harness_start tests)
      (Call.add 1 "t" :: List.replicate 4294967295 (Call.run (fun _ => false)))).tests.size
      = 1 ∧
    (session (harness_start tests)
      (Call.add 1 "t" :: List.replicate 4294967295 (Call.run (fun _ => false)))).current_test
      = 4294967295 ∧
    (session (harness_start tests)
      (Call.add 1 "t" :: List.replicate 4294967295 (Call.run (fun _ => false)))).passed_tests
      = 0 ∧
    (tests_run
      (session (harness_start tests)
        (Call.add 1 "t" :: List.replicate 4294967295 (Call.run (fun _ => false))))
      (fun _ => false)).1 = ERROR.SUCCESS ∧
    (tests_run
      (session (harness_start tests)
        (Call.add 1 "t" :: List.replicate 4294967295 (Call.run (fun _ => false))))
      (fun _ => true)).2.current_test = 0 ∧
    (tests_run
      (session (harness_start tests)
        (Call.add 1 "t" :: List.replicate 4294967295 (Call.run (fun _ => false))))
      (fun _ => true)).2.passed_tests = 1 ∧
    ¬ ((1 : Nat) ≤ 0) := by
  have hsize : (call_step (harness_start tests) (Call.add 1 "t")).tests.size = 1 := by
    decide
  have h0 : (0 : Nat) < UINT := by decide
  obtain ⟨a1, a2, a3⟩ := aborting_runs 4294967295
    (call_step (harness_start tests) (Call.add 1 "t")) h0 h0
  rw [← session_cons] at a1 a2 a3
  have hs : (session (harness_start tests)
      (Call.add 1 "t" :: List.replicate 4294967295 (Call.run (fun _ => false)))).tests.size
      = 1 := by rw [a1, hsize]
  have hcur : (session (harness_start tests)
      (Call.add 1 "t" :: List.replicate 4294967295
        (Call.run (fun _ => false)))).current_test = 4294967295 := by
    rw [a2, hsize]
    decide
  obtain ⟨r1, r2, r3⟩ := run_at_counter_limit _ hs hcur a3
  exact ⟨hs, hcur, a3, r1, r2, r3, by decide⟩

/-! ## Reached states are reachable within the contract -/

theorem run_append (ops1 ops2 : List Op) :
    ∀ v : VECTOR, run v (ops1 ++ ops2) = (run v ops1).bind (fun w => run w ops2) := by
  induction ops1 with
  | nil =>
    intro v
    rfl
  | cons op ops ih =>
    intro v
    simp only [List.cons_append, run]
    cases hs : step v op with
    | none => rfl
    | some v1 => simpa using ih v1

theorem along_append (ok : VECTOR → Op → Bool) (ops1 ops2 : List Op) :
    ∀ v w : VECTOR, run v ops1 = some w →
      along ok v (ops1 ++ ops2) = (along ok v ops1 && along ok w ops2) := by
  induction ops1 with
  | nil =>
    intro v w hr
    simp only [run, Option.some.injEq] at hr
    subst hr
    simp [along]
  | cons op ops ih =>
    intro v w hr
    obtain ⟨v1, hs, hr1⟩ := (run_cons v w op ops).1 hr
    rw [List.cons_append]
    simp only [along, hs]
    rw [ih v1 w hr1, Bool.and_assoc]

/-- A state reached by successful pushes and by deletes on a non-empty vector,
the reallocations succeeding, is reachable by operations used within the
contract: a successful push never doubles the capacity beyond the range of
`size_t`. -/
theorem reached_reachable (item_size capacity : Nat) (v : VECTOR) (hitem : 1 ≤ item_size)
    (hcap : 1 ≤ capacity) (h : Reached item_size capacity v) :
    Reachable item_size capacity v := by
  induction h with
  | init ok hinit => exact ⟨ok, [], hinit, rfl, rfl⟩
  | push v v1 value junk p hv hlen hp ih =>
    obtain ⟨ok, ops, hinit, halong, hrun⟩ := ih
    obtain ⟨hi, _, _, _, _, hle, hsz, _⟩ := reached_facts item_size capacity v hitem hcap hv
    have hs : step v (Op.push value item_size (some junk)) = some v1 := by
      simp [step, hp]
    have hfit : doubling_fits v (Op.push value item_size (some junk)) = true := by
      simp only [doubling_fits, growth_factor]
      split
      · rename_i hc
        have hfull : v.used_bytes = v.total_bytes := by omega
        simp only [decide_eq_true_eq]
        by_contra hcon
        rw [← hi, push_wrapped_undefined v value junk hfull hsz (by omega)] at hp
        exact absurd hp (by simp)
      · rfl
    have hwc : within_contract v (Op.push value item_size (some junk)) = true := by
      simp [within_contract, hfit, del_has_item, shrink_succeeds]
    refine ⟨ok, ops ++ [Op.push value item_size (some junk)], hinit, ?_, ?_⟩
    · rw [along_append within_contract ops _ _ v hrun, halong]
      simp [along, hwc, hs]
    · rw [run_append, hrun]
      simp [run, hs]
  | del v index junk hv hne ih =>
    obtain ⟨ok, ops, hinit, halong, hrun⟩ := ih
    obtain ⟨hi, _⟩ := reached_facts item_size capacity v hitem hcap hv
    have hwc : within_contract v (Op.del index (some junk)) = true := by
      simp [within_contract, doubling_fits, del_has_item, shrink_succeeds, hi, hne]
    refine ⟨ok, ops ++ [Op.del index (some junk)], hinit, ?_, ?_⟩
    · rw [along_append within_contract ops _ _ v hrun, halong]
      simp [along, hwc, step]
    · rw [run_append, hrun]
      simp [run, step]

end Cutil
